import Mathlib

/-!
# A verification development for `malloc.c` (segregated free-list allocator)

The C program keeps ten singly linked free lists ("bins") of block headers
`my_metadata_t { size_t size; my_metadata_t *next; }` inside one static
`my_heap_t my_heap`, and obtains 4096-byte regions from `mmap_from_system`.

Embedding.
* Addresses and `size_t` values are natural numbers; `NULL` is `0`.
  `sizeof(my_metadata_t)` is 16 (LP64).  The only subtractions of the program,
  `metadata_best->size - size`, `remaining_size - sizeof(my_metadata_t)` and
  `buffer_size - sizeof(my_metadata_t)`, are guarded by the program itself
  (`metadata->size >= size`, `remaining_size > sizeof(my_metadata_t)`, constants),
  so they never wrap and truncated subtraction on `Nat` agrees with them.
* Memory is a typed heap `mem : Nat → my_metadata_t`: `mem a` is the header
  stored at address `a`.  The sentinel `my_heap.dummy` is the header stored at
  the address `env.dummy`.  Payload bytes are not modelled.  A store to one
  header leaves every other header as it is; `extents_disjoint` below shows that
  in the reachable states no two headers share a byte, so that this agrees with
  byte-addressed memory.
* `free_bins i` is `my_heap.free_bins[i]`.
* The page provider `mmap_from_system` is external: `env.page k` is the address
  returned by its `k`-th call, and the state logs the sizes requested so far.
* Loops that follow `next` pointers take a fuel argument and fail with
  `Err.out_of_fuel` when it runs out; a failed `assert` is `Err.assert_failed`.
-/

namespace Malloc

/-- The constant `MIN_BIN_SCALE` of the source. -/
def MIN_BIN_SCALE : Nat := 3

/-- The constant `MAX_BIN_SCALE` of the source. -/
def MAX_BIN_SCALE : Nat := 12

/-- The value of `sizeof(my_metadata_t)`: one `size_t` and one pointer. -/
def HEADER_SIZE : Nat := 16

/-- The block header `my_metadata_t`; `next` is an address, `0` is `NULL`. -/
structure my_metadata_t where
  size : Nat
  next : Nat
deriving DecidableEq, Repr

/-- What is outside the allocator: the page provider and the place of the
static `my_heap.dummy`. -/
structure Env where
  /-- the address returned by the `k`-th call of `mmap_from_system` -/
  page : Nat → Nat
  /-- the address `&my_heap.dummy` -/
  dummy : Nat

/-- The machine state: the bin heads of `my_heap`, the headers in memory and
the log of the sizes requested from `mmap_from_system`. -/
structure State where
  free_bins : Nat → Nat
  mem : Nat → my_metadata_t
  mmap_log : List Nat

/-- How a run of the model can fail. -/
inductive Err where
  | assert_failed
  | out_of_fuel
deriving DecidableEq, Repr

/-- The store `a->size = v`. -/
def writeSize (mem : Nat → my_metadata_t) (a v : Nat) : Nat → my_metadata_t :=
  fun x => if x = a then { size := v, next := (mem a).next } else mem x

/-- The store `a->next = v`. -/
def writeNext (mem : Nat → my_metadata_t) (a v : Nat) : Nat → my_metadata_t :=
  fun x => if x = a then { size := (mem a).size, next := v } else mem x

/-- The store `my_heap.free_bins[i] = v`. -/
def writeBin (bins : Nat → Nat) (i v : Nat) : Nat → Nat :=
  fun x => if x = i then v else bins x

/-- The loop of `find_bin_idx` from scale `i` on, with `n = MAX_BIN_SCALE - i`
iterations left: `for (; i < MAX_BIN_SCALE; i++) if ((1 << i) >= size) return
i - MIN_BIN_SCALE;` and then `return MAX_BIN_SCALE - MIN_BIN_SCALE`. -/
def find_bin_idx_loop (size : Nat) : Nat → Nat → Nat
  | 0, _ => MAX_BIN_SCALE - MIN_BIN_SCALE
  | n + 1, i =>
    if (1 <<< i) ≥ size then i - MIN_BIN_SCALE
    else find_bin_idx_loop size n (i + 1)

/-- The function `find_bin_idx` of the source. -/
def find_bin_idx (size : Nat) : Nat :=
  find_bin_idx_loop size (MAX_BIN_SCALE - MIN_BIN_SCALE) MIN_BIN_SCALE

/-- The function `my_add_to_free_list` of the source. -/
def my_add_to_free_list (metadata : Nat) (s : State) : Except Err State :=
  if (s.mem metadata).next ≠ 0 then .error .assert_failed
  else
    let bin_idx := find_bin_idx (s.mem metadata).size
    .ok { free_bins := writeBin s.free_bins bin_idx metadata
          mem := writeNext s.mem metadata (s.free_bins bin_idx)
          mmap_log := s.mmap_log }

/-- The function `my_remove_from_free_list` of the source. -/
def my_remove_from_free_list (metadata prev idx : Nat) (s : State) : State :=
  if prev ≠ 0 then
    { free_bins := s.free_bins
      mem := writeNext (writeNext s.mem prev (s.mem metadata).next) metadata 0
      mmap_log := s.mmap_log }
  else
    { free_bins := writeBin s.free_bins idx (s.mem metadata).next
      mem := writeNext s.mem metadata 0
      mmap_log := s.mmap_log }

/-- The loop of `my_initialize` from index `i` on, with `n` iterations left. -/
def my_initialize_loop (dummy : Nat) : Nat → Nat → (Nat → Nat) → (Nat → Nat)
  | 0, _, bins => bins
  | n + 1, i, bins => my_initialize_loop dummy n (i + 1) (writeBin bins i dummy)

/-- The function `my_initialize` of the source: the loop runs over
`0 ≤ i < MAX_BIN_SCALE - MIN_BIN_SCALE`. -/
def my_initialize (env : Env) (s : State) : State :=
  { free_bins := my_initialize_loop env.dummy (MAX_BIN_SCALE - MIN_BIN_SCALE) 0 s.free_bins
    mem := writeNext (writeSize s.mem env.dummy 0) env.dummy 0
    mmap_log := s.mmap_log }

/-- The inner `while (metadata)` loop of `my_malloc`.  The result is
`(metadata_best, prev_best, size_best)` at loop exit. -/
def scan_loop (mem : Nat → my_metadata_t) (size : Nat) :
    Nat → Nat → Nat → Nat → Nat → Nat → Except Err (Nat × Nat × Nat)
  | 0, _, _, _, _, _ => .error .out_of_fuel
  | fuel + 1, metadata, prev, metadata_best, prev_best, size_best =>
    if metadata = 0 then .ok (metadata_best, prev_best, size_best)
    else if (mem metadata).size ≥ size ∧ (size_best = 0 ∨ size_best > (mem metadata).size) then
      scan_loop mem size fuel (mem metadata).next metadata metadata prev (mem metadata).size
    else
      scan_loop mem size fuel (mem metadata).next metadata metadata_best prev_best size_best

/-- The outer `for (int i = bin_idx; i <= MAX_BIN_SCALE - MIN_BIN_SCALE; i++)`
loop of `my_malloc` from bin `i` on, with `n` iterations left.  The result is
`none` when `bin_idx_best` stays `-1`, and otherwise
`some (bin_idx_best, metadata_best, prev_best)`. -/
def bin_loop (s : State) (size fuel : Nat) : Nat → Nat → Except Err (Option (Nat × Nat × Nat))
  | 0, _ => .ok none
  | n + 1, i =>
    match scan_loop s.mem size fuel (s.free_bins i) 0 (s.free_bins i) 0 0 with
    | .error e => .error e
    | .ok (metadata_best, prev_best, size_best) =>
      if size_best > 0 then .ok (some (i, metadata_best, prev_best))
      else bin_loop s size fuel n (i + 1)

/-- Lines 107 to 135 of `my_malloc`: the search for a block. -/
def find_best (s : State) (size fuel : Nat) : Except Err (Option (Nat × Nat × Nat)) :=
  bin_loop s size fuel (MAX_BIN_SCALE - MIN_BIN_SCALE + 1 - find_bin_idx size) (find_bin_idx size)

/-- Lines 149 to 154 of `my_malloc`, the miss path before the retry: one
region of 4096 bytes is requested and filed as one free block. -/
def new_page (env : Env) (s : State) : Except Err State :=
  let buffer_size := 4096
  let metadata := env.page s.mmap_log.length
  my_add_to_free_list metadata
    { free_bins := s.free_bins
      mem := writeNext (writeSize s.mem metadata (buffer_size - HEADER_SIZE)) metadata 0
      mmap_log := s.mmap_log ++ [buffer_size] }

/-- Lines 164 to 185 of `my_malloc`, the hit path: the chosen block is cut to
`size`, unlinked, and the rest is filed as a new block when it is larger than
a header. -/
def take_block (size bin_idx_best metadata_best prev_best : Nat) (s : State) :
    Except Err (Nat × State) :=
  let ptr := metadata_best + HEADER_SIZE
  let remaining_size := (s.mem metadata_best).size - size
  let s1 : State :=
    { free_bins := s.free_bins
      mem := writeSize s.mem metadata_best size
      mmap_log := s.mmap_log }
  let s2 := my_remove_from_free_list metadata_best prev_best bin_idx_best s1
  if remaining_size > HEADER_SIZE then
    let new_metadata := ptr + size
    match my_add_to_free_list new_metadata
        { free_bins := s2.free_bins
          mem := writeNext (writeSize s2.mem new_metadata (remaining_size - HEADER_SIZE))
            new_metadata 0
          mmap_log := s2.mmap_log } with
    | .error e => .error e
    | .ok s3 => .ok (ptr, s3)
  else .ok (ptr, s2)

/-- The function `my_malloc` of the source.  `depth` bounds the nesting of the
recursive call `return my_malloc(size)`, `fuel` the iterations of one list
scan. -/
def my_malloc (env : Env) (size fuel : Nat) : Nat → State → Except Err (Nat × State)
  | depth, s =>
    match find_best s size fuel with
    | .error e => .error e
    | .ok (some (bin_idx_best, metadata_best, prev_best)) =>
      take_block size bin_idx_best metadata_best prev_best s
    | .ok none =>
      match depth with
      | 0 => .error .out_of_fuel
      | d + 1 =>
        match new_page env s with
        | .error e => .error e
        | .ok s1 => my_malloc env size fuel d s1

/-- The function `my_free` of the source. -/
def my_free (ptr : Nat) (s : State) : Except Err State :=
  my_add_to_free_list (ptr - HEADER_SIZE) s

/-- A state in which the static `my_heap` is zero-initialised and nothing has
been requested from the page provider; the rest of memory is arbitrary. -/
def ZeroHeap (s : State) : Prop :=
  (∀ i, s.free_bins i = 0) ∧ s.mmap_log = []

/-- The all-zero state. -/
def zeroState : State :=
  { free_bins := fun _ => 0, mem := fun _ => ⟨0, 0⟩, mmap_log := [] }

/-- A concrete environment: pages at 4096, 8192, ... and the sentinel at 96. -/
def exEnv : Env := { page := fun k => 4096 * (k + 1), dummy := 96 }

/-! ## Specification vocabulary -/

/-- Following `next` from `head` visits exactly the nodes of `l`, none of
them `NULL`, and then reaches `NULL`. -/
def Chain (mem : Nat → my_metadata_t) : Nat → List Nat → Prop
  | head, [] => head = 0
  | head, a :: l => head = a ∧ a ≠ 0 ∧ Chain mem (mem a).next l

/-- The node `b` is linked in the list that starts at `head`. -/
inductive Linked (mem : Nat → my_metadata_t) : Nat → Nat → Prop
  | here (h : Nat) : h ≠ 0 → Linked mem h h
  | there (h b : Nat) : h ≠ 0 → Linked mem (mem h).next b → Linked mem h b

/-- The sentinel terminates the bins that `my_initialize` sets, the last bin
ends with `NULL`. -/
def sentinel (env : Env) (i : Nat) : List Nat :=
  if i < MAX_BIN_SCALE - MIN_BIN_SCALE then [env.dummy] else []

/-- The nodes of bin `i`: its blocks, then the sentinel if the bin has one. -/
def nodes (env : Env) (bins : Nat → List Nat) (i : Nat) : List Nat :=
  bins i ++ sentinel env i

/-- The header `b` is the header of a live block or of a block of some bin. -/
def Owned (bins : Nat → List Nat) (live : List Nat) (b : Nat) : Prop :=
  b ∈ live ∨ ∃ i, i < 10 ∧ b ∈ bins i

/-- What is assumed of the environment: the sentinel and the pages are not at
`NULL`, the pages are pairwise disjoint regions of 4096 bytes, and no page
overlaps the static sentinel. -/
def EnvOK (env : Env) : Prop :=
  env.dummy ≠ 0 ∧
  (∀ k, env.page k ≠ 0) ∧
  (∀ j k, j ≠ k → env.page j + 4096 ≤ env.page k ∨ env.page k + 4096 ≤ env.page j) ∧
  (∀ k, env.dummy + HEADER_SIZE ≤ env.page k ∨ env.page k + 4096 ≤ env.dummy)

/-- The representation invariant: `bins i` lists the blocks of bin `i` in list
order and `live` the headers of the blocks handed out. -/
structure Inv (env : Env) (s : State) (bins : Nat → List Nat) (live : List Nat) : Prop where
  chain : ∀ i, i < 10 → Chain s.mem (s.free_bins i) (nodes env bins i)
  nodup : ∀ i, i < 10 → (bins i).Nodup
  live_nodup : live.Nodup
  dummy_size : (s.mem env.dummy).size = 0
  dummy_next : (s.mem env.dummy).next = 0
  bin_of : ∀ i, i < 10 → ∀ b, b ∈ bins i → find_bin_idx (s.mem b).size = i ∧ b ∉ live
  live_next : ∀ b, b ∈ live → (s.mem b).next = 0
  in_page : ∀ b, Owned bins live b → ∃ k, k < s.mmap_log.length ∧ env.page k ≤ b ∧
    b + HEADER_SIZE + (s.mem b).size ≤ env.page k + 4096
  disj : ∀ b c, Owned bins live b → Owned bins live c → b ≠ c →
    b + HEADER_SIZE + (s.mem b).size ≤ c ∨ c + HEADER_SIZE + (s.mem c).size ≤ b
  log : ∀ x, x ∈ s.mmap_log → x = 4096

/-- Every block has a size that is a positive multiple of 8 and lies at a
multiple of 8 from the start of a page. -/
def Aligned (env : Env) (s : State) (bins : Nat → List Nat) (live : List Nat) : Prop :=
  ∀ b, Owned bins live b → 8 ≤ (s.mem b).size ∧ (s.mem b).size % 8 = 0 ∧
    ∃ k, env.page k ≤ b ∧ (b - env.page k) % 8 = 0

/-- The states reachable from `my_initialize()` on a zero-initialised heap by
`my_malloc(size)` with `size` a multiple of 8 in `[8, 4000]` and `my_free(p)`
on live pointers; `live` lists the live pointers with the sizes requested. -/
inductive Reachable (env : Env) : State → List (Nat × Nat) → Prop
  | init (s0 : State) : ZeroHeap s0 → Reachable env ( my_initialize env s0) []
  | malloc (s : State) (live : List (Nat × Nat)) (size fuel depth p : Nat) (s1 : State) :
      Reachable env s live → size % 8 = 0 → 8 ≤ size → size ≤ 4000 →
      my_malloc env size fuel depth s = .ok (p, s1) →
      Reachable env s1 ((p, size) :: live)
  | free (s : State) (live : List (Nat × Nat)) (p : Nat) (s1 : State) :
      Reachable env s live → p ∈ live.map Prod.fst →
      my_free p s = .ok s1 →
      Reachable env s1 (live.filter (fun e => e.1 ≠ p))

/-- The header `h` is a block of the state: the header of a live allocation,
or a node other than the sentinel linked in one of the ten bins. -/
def IsBlock (env : Env) (s : State) (live : List (Nat × Nat)) (h : Nat) : Prop :=
  h + HEADER_SIZE ∈ live.map Prod.fst ∨
  (h ≠ env.dummy ∧ ∃ i, i ≤ MAX_BIN_SCALE - MIN_BIN_SCALE ∧ Linked s.mem (s.free_bins i) h)

/-- The result of the `while (metadata)` loop of `my_malloc` over the nodes
`l`, as a fold: `(metadata_best, prev_best, size_best)`. -/
def scanAbs (mem : Nat → my_metadata_t) (size : Nat) :
    List Nat → Nat → Nat → Nat → Nat → Nat × Nat × Nat
  | [], _, metadata_best, prev_best, size_best => (metadata_best, prev_best, size_best)
  | a :: l, prev, metadata_best, prev_best, size_best =>
    if (mem a).size ≥ size ∧ (size_best = 0 ∨ size_best > (mem a).size) then
      scanAbs mem size l a a prev (mem a).size
    else scanAbs mem size l a metadata_best prev_best size_best

/-- The state in which `my_malloc` leaves `s`, or `s` itself when the run fails. -/
def stateAfterMalloc (env : Env) (size fuel depth : Nat) (s : State) : State :=
  match my_malloc env size fuel depth s with
  | .ok (_, s1) => s1
  | .error _ => s

/-- The state after `my_initialize()` on the all-zero state. -/
def exInit : State := my_initialize exEnv zeroState

/-- The search result `(i, b, prev)` is right for bin `i`: `b` is a block of
the bin that fits, `prev` is its predecessor in the list (`NULL` when `b` is
the head), the fitting blocks before `b` are strictly larger and those after
it are at least as large. -/
def FoundAt (s : State) (bins : Nat → List Nat) (size i b prev : Nat) : Prop :=
  ∃ pre post, bins i = pre ++ b :: post ∧ prev = pre.getLastD 0 ∧ size ≤ (s.mem b).size ∧
    (∀ x, x ∈ pre → size ≤ (s.mem x).size → (s.mem b).size < (s.mem x).size) ∧
    (∀ x, x ∈ post → size ≤ (s.mem x).size → (s.mem b).size ≤ (s.mem x).size)

/-- No block of bin `i` fits a request of `size` bytes. -/
def NoFit (s : State) (bins : Nat → List Nat) (size i : Nat) : Prop :=
  ∀ x, x ∈ bins i → (s.mem x).size < size

/-- What the search of `my_malloc` may return in a state with the bins `bins`. -/
def SearchSpec (s : State) (bins : Nat → List Nat) (size i : Nat) :
    Option (Nat × Nat × Nat) → Prop
  | none => ∀ j, i ≤ j → j < 10 → NoFit s bins size j
  | some (k, b, prev) => i ≤ k ∧ k < 10 ∧ FoundAt s bins size k b prev ∧
      ∀ j, i ≤ j → j < k → NoFit s bins size j

/-- The header `x` is a block of one of the ten bins. -/
def Free (bins : Nat → List Nat) (x : Nat) : Prop :=
  ∃ j, j < 10 ∧ x ∈ bins j

/-- What a returning call `my_malloc(size)` establishes from a state that
satisfies the invariant with the ghost lists `bins` and `live`: the result is
the address after a header `h`, the invariant holds with `h` live, the size
of `h` is exactly the requested one, at most one page of 4096 bytes was
requested, the sizes of the live blocks are kept, and alignment is kept. -/
def MallocPost (env : Env) (size : Nat) (s : State) (bins : Nat → List Nat)
    (live : List Nat) (p : Nat) (s1 : State) : Prop :=
  ∃ bins1 h, p = h + HEADER_SIZE ∧ Inv env s1 bins1 (h :: live) ∧ (s1.mem h).size = size ∧
    (s1.mmap_log = s.mmap_log ∨ s1.mmap_log = s.mmap_log ++ [4096]) ∧
    (∀ x, x ∈ live → (s1.mem x).size = (s.mem x).size) ∧
    (Aligned env s bins live → 8 ≤ size → size % 8 = 0 → Aligned env s1 bins1 (h :: live))

/-- The invariant of the reachable states, with the list `live` of the live
pointers and the sizes requested for them: the representation invariant and
alignment hold for some ghost lists, the live pointers are the addresses after
the live headers, and every live header records the size requested. -/
def ReachInv (env : Env) (s : State) (live : List (Nat × Nat)) : Prop :=
  ∃ bins liveH, Inv env s bins liveH ∧ Aligned env s bins liveH ∧
    live.map Prod.fst = liveH.map (fun h => h + HEADER_SIZE) ∧
    ∀ e, e ∈ live → (s.mem (e.1 - HEADER_SIZE)).size = e.2

/-- The state after `my_initialize(); my_malloc(16)` in the concrete
environment. -/
def exState1 : State := stateAfterMalloc exEnv 16 5 1 exInit

/-- The state after `my_initialize(); my_malloc(3000)` in the concrete
environment. -/
def exLarge1 : State := stateAfterMalloc exEnv 3000 5 1 exInit

/-- The state after `my_initialize(); my_malloc(3000); my_malloc(3000)`. -/
def exLarge2 : State := stateAfterMalloc exEnv 3000 5 1 exLarge1

/-- The state after `my_initialize(); my_malloc(100)` in the concrete
environment. -/
def exSmall1 : State := stateAfterMalloc exEnv 100 5 1 exInit

/-- The state after `my_initialize(); my_malloc(100); my_malloc(50)`. -/
def exSmall2 : State := stateAfterMalloc exEnv 50 5 0 exSmall1

/-- The state in which `my_free` leaves `s`, or `s` itself when the run fails. -/
def stateAfterFree (p : Nat) (s : State) : State :=
  match my_free p s with
  | .ok s1 => s1
  | .error _ => s

/-- The state after `my_initialize(); my_malloc(16); my_free(4112)` in the
concrete environment. -/
def exFreed1 : State := stateAfterFree 4112 exState1

/-- The node lists of the ten bins of the state after
`my_initialize(); my_malloc(16)` in the concrete environment. -/
def exLists1 : Nat → List Nat :=
  fun j => if j = 9 then [4128] else if j < 9 then [96] else []

/-- The state after `my_initialize(); my_malloc(16); my_malloc(16)`. -/
def exState2 : State := stateAfterMalloc exEnv 16 5 0 exState1

/-- The nodes visited from `head` by following `next` until `NULL`, at most
`fuel` of them. -/
def bin_list (mem : Nat → my_metadata_t) : Nat → Nat → List Nat
  | 0, _ => []
  | fuel + 1, head =>
    if head = 0 then [] else head :: bin_list mem fuel (mem head).next

/-- The concatenation of the lists of all ten bins, bin 0 first. -/
def all_bins (s : State) (fuel : Nat) : List Nat :=
  (List.range (MAX_BIN_SCALE - MIN_BIN_SCALE + 1)).flatMap
    (fun i => bin_list s.mem fuel (s.free_bins i))

/-- A naive best-fit scan of one list: a node of least size among the nodes of
at least `size` bytes, the first of them in the list; `none` when no node
fits. -/
def naive_best_fit (mem : Nat → my_metadata_t) (size : Nat) : List Nat → Option Nat
  | [] => none
  | a :: l =>
    match naive_best_fit mem size l with
    | none => if size ≤ (mem a).size then some a else none
    | some b => if size ≤ (mem a).size ∧ (mem a).size ≤ (mem b).size then some a else some b

/-- The byte at address `x` lies in the extent `[h, h + 16 + h.size)` of a
block of the state, so it is counted in the header or the size of a block. -/
def Covered (env : Env) (s : State) (live : List (Nat × Nat)) (x : Nat) : Prop :=
  ∃ h, IsBlock env s live h ∧ h ≤ x ∧ x < h + HEADER_SIZE + (s.mem h).size

/-- The state `s1` with the live pointers `live1` comes after the state `s`
with the live pointers `live`, by `my_malloc(size)` with `size` a multiple of
8 in `[8, 4000]` and `my_free(p)` on live pointers. -/
inductive Later (env : Env) (s : State) (live : List (Nat × Nat)) :
    State → List (Nat × Nat) → Prop
  | refl : Later env s live s live
  | malloc (s1 : State) (live1 : List (Nat × Nat)) (size fuel depth p : Nat) (s2 : State) :
      Later env s live s1 live1 → size % 8 = 0 → 8 ≤ size → size ≤ 4000 →
      my_malloc env size fuel depth s1 = .ok (p, s2) →
      Later env s live s2 ((p, size) :: live1)
  | free (s1 : State) (live1 : List (Nat × Nat)) (p : Nat) (s2 : State) :
      Later env s live s1 live1 → p ∈ live1.map Prod.fst →
      my_free p s1 = .ok s2 →
      Later env s live s2 (live1.filter (fun e => e.1 ≠ p))

/-- The state after `my_initialize(); my_malloc(16); my_free(4112);
my_malloc(8)`: the block of 16 bytes is taken again, for 8 bytes, without a
split. -/
def exWaste : State := stateAfterMalloc exEnv 8 5 0 exFreed1

/-- The state after `my_initialize(); my_malloc(16); my_malloc(64)` in the
concrete environment. -/
def exMix2 : State := stateAfterMalloc exEnv 64 5 0 exState1

/-- The state after `my_initialize(); my_malloc(16); my_malloc(64);
my_free(4112)`. -/
def exMix3 : State := stateAfterFree 4112 exMix2

/-- The state after `my_initialize(); my_malloc(16); my_malloc(64);
my_free(4112); my_free(4144)`: a block of 16 bytes in bin 1, a block of 64
bytes in bin 3 and a block of 3968 bytes in bin 9. -/
def exMix4 : State := stateAfterFree 4144 exMix3

/-- The state after a further `my_malloc(24)`: the block of 64 bytes is taken
and split. -/
def exBest : State := stateAfterMalloc exEnv 24 5 0 exMix4

/-! ## The bin index -/

/-- What the loop of `find_bin_idx` returns: the first scale from `i` on whose
power of two reaches `size`, or the overflow index when there is none. -/
theorem find_bin_idx_loop_spec (size : Nat) : ∀ n i,
    (∃ k, i ≤ k ∧ k < i + n ∧ size ≤ 2 ^ k ∧ (∀ j, i ≤ j → j < k → 2 ^ j < size) ∧
      find_bin_idx_loop size n i = k - MIN_BIN_SCALE) ∨
    ((∀ j, i ≤ j → j < i + n → 2 ^ j < size) ∧
      find_bin_idx_loop size n i = MAX_BIN_SCALE - MIN_BIN_SCALE) := by
  intro n
  induction n with
  | zero =>
    intro i
    right
    exact ⟨fun j h1 h2 => by omega, rfl⟩
  | succ n ih =>
    intro i
    by_cases h : size ≤ 2 ^ i
    · left
      refine ⟨i, le_rfl, by omega, h, fun j h1 h2 => by omega, ?_⟩
      simp [find_bin_idx_loop, Nat.one_shiftLeft, h]
    · have hstep : find_bin_idx_loop size (n + 1) i = find_bin_idx_loop size n (i + 1) := by
        simp [find_bin_idx_loop, Nat.one_shiftLeft, h]
      rcases ih (i + 1) with ⟨k, h1, h2, h3, h4, h5⟩ | ⟨h1, h2⟩
      · left
        refine ⟨k, by omega, by omega, h3, fun j hj1 hj2 => ?_, by rw [hstep, h5]⟩
        rcases Nat.eq_or_lt_of_le hj1 with rfl | hlt
        · omega
        · exact h4 j hlt hj2
      · right
        refine ⟨fun j hj1 hj2 => ?_, by rw [hstep, h2]⟩
        rcases Nat.eq_or_lt_of_le hj1 with rfl | hlt
        · omega
        · exact h1 j hlt (by omega)

theorem find_bin_idx_le_nine (size : Nat) : find_bin_idx size ≤ 9 := by
  unfold find_bin_idx
  rcases find_bin_idx_loop_spec size (MAX_BIN_SCALE - MIN_BIN_SCALE) MIN_BIN_SCALE with
    ⟨k, h1, h2, -, -, h5⟩ | ⟨-, h2⟩
  · rw [h5]; simp only [MAX_BIN_SCALE, MIN_BIN_SCALE] at *; omega
  · rw [h2]; simp only [MAX_BIN_SCALE, MIN_BIN_SCALE]; omega

theorem find_bin_idx_le_iff (size i : Nat) (hi : i ≤ 8) :
    find_bin_idx size ≤ i ↔ size ≤ 2 ^ (i + 3) := by
  unfold find_bin_idx
  rcases find_bin_idx_loop_spec size (MAX_BIN_SCALE - MIN_BIN_SCALE) MIN_BIN_SCALE with
    ⟨k, h1, h2, h3, h4, h5⟩ | ⟨h1, h2⟩
  · rw [h5]
    simp only [MAX_BIN_SCALE, MIN_BIN_SCALE] at *
    constructor
    · intro h
      exact le_trans h3 (Nat.pow_le_pow_right (by norm_num) (by omega))
    · intro h
      by_contra hc
      have := h4 (i + 3) (by omega) (by omega)
      omega
  · rw [h2]
    simp only [MAX_BIN_SCALE, MIN_BIN_SCALE] at *
    constructor
    · intro h; omega
    · intro h
      have := h1 (i + 3) (by omega) (by omega)
      omega

theorem find_bin_idx_mono_aux (a b : Nat) (h : a ≤ b) : find_bin_idx a ≤ find_bin_idx b := by
  by_cases hb : find_bin_idx b ≤ 8
  · exact (find_bin_idx_le_iff a _ hb).2 (le_trans h ((find_bin_idx_le_iff b _ hb).1 le_rfl))
  · have := find_bin_idx_le_nine a
    omega

theorem find_bin_idx_large (size : Nat) (h : 2048 < size) : find_bin_idx size = 9 := by
  have h9 := find_bin_idx_le_nine size
  have := (find_bin_idx_le_iff size 8 le_rfl)
  norm_num at this
  omega

/-- C6: `find_bin_idx` is monotonic: a larger size never gets a smaller bin. -/
theorem find_bin_idx_mono (a b : Nat) (h : a ≤ b) : find_bin_idx a ≤ find_bin_idx b :=
  find_bin_idx_mono_aux a b h

theorem find_bin_idx_mono_witness : find_bin_idx 100 ≤ find_bin_idx 3000 :=
  find_bin_idx_mono 100 3000 (by decide)

/-- C7: `find_bin_idx size` is the least `i` in `0..8` with `2^(i+3) ≥ size`
when there is one, which is exactly when `size ≤ 2048`, and it is the overflow
index 9 otherwise; it is always an index of the ten-element array. -/
theorem find_bin_idx_least (size : Nat) :
    find_bin_idx size ≤ MAX_BIN_SCALE - MIN_BIN_SCALE ∧
    MAX_BIN_SCALE - MIN_BIN_SCALE = 9 ∧
    (size ≤ 2048 ↔ ∃ i, i ≤ 8 ∧ size ≤ 2 ^ (i + 3)) ∧
    ((∃ i, i ≤ 8 ∧ size ≤ 2 ^ (i + 3)) →
      find_bin_idx size ≤ 8 ∧ size ≤ 2 ^ (find_bin_idx size + 3) ∧
      ∀ j, j < find_bin_idx size → 2 ^ (j + 3) < size) ∧
    ((¬ ∃ i, i ≤ 8 ∧ size ≤ 2 ^ (i + 3)) → find_bin_idx size = 9) := by
  have h9 := find_bin_idx_le_nine size
  have hiff : size ≤ 2048 ↔ find_bin_idx size ≤ 8 := by
    rw [find_bin_idx_le_iff size 8 le_rfl]; norm_num
  have hex : (∃ i, i ≤ 8 ∧ size ≤ 2 ^ (i + 3)) ↔ find_bin_idx size ≤ 8 := by
    constructor
    · rintro ⟨i, hi, h⟩
      exact le_trans ((find_bin_idx_le_iff size i hi).2 h) hi
    · intro h
      exact ⟨_, h, (find_bin_idx_le_iff size _ h).1 le_rfl⟩
  refine ⟨h9, rfl, by rw [hex, hiff], fun h => ?_, fun h => ?_⟩
  · have h8 := hex.1 h
    refine ⟨h8, (find_bin_idx_le_iff size _ h8).1 le_rfl, fun j hj => ?_⟩
    by_contra hc
    have := (find_bin_idx_le_iff size j (by omega)).2 (by omega)
    omega
  · rw [hex] at h
    omega

theorem find_bin_idx_least_witness :
    find_bin_idx 100 ≤ 8 ∧ 100 ≤ 2 ^ (find_bin_idx 100 + 3) ∧
      ∀ j, j < find_bin_idx 100 → 2 ^ (j + 3) < 100 :=
  (find_bin_idx_least 100).2.2.2.1 ⟨4, by decide, by decide⟩

/-! ## Initialisation -/

theorem my_initialize_loop_spec (dummy : Nat) : ∀ n i (bins : Nat → Nat) (j : Nat),
    my_initialize_loop dummy n i bins j = if i ≤ j ∧ j < i + n then dummy else bins j := by
  intro n
  induction n with
  | zero => intro i bins j; rw [my_initialize_loop, if_neg (by omega)]
  | succ n ih =>
    intro i bins j
    rw [my_initialize_loop, ih]
    unfold writeBin
    by_cases h1 : j = i
    · subst h1; simp
    · by_cases h2 : i + 1 ≤ j ∧ j < i + 1 + n
      · rw [if_pos h2, if_pos (by omega)]
      · rw [if_neg h2, if_neg h1, if_neg (by omega)]

theorem my_initialize_bins (env : Env) (s : State) (j : Nat) :
    ( my_initialize env s).free_bins j = if j < 9 then env.dummy else s.free_bins j := by
  simp [ my_initialize, my_initialize_loop_spec, MAX_BIN_SCALE, MIN_BIN_SCALE]

/-- C8: `my_initialize` sets the heads of bins 0 to 8 to the sentinel and the
sentinel to size 0 and next `NULL`, but it leaves the head of the overflow bin
`free_bins[9]` as it was: on the all-zero state that head stays `NULL`, and a
second `my_initialize` after an allocation leaves the block of the earlier
run in the overflow bin. -/
theorem my_initialize_leaves_overflow_bin :
    (∀ env s, ( my_initialize env s).free_bins (MAX_BIN_SCALE - MIN_BIN_SCALE) =
        s.free_bins (MAX_BIN_SCALE - MIN_BIN_SCALE) ∧
      (∀ i, i < MAX_BIN_SCALE - MIN_BIN_SCALE → ( my_initialize env s).free_bins i = env.dummy) ∧
      (( my_initialize env s).mem env.dummy).size = 0 ∧
      (( my_initialize env s).mem env.dummy).next = 0) ∧
    ( my_initialize exEnv zeroState).free_bins 9 = 0 ∧
    exEnv.dummy = 96 ∧
    ( my_initialize exEnv (stateAfterMalloc exEnv 16 5 1 exInit)).free_bins 9 = 4128 := by
  refine ⟨fun env s => ⟨?_, fun i hi => ?_, ?_, ?_⟩, ?_, rfl, ?_⟩
  · rw [my_initialize_bins]; simp [MAX_BIN_SCALE, MIN_BIN_SCALE]
  · rw [my_initialize_bins]; simp only [MAX_BIN_SCALE, MIN_BIN_SCALE] at hi; simp; omega
  · simp [ my_initialize, writeNext, writeSize]
  · simp [ my_initialize, writeNext, writeSize]
  · decide
  · decide

/-! ## Stores -/

@[simp] theorem writeNext_size (mem : Nat → my_metadata_t) (a v x : Nat) :
    (writeNext mem a v x).size = (mem x).size := by
  unfold writeNext
  by_cases h : x = a
  · simp [h]
  · simp [h]

theorem writeNext_next (mem : Nat → my_metadata_t) (a v x : Nat) :
    (writeNext mem a v x).next = if x = a then v else (mem x).next := by
  unfold writeNext
  by_cases h : x = a
  · simp [h]
  · simp [h]

@[simp] theorem writeNext_next_same (mem : Nat → my_metadata_t) (a v : Nat) :
    (writeNext mem a v a).next = v := by
  simp [writeNext_next]

theorem writeNext_next_ne (mem : Nat → my_metadata_t) (a v x : Nat) (h : x ≠ a) :
    (writeNext mem a v x).next = (mem x).next := by
  simp [writeNext_next, h]

@[simp] theorem writeSize_next (mem : Nat → my_metadata_t) (a v x : Nat) :
    (writeSize mem a v x).next = (mem x).next := by
  unfold writeSize
  by_cases h : x = a
  · simp [h]
  · simp [h]

theorem writeSize_size (mem : Nat → my_metadata_t) (a v x : Nat) :
    (writeSize mem a v x).size = if x = a then v else (mem x).size := by
  unfold writeSize
  by_cases h : x = a
  · simp [h]
  · simp [h]

@[simp] theorem writeSize_size_same (mem : Nat → my_metadata_t) (a v : Nat) :
    (writeSize mem a v a).size = v := by
  simp [writeSize_size]

theorem writeSize_size_ne (mem : Nat → my_metadata_t) (a v x : Nat) (h : x ≠ a) :
    (writeSize mem a v x).size = (mem x).size := by
  simp [writeSize_size, h]

theorem writeBin_apply (bins : Nat → Nat) (i v x : Nat) :
    writeBin bins i v x = if x = i then v else bins x := rfl

/-! ## Chains -/

theorem Chain.congr {mem mem1 : Nat → my_metadata_t} : ∀ (l : List Nat) (h : Nat),
    (∀ a, a ∈ l → (mem1 a).next = (mem a).next) → Chain mem h l → Chain mem1 h l := by
  intro l
  induction l with
  | nil => intro h _ hc; exact hc
  | cons a l ih =>
    intro h hs hc
    obtain ⟨h1, h2, h3⟩ := hc
    refine ⟨h1, h2, ?_⟩
    rw [hs a (List.mem_cons_self a l)]
    exact ih _ (fun x hx => hs x (List.mem_cons_of_mem a hx)) h3

theorem Chain.ne_zero {mem : Nat → my_metadata_t} : ∀ (l : List Nat) (h : Nat),
    Chain mem h l → ∀ a, a ∈ l → a ≠ 0 := by
  intro l
  induction l with
  | nil => intro h _ a ha; simp at ha
  | cons b l ih =>
    intro h hc a ha
    obtain ⟨_, h2, h3⟩ := hc
    rcases List.mem_cons.1 ha with rfl | hm
    · exact h2
    · exact ih _ h3 a hm

theorem Chain.linked_iff {mem : Nat → my_metadata_t} : ∀ (l : List Nat) (h : Nat),
    Chain mem h l → ∀ b, Linked mem h b ↔ b ∈ l := by
  intro l
  induction l with
  | nil =>
    intro h hc b
    have h0 : h = 0 := hc
    constructor
    · intro hl
      cases hl with
      | here _ hne => exact absurd h0 hne
      | there _ _ hne _ => exact absurd h0 hne
    · intro hb; simp at hb
  | cons a l ih =>
    intro h hc b
    obtain ⟨h1, h2, h3⟩ := hc
    subst h1
    constructor
    · intro hl
      cases hl with
      | here _ _ => exact List.mem_cons_self _ _
      | there _ _ _ hrest => exact List.mem_cons_of_mem _ ((ih _ h3 b).1 hrest)
    · intro hb
      rcases List.mem_cons.1 hb with rfl | hm
      · exact Linked.here _ h2
      · exact Linked.there _ _ h2 ((ih _ h3 b).2 hm)

/-- Unlinking the node `b` that follows `p` in a chain without repetition. -/
theorem Chain.remove_after {mem : Nat → my_metadata_t} (p b : Nat) (post : List Nat) :
    ∀ (pre : List Nat) (h : Nat), Chain mem h (pre ++ p :: b :: post) →
      (pre ++ p :: b :: post).Nodup →
      Chain (writeNext (writeNext mem p (mem b).next) b 0) h (pre ++ p :: post) := by
  intro pre
  induction pre with
  | nil =>
    intro h hc hnd
    obtain ⟨h1, h2, h3, h4, h5⟩ := hc
    simp only [List.nil_append, List.nodup_cons, List.mem_cons, not_or] at hnd
    obtain ⟨⟨hpb, hpp⟩, hbp, _⟩ := hnd
    refine ⟨h1, h2, ?_⟩
    rw [writeNext_next_ne _ _ _ _ hpb, writeNext_next_same]
    refine Chain.congr post _ (fun a ha => ?_) h5
    have hab : a ≠ b := fun e => hbp (e ▸ ha)
    have hap : a ≠ p := fun e => hpp (e ▸ ha)
    rw [writeNext_next_ne _ _ _ _ hab, writeNext_next_ne _ _ _ _ hap]
  | cons a r ih =>
    intro h hc hnd
    obtain ⟨h1, h2, h3⟩ := hc
    rw [List.cons_append, List.nodup_cons] at hnd
    obtain ⟨ha, hnd1⟩ := hnd
    have hap : a ≠ p := fun e => ha (by simp [e])
    have hab : a ≠ b := fun e => ha (by simp [e])
    refine ⟨h1, h2, ?_⟩
    rw [writeNext_next_ne _ _ _ _ hab, writeNext_next_ne _ _ _ _ hap]
    exact ih _ h3 hnd1

/-- Unlinking the head `b` of a chain without repetition. -/
theorem Chain.remove_head {mem : Nat → my_metadata_t} (b : Nat) (post : List Nat) (h : Nat)
    (hc : Chain mem h (b :: post)) (hnd : (b :: post).Nodup) :
    Chain (writeNext mem b 0) (mem b).next post := by
  obtain ⟨_, _, h3⟩ := hc
  rw [List.nodup_cons] at hnd
  refine Chain.congr post _ (fun a ha => ?_) h3
  exact writeNext_next_ne _ _ _ _ (fun e => hnd.1 (e ▸ ha))

/-! ## The scan of one bin -/

/-- On a chain the `while` loop computes the fold `scanAbs`, and it runs out
of fuel exactly when the fuel does not exceed the length of the chain. -/
theorem scan_loop_chain (mem : Nat → my_metadata_t) (size : Nat) :
    ∀ (l : List Nat) (fuel h prev mb pb sb : Nat), Chain mem h l →
      scan_loop mem size fuel h prev mb pb sb =
        if l.length < fuel then .ok (scanAbs mem size l prev mb pb sb)
        else .error .out_of_fuel := by
  intro l
  induction l with
  | nil =>
    intro fuel h prev mb pb sb hc
    have h0 : h = 0 := hc
    subst h0
    cases fuel with
    | zero => simp [scan_loop]
    | succ f => simp [scan_loop, scanAbs]
  | cons a l ih =>
    intro fuel h prev mb pb sb hc
    obtain ⟨h1, h2, h3⟩ := hc
    subst h1
    cases fuel with
    | zero => simp [scan_loop]
    | succ f =>
      rw [scan_loop, if_neg h2, scanAbs]
      by_cases hfit : (mem h).size ≥ size ∧ (sb = 0 ∨ sb > (mem h).size)
      · rw [if_pos hfit, if_pos hfit, ih _ _ _ _ _ _ h3]
        simp only [List.length_cons, Nat.add_lt_add_iff_right]
      · rw [if_neg hfit, if_neg hfit, ih _ _ _ _ _ _ h3]
        simp only [List.length_cons, Nat.add_lt_add_iff_right]

/-- The fold `scanAbs` either keeps its accumulators, when no node improves on
them, or returns the first node of least size among the fitting ones, with
its predecessor. -/
theorem scanAbs_spec (mem : Nat → my_metadata_t) (size : Nat) (hsize : 1 ≤ size) :
    ∀ (l : List Nat) (prev mb pb sb : Nat),
      (scanAbs mem size l prev mb pb sb = (mb, pb, sb) ∧
        ∀ x, x ∈ l → ¬ ((mem x).size ≥ size ∧ (sb = 0 ∨ sb > (mem x).size))) ∨
      (∃ pre b post, l = pre ++ b :: post ∧
        scanAbs mem size l prev mb pb sb = (b, pre.getLastD prev, (mem b).size) ∧
        size ≤ (mem b).size ∧ (sb = 0 ∨ (mem b).size < sb) ∧
        (∀ x, x ∈ pre → size ≤ (mem x).size → (mem b).size < (mem x).size) ∧
        (∀ x, x ∈ post → size ≤ (mem x).size → (mem b).size ≤ (mem x).size)) := by
  intro l
  induction l with
  | nil =>
    intro prev mb pb sb
    left
    exact ⟨rfl, fun x hx => by simp at hx⟩
  | cons a l ih =>
    intro prev mb pb sb
    by_cases hfit : (mem a).size ≥ size ∧ (sb = 0 ∨ sb > (mem a).size)
    · right
      rw [scanAbs, if_pos hfit]
      rcases ih a a prev (mem a).size with ⟨heq, hno⟩ | ⟨pre, b, post, hl, heq, h1, h2, h3, h4⟩
      · refine ⟨[], a, l, rfl, ?_, hfit.1, ?_, fun x hx => by simp at hx, fun x hx hle => ?_⟩
        · rw [heq]; rfl
        · rcases hfit.2 with h | h
          · exact Or.inl h
          · exact Or.inr h
        · have := hno x hx
          by_contra hc
          exact this ⟨hle, Or.inr (by omega)⟩
      · refine ⟨a :: pre, b, post, by rw [hl]; rfl, ?_, h1, ?_, fun x hx hle => ?_, h4⟩
        · rw [heq, List.getLastD_cons]
        · rcases h2 with h | h
          · omega
          · rcases hfit.2 with h5 | h5
            · exact Or.inl h5
            · exact Or.inr (by omega)
        · rcases List.mem_cons.1 hx with rfl | hm
          · rcases h2 with h | h
            · omega
            · exact h
          · exact h3 x hm hle
    · rw [scanAbs, if_neg hfit]
      rcases ih a mb pb sb with ⟨heq, hno⟩ | ⟨pre, b, post, hl, heq, h1, h2, h3, h4⟩
      · left
        refine ⟨heq, fun x hx => ?_⟩
        rcases List.mem_cons.1 hx with rfl | hm
        · exact hfit
        · exact hno x hm
      · right
        refine ⟨a :: pre, b, post, by rw [hl]; rfl, ?_, h1, h2, fun x hx hle => ?_, h4⟩
        · rw [heq, List.getLastD_cons]
        · rcases List.mem_cons.1 hx with rfl | hm
          · by_contra hc
            apply hfit
            refine ⟨hle, ?_⟩
            rcases h2 with h | h
            · exact Or.inl h
            · exact Or.inr (by omega)
          · exact h3 x hm hle

theorem scanAbs_sentinel (mem : Nat → my_metadata_t) (size d : Nat) (hd : (mem d).size < size) :
    ∀ (l : List Nat) (prev mb pb sb : Nat),
      scanAbs mem size (l ++ [d]) prev mb pb sb = scanAbs mem size l prev mb pb sb := by
  intro l
  induction l with
  | nil =>
    intro prev mb pb sb
    have : ¬ ((mem d).size ≥ size ∧ (sb = 0 ∨ sb > (mem d).size)) := fun h => by omega
    simp only [List.nil_append, scanAbs, if_neg this]
  | cons a l ih =>
    intro prev mb pb sb
    show scanAbs mem size (a :: (l ++ [d])) prev mb pb sb = _
    rw [scanAbs, scanAbs, ih, ih]

theorem nodes_length_le (env : Env) (bins : Nat → List Nat) (i : Nat) :
    (nodes env bins i).length ≤ (bins i).length + 1 := by
  unfold nodes sentinel
  split <;> simp

/-- The scan of bin `i` in a state that satisfies the invariant. -/
theorem scan_bin {env : Env} {s : State} {bins : Nat → List Nat} {live : List Nat}
    (hinv : Inv env s bins live) (size : Nat) (hsize : 1 ≤ size) (i : Nat) (hi : i < 10)
    (fuel : Nat) :
    scan_loop s.mem size fuel (s.free_bins i) 0 (s.free_bins i) 0 0 =
      if (nodes env bins i).length < fuel then
        .ok (scanAbs s.mem size (bins i) 0 (s.free_bins i) 0 0)
      else .error .out_of_fuel := by
  rw [scan_loop_chain s.mem size _ fuel _ _ _ _ _ (hinv.chain i hi)]
  have : scanAbs s.mem size (nodes env bins i) 0 (s.free_bins i) 0 0 =
      scanAbs s.mem size (bins i) 0 (s.free_bins i) 0 0 := by
    unfold nodes sentinel
    split
    · exact scanAbs_sentinel _ _ _ (by rw [hinv.dummy_size]; omega) _ _ _ _ _
    · rw [List.append_nil]
  rw [this]

/-- The fold over the blocks of a bin, from empty accumulators: nothing fits, or
the block found is right for the bin. -/
theorem scanAbs_bin (s : State) (bins : Nat → List Nat) (size : Nat) (hsize : 1 ≤ size)
    (i head : Nat) :
    (scanAbs s.mem size (bins i) 0 head 0 0 = (head, 0, 0) ∧ NoFit s bins size i) ∨
    (∃ b prev, scanAbs s.mem size (bins i) 0 head 0 0 = (b, prev, (s.mem b).size) ∧
      0 < (s.mem b).size ∧ FoundAt s bins size i b prev) := by
  rcases scanAbs_spec s.mem size hsize (bins i) 0 head 0 0 with
    ⟨heq, hno⟩ | ⟨pre, b, post, hl, heq, h1, _, h3, h4⟩
  · left
    refine ⟨heq, fun x hx => ?_⟩
    have := hno x hx
    by_contra hc
    exact this ⟨by omega, Or.inl rfl⟩
  · right
    exact ⟨b, _, heq, by omega, pre, post, hl, rfl, h1, h3, h4⟩

/-- The loop over the bins: with enough fuel it returns, and what it returns
satisfies `SearchSpec`. -/
theorem bin_loop_spec {env : Env} {s : State} {bins : Nat → List Nat} {live : List Nat}
    (hinv : Inv env s bins live) (size : Nat) (hsize : 1 ≤ size) (fuel : Nat) :
    ∀ (n i : Nat), i + n = 10 →
      ((∀ j, i ≤ j → j < 10 → (bins j).length + 1 < fuel) →
        ∃ r, bin_loop s size fuel n i = .ok r) ∧
      (∀ r, bin_loop s size fuel n i = .ok r → SearchSpec s bins size i r) := by
  intro n
  induction n with
  | zero =>
    intro i hi
    refine ⟨fun _ => ⟨none, rfl⟩, fun r hr => ?_⟩
    simp only [bin_loop, Except.ok.injEq] at hr
    subst hr
    intro j h1 h2
    omega
  | succ n ih =>
    intro i hin
    have hi : i < 10 := by omega
    obtain ⟨ih1, ih2⟩ := ih (i + 1) (by omega)
    have hscan := scan_bin hinv size hsize i hi fuel
    constructor
    · intro hfuel
      have hlen : (nodes env bins i).length < fuel :=
        lt_of_le_of_lt (nodes_length_le env bins i) (hfuel i le_rfl hi)
      rw [if_pos hlen] at hscan
      rw [bin_loop, hscan]
      rcases hres : scanAbs s.mem size (bins i) 0 (s.free_bins i) 0 0 with ⟨mb, pb, sb⟩
      simp only
      by_cases hsb : sb > 0
      · rw [if_pos hsb]; exact ⟨_, rfl⟩
      · rw [if_neg hsb]
        exact ih1 (fun j h1 h2 => hfuel j (by omega) h2)
    · intro r hr
      rw [bin_loop, hscan] at hr
      by_cases hlen : (nodes env bins i).length < fuel
      · rw [if_pos hlen] at hr
        rcases scanAbs_bin s bins size hsize i (s.free_bins i) with
          ⟨heq, hno⟩ | ⟨b, prev, heq, hpos, hfound⟩
        · rw [heq] at hr
          simp only [gt_iff_lt, lt_self_iff_false, if_false] at hr
          have hspec := ih2 r hr
          cases r with
          | none =>
            intro j h1 h2
            rcases Nat.eq_or_lt_of_le h1 with rfl | hlt
            · exact hno
            · exact hspec j hlt h2
          | some t =>
            obtain ⟨k, b, prev⟩ := t
            obtain ⟨h1, h2, h3, h4⟩ := hspec
            refine ⟨by omega, h2, h3, fun j hj1 hj2 => ?_⟩
            rcases Nat.eq_or_lt_of_le hj1 with rfl | hlt
            · exact hno
            · exact h4 j hlt hj2
        · rw [heq] at hr
          simp only [gt_iff_lt, hpos, if_true, Except.ok.injEq] at hr
          subst hr
          exact ⟨le_rfl, hi, hfound, fun j h1 h2 => by omega⟩
      · rw [if_neg hlen] at hr
        simp at hr

/-! ## Consequences of the invariant -/

theorem Inv.owned_ne_dummy {env : Env} {s : State} {bins : Nat → List Nat} {live : List Nat}
    (hinv : Inv env s bins live) (henv : EnvOK env) (b : Nat) (hb : Owned bins live b) :
    b ≠ env.dummy := by
  obtain ⟨k, _, h1, h2⟩ := hinv.in_page b hb
  have := henv.2.2.2 k
  simp only [HEADER_SIZE] at *
  omega

theorem Inv.owned_ne_zero {env : Env} {s : State} {bins : Nat → List Nat} {live : List Nat}
    (hinv : Inv env s bins live) (henv : EnvOK env) (b : Nat) (hb : Owned bins live b) :
    b ≠ 0 := by
  obtain ⟨k, _, h1, _⟩ := hinv.in_page b hb
  have := henv.2.1 k
  omega

theorem Inv.bin_unique {env : Env} {s : State} {bins : Nat → List Nat} {live : List Nat}
    (hinv : Inv env s bins live) (i j b : Nat) (hi : i < 10) (hj : j < 10)
    (h1 : b ∈ bins i) (h2 : b ∈ bins j) : i = j := by
  rw [← (hinv.bin_of i hi b h1).1, ← (hinv.bin_of j hj b h2).1]

theorem mem_nodes {env : Env} {bins : Nat → List Nat} {i a : Nat} (h : a ∈ nodes env bins i) :
    a ∈ bins i ∨ a = env.dummy := by
  unfold nodes sentinel at h
  rcases List.mem_append.1 h with h1 | h1
  · exact Or.inl h1
  · split at h1
    · exact Or.inr (by simpa using h1)
    · simp at h1

theorem nodes_update_same (env : Env) (bins : Nat → List Nat) (i : Nat) (l : List Nat) :
    nodes env (Function.update bins i l) i = l ++ sentinel env i := by
  simp [nodes]

theorem nodes_update_ne (env : Env) (bins : Nat → List Nat) (i j : Nat) (l : List Nat)
    (h : j ≠ i) : nodes env (Function.update bins i l) j = nodes env bins j := by
  simp [nodes, Function.update_noteq h]

theorem owned_add (bins : Nat → List Nat) (live : List Nat) (i m b : Nat) (hi : i < 10) :
    Owned (Function.update bins i (m :: bins i)) live b ↔ Owned bins live b ∨ b = m := by
  unfold Owned
  constructor
  · rintro (h | ⟨j, hj, h⟩)
    · exact Or.inl (Or.inl h)
    · by_cases hji : j = i
      · subst hji
        rw [Function.update_same] at h
        rcases List.mem_cons.1 h with rfl | h1
        · exact Or.inr rfl
        · exact Or.inl (Or.inr ⟨j, hj, h1⟩)
      · rw [Function.update_noteq hji] at h
        exact Or.inl (Or.inr ⟨j, hj, h⟩)
  · rintro ((h | ⟨j, hj, h⟩) | rfl)
    · exact Or.inl h
    · right
      refine ⟨j, hj, ?_⟩
      by_cases hji : j = i
      · subst hji
        rw [Function.update_same]
        exact List.mem_cons_of_mem _ h
      · rw [Function.update_noteq hji]; exact h
    · right
      exact ⟨i, hi, by rw [Function.update_same]; exact List.mem_cons_self _ _⟩

theorem owned_take (bins : Nat → List Nat) (live pre post : List Nat) (i b x : Nat)
    (hi : i < 10) (hb : bins i = pre ++ b :: post) :
    Owned (Function.update bins i (pre ++ post)) (b :: live) x ↔ Owned bins live x := by
  unfold Owned
  constructor
  · rintro (h | ⟨j, hj, h⟩)
    · rcases List.mem_cons.1 h with rfl | h1
      · exact Or.inr ⟨i, hi, by rw [hb]; simp⟩
      · exact Or.inl h1
    · by_cases hji : j = i
      · subst hji
        rw [Function.update_same] at h
        refine Or.inr ⟨j, hj, ?_⟩
        rw [hb]
        rcases List.mem_append.1 h with h1 | h1
        · exact List.mem_append_left _ h1
        · exact List.mem_append_right _ (List.mem_cons_of_mem _ h1)
      · rw [Function.update_noteq hji] at h
        exact Or.inr ⟨j, hj, h⟩
  · rintro (h | ⟨j, hj, h⟩)
    · exact Or.inl (List.mem_cons_of_mem _ h)
    · by_cases hji : j = i
      · subst hji
        rw [hb] at h
        rcases List.mem_append.1 h with h1 | h1
        · exact Or.inr ⟨j, hj, by rw [Function.update_same]; exact List.mem_append_left _ h1⟩
        · rcases List.mem_cons.1 h1 with rfl | h2
          · exact Or.inl (List.mem_cons_self _ _)
          · exact Or.inr ⟨j, hj, by rw [Function.update_same]; exact List.mem_append_right _ h2⟩
      · exact Or.inr ⟨j, hj, by rw [Function.update_noteq hji]; exact h⟩

/-- The invariant only reads the bin heads, the headers of the blocks and of
the sentinel, and the log. -/
theorem Inv.frame {env : Env} {s s1 : State} {bins : Nat → List Nat} {live : List Nat}
    (hinv : Inv env s bins live)
    (hbins : ∀ i, i < 10 → s1.free_bins i = s.free_bins i)
    (hmem : ∀ b, Owned bins live b ∨ b = env.dummy → s1.mem b = s.mem b)
    (hlen : s.mmap_log.length ≤ s1.mmap_log.length)
    (hlog : ∀ x, x ∈ s1.mmap_log → x = 4096) :
    Inv env s1 bins live where
  chain := fun i hi => by
    rw [hbins i hi]
    refine Chain.congr _ _ (fun a ha => ?_) (hinv.chain i hi)
    rcases mem_nodes ha with h | h
    · rw [hmem a (Or.inl (Or.inr ⟨i, hi, h⟩))]
    · rw [hmem a (Or.inr h)]
  nodup := hinv.nodup
  live_nodup := hinv.live_nodup
  dummy_size := by rw [hmem _ (Or.inr rfl)]; exact hinv.dummy_size
  dummy_next := by rw [hmem _ (Or.inr rfl)]; exact hinv.dummy_next
  bin_of := fun i hi b hb => by
    rw [hmem b (Or.inl (Or.inr ⟨i, hi, hb⟩))]
    exact hinv.bin_of i hi b hb
  live_next := fun b hb => by
    rw [hmem b (Or.inl (Or.inl hb))]
    exact hinv.live_next b hb
  in_page := fun b hb => by
    rw [hmem b (Or.inl hb)]
    obtain ⟨k, h1, h2⟩ := hinv.in_page b hb
    exact ⟨k, by omega, h2⟩
  disj := fun b c hb hc hne => by
    rw [hmem b (Or.inl hb), hmem c (Or.inl hc)]
    exact hinv.disj b c hb hc hne
  log := hlog

/-! ## Filing a block -/

theorem my_add_to_free_list_ok (m : Nat) (s : State) (hnext : (s.mem m).next = 0) :
    my_add_to_free_list m s =
      .ok { free_bins := writeBin s.free_bins (find_bin_idx (s.mem m).size) m
            mem := writeNext s.mem m (s.free_bins (find_bin_idx (s.mem m).size))
            mmap_log := s.mmap_log } := by
  unfold my_add_to_free_list
  rw [if_neg (by simp [hnext])]

theorem my_add_to_free_list_fail (m : Nat) (s : State) (hnext : (s.mem m).next ≠ 0) :
    my_add_to_free_list m s = .error .assert_failed := by
  unfold my_add_to_free_list
  rw [if_pos hnext]

/-- Filing a block that no list holds keeps the invariant: the block becomes
the head of its bin. -/
theorem Inv.add {env : Env} {s : State} {bins : Nat → List Nat} {live : List Nat}
    (hinv : Inv env s bins live) (m : Nat)
    (hfresh : ¬ Owned bins live m) (hd : m ≠ env.dummy) (h0 : m ≠ 0)
    (hpage : ∃ k, k < s.mmap_log.length ∧ env.page k ≤ m ∧
      m + HEADER_SIZE + (s.mem m).size ≤ env.page k + 4096)
    (hdisj : ∀ c, Owned bins live c →
      m + HEADER_SIZE + (s.mem m).size ≤ c ∨ c + HEADER_SIZE + (s.mem c).size ≤ m) :
    Inv env
      { free_bins := writeBin s.free_bins (find_bin_idx (s.mem m).size) m
        mem := writeNext s.mem m (s.free_bins (find_bin_idx (s.mem m).size))
        mmap_log := s.mmap_log }
      (Function.update bins (find_bin_idx (s.mem m).size)
        (m :: bins (find_bin_idx (s.mem m).size))) live := by
  have hidx : find_bin_idx (s.mem m).size < 10 := by
    have := find_bin_idx_le_nine (s.mem m).size
    omega
  have hnot : ∀ i, i < 10 → m ∉ nodes env bins i := by
    intro i hi hm
    rcases mem_nodes hm with h | h
    · exact hfresh (Or.inr ⟨i, hi, h⟩)
    · exact hd h
  have hown := owned_add bins live (find_bin_idx (s.mem m).size) m
  refine
    { chain := fun i hi => ?_
      nodup := fun i hi => ?_
      live_nodup := hinv.live_nodup
      dummy_size := by simp only [writeNext_size]; exact hinv.dummy_size
      dummy_next := by
        simp only []
        rw [writeNext_next_ne _ _ _ _ (Ne.symm hd)]
        exact hinv.dummy_next
      bin_of := fun i hi b hb => ?_
      live_next := fun b hb => ?_
      in_page := fun b hb => ?_
      disj := fun b c hb hc hne => ?_
      log := hinv.log }
  · simp only [writeBin_apply]
    by_cases hi2 : i = find_bin_idx (s.mem m).size
    · subst hi2
      rw [if_pos rfl, nodes_update_same]
      refine ⟨rfl, h0, ?_⟩
      rw [writeNext_next_same]
      refine Chain.congr _ _ (fun a ha => ?_) (hinv.chain _ hi)
      exact writeNext_next_ne _ _ _ _ (fun e => hnot _ hi (e ▸ ha))
    · rw [if_neg hi2, nodes_update_ne _ _ _ _ _ hi2]
      refine Chain.congr _ _ (fun a ha => ?_) (hinv.chain _ hi)
      exact writeNext_next_ne _ _ _ _ (fun e => hnot _ hi (e ▸ ha))
  · by_cases hi2 : i = find_bin_idx (s.mem m).size
    · subst hi2
      rw [Function.update_same, List.nodup_cons]
      exact ⟨fun h => hfresh (Or.inr ⟨_, hi, h⟩), hinv.nodup _ hi⟩
    · rw [Function.update_noteq hi2]
      exact hinv.nodup i hi
  · simp only [writeNext_size]
    by_cases hi2 : i = find_bin_idx (s.mem m).size
    · subst hi2
      rw [Function.update_same] at hb
      rcases List.mem_cons.1 hb with rfl | h1
      · exact ⟨rfl, fun h => hfresh (Or.inl h)⟩
      · exact hinv.bin_of _ hi b h1
    · rw [Function.update_noteq hi2] at hb
      exact hinv.bin_of i hi b hb
  · simp only []
    have hbm : b ≠ m := fun e => hfresh (Or.inl (e ▸ hb))
    rw [writeNext_next_ne _ _ _ _ hbm]
    exact hinv.live_next b hb
  · simp only [writeNext_size]
    rcases (hown b hidx).1 hb with h | rfl
    · exact hinv.in_page b h
    · exact hpage
  · simp only [writeNext_size]
    rcases (hown b hidx).1 hb with h1 | rfl
    · rcases (hown c hidx).1 hc with h2 | rfl
      · exact hinv.disj b c h1 h2 hne
      · exact (hdisj b h1).symm
    · rcases (hown c hidx).1 hc with h2 | rfl
      · exact hdisj c h2
      · exact absurd rfl hne

/-! ## Taking a block out of its bin -/

/-- What is needed of the state after lines 166 to 168 of `my_malloc` for the
invariant to hold with the chosen block moved from its bin to the live blocks. -/
theorem Inv.take_core {env : Env} {s s1 : State} {bins : Nat → List Nat} {live : List Nat}
    (hinv : Inv env s bins live) (henv : EnvOK env) (size i b : Nat) (pre post : List Nat)
    (hi : i < 10) (hb : bins i = pre ++ b :: post) (hle : size ≤ (s.mem b).size)
    (hsz : ∀ x, (s1.mem x).size = if x = b then size else (s.mem x).size)
    (hnx : ∀ x, x ≠ b → x ∉ pre → (s1.mem x).next = (s.mem x).next)
    (hb0 : (s1.mem b).next = 0)
    (hchain : Chain s1.mem (s1.free_bins i) (pre ++ post ++ sentinel env i))
    (hbins : ∀ j, j ≠ i → s1.free_bins j = s.free_bins j)
    (hlog : s1.mmap_log = s.mmap_log) :
    Inv env s1 (Function.update bins i (pre ++ post)) (b :: live) := by
  have hbi : b ∈ bins i := by rw [hb]; simp
  have hpre : ∀ x, x ∈ pre → x ∈ bins i := fun x hx => by
    rw [hb]; exact List.mem_append_left _ hx
  have hnd : (b :: (pre ++ post)).Nodup := by
    have := hinv.nodup i hi
    rw [hb] at this
    exact List.nodup_middle.1 this
  rw [List.nodup_cons] at hnd
  have hsub : ∀ x, x ∈ pre ++ post → x ∈ bins i ∧ x ≠ b := fun x hx => by
    refine ⟨?_, fun e => hnd.1 (e ▸ hx)⟩
    rw [hb]
    rcases List.mem_append.1 hx with h | h
    · exact List.mem_append_left _ h
    · exact List.mem_append_right _ (List.mem_cons_of_mem _ h)
  have hbl : b ∉ live := (hinv.bin_of i hi b hbi).2
  have hown := fun x => owned_take bins live pre post i b x hi hb
  have hshrink : ∀ x, (s1.mem x).size ≤ (s.mem x).size := fun x => by
    rw [hsz x]; split
    · rename_i h; rw [h]; exact hle
    · exact le_rfl
  have hdummy_b : env.dummy ≠ b :=
    Ne.symm (hinv.owned_ne_dummy henv b (Or.inr ⟨i, hi, hbi⟩))
  have hdummy_pre : env.dummy ∉ pre := fun h =>
    hinv.owned_ne_dummy henv _ (Or.inr ⟨i, hi, hpre _ h⟩) rfl
  refine
    { chain := fun j hj => ?_
      nodup := fun j hj => ?_
      live_nodup := List.nodup_cons.2 ⟨hbl, hinv.live_nodup⟩
      dummy_size := by rw [hsz, if_neg hdummy_b]; exact hinv.dummy_size
      dummy_next := by rw [hnx _ hdummy_b hdummy_pre]; exact hinv.dummy_next
      bin_of := fun j hj x hx => ?_
      live_next := fun x hx => ?_
      in_page := fun x hx => ?_
      disj := fun x y hx hy hne => ?_
      log := fun x hx => hinv.log x (hlog ▸ hx) }
  · by_cases hji : j = i
    · subst hji
      rw [nodes_update_same]
      exact hchain
    · rw [nodes_update_ne _ _ _ _ _ hji, hbins j hji]
      refine Chain.congr _ _ (fun a ha => ?_) (hinv.chain j hj)
      rcases mem_nodes ha with h | h
      · have hab : a ≠ b := fun e => hji (hinv.bin_unique j i a hj hi h (e ▸ hbi))
        have hap : a ∉ pre := fun e => hji (hinv.bin_unique j i a hj hi h (hpre a e))
        exact hnx a hab hap
      · rw [h]; exact hnx _ hdummy_b hdummy_pre
  · by_cases hji : j = i
    · subst hji
      rw [Function.update_same]
      exact hnd.2
    · rw [Function.update_noteq hji]
      exact hinv.nodup j hj
  · by_cases hji : j = i
    · subst hji
      rw [Function.update_same] at hx
      obtain ⟨h1, h2⟩ := hsub x hx
      rw [hsz, if_neg h2]
      refine ⟨(hinv.bin_of j hj x h1).1, fun h => ?_⟩
      rcases List.mem_cons.1 h with h3 | h3
      · exact h2 h3
      · exact (hinv.bin_of j hj x h1).2 h3
    · rw [Function.update_noteq hji] at hx
      have hxb : x ≠ b := fun e => hji (hinv.bin_unique j i x hj hi hx (e ▸ hbi))
      rw [hsz, if_neg hxb]
      refine ⟨(hinv.bin_of j hj x hx).1, fun h => ?_⟩
      rcases List.mem_cons.1 h with h3 | h3
      · exact hxb h3
      · exact (hinv.bin_of j hj x hx).2 h3
  · rcases List.mem_cons.1 hx with rfl | h
    · exact hb0
    · have hxb : x ≠ b := fun e => hbl (e ▸ h)
      have hxp : x ∉ pre := fun e => (hinv.bin_of i hi x (hpre x e)).2 h
      rw [hnx x hxb hxp]
      exact hinv.live_next x h
  · obtain ⟨k, h1, h2, h3⟩ := hinv.in_page x ((hown x).1 hx)
    have := hshrink x
    exact ⟨k, by rw [hlog]; exact h1, h2, by omega⟩
  · have h1 := hinv.disj x y ((hown x).1 hx) ((hown y).1 hy) hne
    have := hshrink x
    have := hshrink y
    omega

/-- Lines 166 to 168 of `my_malloc` keep the invariant: the chosen block
leaves its bin and is live, with the requested size. -/
theorem Inv.take {env : Env} {s : State} {bins : Nat → List Nat} {live : List Nat}
    (hinv : Inv env s bins live) (henv : EnvOK env) (size i b : Nat) (pre post : List Nat)
    (hi : i < 10) (hb : bins i = pre ++ b :: post) (hle : size ≤ (s.mem b).size) :
    Inv env
      (my_remove_from_free_list b (pre.getLastD 0) i
        { free_bins := s.free_bins, mem := writeSize s.mem b size, mmap_log := s.mmap_log })
      (Function.update bins i (pre ++ post)) (b :: live) := by
  have hc := hinv.chain i hi
  have hnodes : nodes env bins i = pre ++ b :: (post ++ sentinel env i) := by
    unfold nodes; rw [hb]; simp
  rw [hnodes] at hc
  have hc1 : Chain (writeSize s.mem b size) (s.free_bins i)
      (pre ++ b :: (post ++ sentinel env i)) :=
    Chain.congr _ _ (fun a _ => writeSize_next _ _ _ _) hc
  have hbi : b ∈ bins i := by rw [hb]; simp
  have hpre : ∀ x, x ∈ pre → x ∈ bins i := fun x hx => by
    rw [hb]; exact List.mem_append_left _ hx
  have hnd : (pre ++ b :: (post ++ sentinel env i)).Nodup := by
    rw [← hnodes]
    unfold nodes sentinel
    split
    · rw [List.nodup_append]
      refine ⟨hinv.nodup i hi, by simp, ?_⟩
      intro a ha hd
      simp only [List.mem_singleton] at hd
      exact hinv.owned_ne_dummy henv a (Or.inr ⟨i, hi, ha⟩) hd
    · rw [List.append_nil]; exact hinv.nodup i hi
  rcases List.eq_nil_or_concat pre with hnil | ⟨pre1, p, hcat⟩
  · subst hnil
    simp only [List.nil_append] at hc1 hnd hb
    have hrem : my_remove_from_free_list b (([] : List Nat).getLastD 0) i
        { free_bins := s.free_bins, mem := writeSize s.mem b size, mmap_log := s.mmap_log } =
        { free_bins := writeBin s.free_bins i (s.mem b).next
          mem := writeNext (writeSize s.mem b size) b 0
          mmap_log := s.mmap_log } := by
      simp [my_remove_from_free_list]
    rw [hrem]
    refine hinv.take_core henv size i b [] post hi hb hle (fun x => ?_) (fun x hx _ => ?_)
      (by simp) ?_ (fun j hj => ?_) rfl
    · simp only [writeNext_size, writeSize_size]
    · simp only []
      rw [writeNext_next_ne _ _ _ _ hx, writeSize_next]
    · simp only [List.nil_append, writeBin_apply, if_true]
      have := Chain.remove_head b _ _ hc1 hnd
      rw [writeSize_next] at this
      exact this
    · simp only [writeBin_apply, if_neg hj]
  · rw [List.concat_eq_append] at hcat
    subst hcat
    have hp0 : p ≠ 0 :=
      hinv.owned_ne_zero henv p (Or.inr ⟨i, hi, hpre p (by simp)⟩)
    have hrem : my_remove_from_free_list b ((pre1 ++ [p]).getLastD 0) i
        { free_bins := s.free_bins, mem := writeSize s.mem b size, mmap_log := s.mmap_log } =
        { free_bins := s.free_bins
          mem := writeNext (writeNext (writeSize s.mem b size) p (s.mem b).next) b 0
          mmap_log := s.mmap_log } := by
      simp [my_remove_from_free_list, List.getLastD_concat, hp0]
    rw [hrem]
    refine hinv.take_core henv size i b (pre1 ++ [p]) post hi hb hle (fun x => ?_)
      (fun x hx hxp => ?_) (by simp) ?_ (fun j _ => rfl) rfl
    · simp only [writeNext_size, writeSize_size]
    · have hxp1 : x ≠ p := fun e => hxp (by simp [e])
      simp only []
      rw [writeNext_next_ne _ _ _ _ hx, writeNext_next_ne _ _ _ _ hxp1, writeSize_next]
    · simp only [List.append_assoc, List.singleton_append] at hc1 hnd ⊢
      have := Chain.remove_after p b _ pre1 _ hc1 hnd
      rw [writeSize_next] at this
      exact this

theorem my_remove_from_free_list_size (b prev i : Nat) (s : State) (x : Nat) :
    ((my_remove_from_free_list b prev i s).mem x).size = (s.mem x).size := by
  unfold my_remove_from_free_list
  split <;> simp only [writeNext_size]

theorem my_remove_from_free_list_log (b prev i : Nat) (s : State) :
    (my_remove_from_free_list b prev i s).mmap_log = s.mmap_log := by
  unfold my_remove_from_free_list
  split <;> rfl

theorem write_header_other (mem : Nat → my_metadata_t) (m v w x : Nat) (h : x ≠ m) :
    writeNext (writeSize mem m v) m w x = mem x := by
  simp [writeNext, writeSize, h]

theorem owned_iff (bins : Nat → List Nat) (live : List Nat) (x : Nat) :
    Owned bins live x ↔ x ∈ live ∨ Free bins x := Iff.rfl

theorem free_add (bins : Nat → List Nat) (i m x : Nat) (hi : i < 10) :
    Free (Function.update bins i (m :: bins i)) x ↔ Free bins x ∨ x = m := by
  have := owned_add bins [] i m x hi
  simpa [owned_iff] using this

theorem Inv.free_take {env : Env} {s : State} {bins : Nat → List Nat} {live : List Nat}
    (hinv : Inv env s bins live) (i b : Nat) (pre post : List Nat)
    (hi : i < 10) (hb : bins i = pre ++ b :: post) (x : Nat) :
    Free (Function.update bins i (pre ++ post)) x ↔ Free bins x ∧ x ≠ b := by
  have hnd : (b :: (pre ++ post)).Nodup := by
    have := hinv.nodup i hi
    rw [hb] at this
    exact List.nodup_middle.1 this
  rw [List.nodup_cons] at hnd
  have hbi : b ∈ bins i := by rw [hb]; simp
  have hown := owned_take bins [] pre post i b x hi hb
  simp only [owned_iff, List.mem_cons, List.not_mem_nil, or_false, false_or] at hown
  constructor
  · intro h
    refine ⟨hown.1 (Or.inr h), fun e => ?_⟩
    subst e
    obtain ⟨j, hj, hx⟩ := h
    by_cases hji : j = i
    · subst hji
      rw [Function.update_same] at hx
      exact hnd.1 hx
    · rw [Function.update_noteq hji] at hx
      exact hji (hinv.bin_unique j i x hj hi hx hbi)
  · rintro ⟨h, hne⟩
    rcases hown.2 h with h1 | h1
    · exact absurd h1 hne
    · exact h1

/-- The hit path of `my_malloc` (lines 164 to 185) in a state that satisfies
the invariant, for a search result that is right: it returns the address after
the header of the chosen block, the block is live with exactly the requested
size, no page is requested, and the invariant holds again.  The blocks of the
bins are those of before without the chosen one, and the remainder of the
split when the rest is larger than a header; no other size changes. -/
theorem take_block_spec {env : Env} {s : State} {bins : Nat → List Nat} {live : List Nat}
    (hinv : Inv env s bins live) (henv : EnvOK env) (size i b prev : Nat)
    (hi : i < 10) (hfound : FoundAt s bins size i b prev) :
    ∃ s1 bins1, take_block size i b prev s = .ok (b + HEADER_SIZE, s1) ∧
      Inv env s1 bins1 (b :: live) ∧ (s1.mem b).size = size ∧
      s1.mmap_log = s.mmap_log ∧
      (∀ x, Free bins1 x ↔ (Free bins x ∧ x ≠ b) ∨
        (x = b + HEADER_SIZE + size ∧ size + HEADER_SIZE < (s.mem b).size)) ∧
      (∀ x, x ≠ b → ¬ (x = b + HEADER_SIZE + size ∧ size + HEADER_SIZE < (s.mem b).size) →
        (s1.mem x).size = (s.mem x).size) ∧
      (size + HEADER_SIZE < (s.mem b).size →
        (s1.mem (b + HEADER_SIZE + size)).size = (s.mem b).size - size - HEADER_SIZE) ∧
      (size + HEADER_SIZE < (s.mem b).size → ¬ Owned bins live (b + HEADER_SIZE + size)) := by
  obtain ⟨pre, post, hb, hprev, hle, -, -⟩ := hfound
  subst hprev
  have hH : HEADER_SIZE = 16 := rfl
  have hbi : b ∈ bins i := by rw [hb]; simp
  have hbo : Owned bins live b := Or.inr ⟨i, hi, hbi⟩
  have hinv2 := hinv.take henv size i b pre post hi hb hle
  have hown := fun x => owned_take bins live pre post i b x hi hb
  have hfree2 := fun x => hinv.free_take i b pre post hi hb x
  have hsz2 : ∀ x, ((my_remove_from_free_list b (pre.getLastD 0) i
      { free_bins := s.free_bins, mem := writeSize s.mem b size,
        mmap_log := s.mmap_log }).mem x).size = if x = b then size else (s.mem x).size :=
    fun x => by rw [my_remove_from_free_list_size]; exact writeSize_size _ _ _ _
  have hlog2 := my_remove_from_free_list_log b (pre.getLastD 0) i
      { free_bins := s.free_bins, mem := writeSize s.mem b size, mmap_log := s.mmap_log }
  unfold take_block
  simp only []
  by_cases hsplit : (s.mem b).size - size > HEADER_SIZE
  · rw [if_pos hsplit]
    generalize hs2 : my_remove_from_free_list b (pre.getLastD 0) i
      { free_bins := s.free_bins, mem := writeSize s.mem b size,
        mmap_log := s.mmap_log } = s2 at hinv2 hsz2 hlog2 ⊢
    obtain ⟨k, hk1, hk2, hk3⟩ := hinv.in_page b hbo
    have hdk := henv.2.2.2 k
    have hm_fresh : ¬ Owned (Function.update bins i (pre ++ post)) (b :: live)
        (b + HEADER_SIZE + size) := by
      intro h
      have h1 := (hown _).1 h
      have := hinv.disj b (b + HEADER_SIZE + size) hbo h1 (by omega)
      omega
    have hmd : b + HEADER_SIZE + size ≠ env.dummy := by
      omega
    have hinv3 : Inv env
        { free_bins := s2.free_bins
          mem := writeNext (writeSize s2.mem (b + HEADER_SIZE + size)
            ((s.mem b).size - size - HEADER_SIZE)) (b + HEADER_SIZE + size) 0
          mmap_log := s2.mmap_log }
        (Function.update bins i (pre ++ post)) (b :: live) := by
      refine hinv2.frame (fun _ _ => rfl) (fun x hx => ?_) le_rfl hinv2.log
      refine write_header_other _ _ _ _ _ (fun e => ?_)
      rcases hx with h | h
      · exact hm_fresh (e ▸ h)
      · exact hmd (e ▸ h)
    have hsz3 : ∀ x, ((writeSize s2.mem (b + HEADER_SIZE + size)
          ((s.mem b).size - size - HEADER_SIZE)) x).size =
        if x = b + HEADER_SIZE + size then (s.mem b).size - size - HEADER_SIZE
        else if x = b then size else (s.mem x).size := fun x => by
      rw [writeSize_size, hsz2]
    have hadd := hinv3.add (b + HEADER_SIZE + size) hm_fresh hmd (by omega)
      ⟨k, by simp only []; rw [hlog2]; exact hk1, by omega, by
        simp only [writeNext_size]
        rw [hsz3, if_pos rfl]
        omega⟩
      (fun c hc => by
        simp only [writeNext_size]
        rw [hsz3, hsz3, if_pos rfl]
        have hc1 := (hown c).1 hc
        by_cases hcb : c = b
        · subst hcb
          have : ¬ (c = c + HEADER_SIZE + size) := by omega
          rw [if_neg this, if_pos rfl]
          right; exact le_rfl
        · have hcm : ¬ (c = b + HEADER_SIZE + size) := fun e => hm_fresh (e ▸ hc)
          rw [if_neg hcm, if_neg hcb]
          have := hinv.disj b c hbo hc1 (Ne.symm hcb)
          omega)
    rw [my_add_to_free_list_ok _ _ (by simp)]
    refine ⟨_, _, rfl, hadd, ?_, ?_, fun x => ?_, fun x hxb hxm => ?_, fun _ => ?_,
      fun _ h => hm_fresh ((hown _).2 h)⟩
    · simp only [writeNext_size]
      rw [hsz3]
      have : ¬ (b = b + HEADER_SIZE + size) := by omega
      rw [if_neg this, if_pos rfl]
    · simp only []; exact hlog2
    · have hidx : find_bin_idx ((writeNext (writeSize s2.mem (b + HEADER_SIZE + size)
          ((s.mem b).size - size - HEADER_SIZE)) (b + HEADER_SIZE + size) 0
          (b + HEADER_SIZE + size)).size) < 10 := by
        have := find_bin_idx_le_nine ((writeNext (writeSize s2.mem (b + HEADER_SIZE + size)
          ((s.mem b).size - size - HEADER_SIZE)) (b + HEADER_SIZE + size) 0
          (b + HEADER_SIZE + size)).size)
        omega
      rw [free_add _ _ _ x hidx, hfree2 x]
      constructor
      · rintro (h | h)
        · exact Or.inl h
        · exact Or.inr ⟨h, by omega⟩
      · rintro (h | h)
        · exact Or.inl h
        · exact Or.inr h.1
    · simp only [writeNext_size]
      rw [hsz3]
      have hxm1 : ¬ (x = b + HEADER_SIZE + size) := fun e => hxm ⟨e, by omega⟩
      rw [if_neg hxm1, if_neg hxb]
    · simp only [writeNext_size]
      rw [hsz3, if_pos rfl]
  · rw [if_neg hsplit]
    refine ⟨_, _, rfl, hinv2, ?_, hlog2, fun x => ?_, fun x hxb _ => ?_, fun h => ?_,
      fun h => ?_⟩
    · rw [hsz2, if_pos rfl]
    · rw [hfree2 x]
      constructor
      · intro h; exact Or.inl h
      · rintro (h | h)
        · exact h
        · omega
    · rw [hsz2, if_neg hxb]
    · omega
    · omega

/-! ## The search, the miss path and `my_malloc` -/

theorem find_best_spec {env : Env} {s : State} {bins : Nat → List Nat} {live : List Nat}
    (hinv : Inv env s bins live) (size : Nat) (hsize : 1 ≤ size) (fuel : Nat) :
    ((∀ j, j < 10 → (bins j).length + 1 < fuel) → ∃ r, find_best s size fuel = .ok r) ∧
    (∀ r, find_best s size fuel = .ok r → SearchSpec s bins size (find_bin_idx size) r) := by
  have h9 := find_bin_idx_le_nine size
  have := bin_loop_spec hinv size hsize fuel
    (MAX_BIN_SCALE - MIN_BIN_SCALE + 1 - find_bin_idx size) (find_bin_idx size)
    (by simp only [MAX_BIN_SCALE, MIN_BIN_SCALE]; omega)
  exact ⟨fun hf => this.1 (fun j _ hj => hf j hj), this.2⟩

/-- The miss path before the retry (lines 149 to 154): one request of 4096
bytes, and the new page is the head of the overflow bin as one block of 4080
bytes. -/
theorem new_page_spec {env : Env} {s : State} {bins : Nat → List Nat} {live : List Nat}
    (hinv : Inv env s bins live) (henv : EnvOK env) :
    ∃ s1, new_page env s = .ok s1 ∧
      Inv env s1 (Function.update bins 9 (env.page s.mmap_log.length :: bins 9)) live ∧
      s1.mmap_log = s.mmap_log ++ [4096] ∧
      (s1.mem (env.page s.mmap_log.length)).size = 4080 ∧
      (∀ x, Owned bins live x → (s1.mem x).size = (s.mem x).size) := by
  have hH : HEADER_SIZE = 16 := rfl
  have hfresh : ¬ Owned bins live (env.page s.mmap_log.length) := by
    intro h
    obtain ⟨k, h1, h2, h3⟩ := hinv.in_page _ h
    have := henv.2.2.1 k s.mmap_log.length (by omega)
    omega
  have hd : env.page s.mmap_log.length ≠ env.dummy := by
    have := henv.2.2.2 s.mmap_log.length
    omega
  have hinv0 : Inv env
      { free_bins := s.free_bins
        mem := writeNext (writeSize s.mem (env.page s.mmap_log.length) (4096 - HEADER_SIZE))
          (env.page s.mmap_log.length) 0
        mmap_log := s.mmap_log ++ [4096] } bins live := by
    refine hinv.frame (fun _ _ => rfl) (fun x hx => ?_) (by simp) (fun x hx => ?_)
    · refine write_header_other _ _ _ _ _ (fun e => ?_)
      rcases hx with h | h
      · exact hfresh (e ▸ h)
      · exact hd (e ▸ h)
    · rcases List.mem_append.1 hx with h | h
      · exact hinv.log x h
      · simpa using h
  have hsz : (writeNext (writeSize s.mem (env.page s.mmap_log.length) (4096 - HEADER_SIZE))
      (env.page s.mmap_log.length) 0 (env.page s.mmap_log.length)).size = 4080 := by
    simp [HEADER_SIZE]
  have hadd := hinv0.add (env.page s.mmap_log.length) hfresh hd (henv.2.1 _)
    ⟨s.mmap_log.length, by simp, le_rfl, by simp only []; rw [hsz]; omega⟩
    (fun c hc => by
      simp only []
      rw [hsz]
      obtain ⟨k, h1, h2, h3⟩ := hinv0.in_page c hc
      simp only [writeNext_size] at h3 ⊢
      have hk : k ≠ s.mmap_log.length := by
        intro e
        subst e
        obtain ⟨k2, h4, h5, h6⟩ := hinv.in_page c hc
        have := henv.2.2.1 k2 s.mmap_log.length (by omega)
        have hcm : c ≠ env.page s.mmap_log.length := fun e => hfresh (e ▸ hc)
        rw [writeSize_size_ne _ _ _ _ hcm] at h3
        omega
      have := henv.2.2.1 k s.mmap_log.length hk
      omega)
  simp only [] at hadd
  rw [hsz, find_bin_idx_large 4080 (by norm_num)] at hadd
  refine ⟨_, ?_, hadd, rfl, ?_, fun x hx => ?_⟩
  · unfold new_page
    simp only []
    rw [my_add_to_free_list_ok _ _ (by simp)]
    simp only []
    rw [hsz, find_bin_idx_large 4080 (by norm_num)]
  · simp only [writeNext_size]
    simp [HEADER_SIZE]
  · simp only [writeNext_size]
    have hxm : x ≠ env.page s.mmap_log.length := fun e => hfresh (e ▸ hx)
    rw [writeSize_size_ne _ _ _ _ hxm]

theorem my_malloc_hit (env : Env) (size fuel depth : Nat) (s : State) (i b prev : Nat)
    (h : find_best s size fuel = .ok (some (i, b, prev))) :
    my_malloc env size fuel depth s = take_block size i b prev s := by
  cases depth <;> simp only [my_malloc, h]

theorem my_malloc_miss (env : Env) (size fuel d : Nat) (s s1 : State)
    (h : find_best s size fuel = .ok none) (hp : new_page env s = .ok s1) :
    my_malloc env size fuel (d + 1) s = my_malloc env size fuel d s1 := by
  rw [my_malloc]
  simp only [h, hp]

theorem my_malloc_miss_zero (env : Env) (size fuel : Nat) (s : State)
    (h : find_best s size fuel = .ok none) :
    my_malloc env size fuel 0 s = .error .out_of_fuel := by
  simp only [my_malloc, h]

theorem my_malloc_error (env : Env) (size fuel depth : Nat) (s : State) (e : Err)
    (h : find_best s size fuel = .error e) :
    my_malloc env size fuel depth s = .error e := by
  cases depth <;> simp only [my_malloc, h]

/-- After the miss path the search cannot miss again: the new block of 4080
bytes is in the overflow bin. -/
theorem find_best_after_new_page {s1 : State} {bins : Nat → List Nat}
    (size : Nat) (hmax : size ≤ 4080) (pg : Nat)
    (hsz : (s1.mem pg).size = 4080)
    (hnone : SearchSpec s1 (Function.update bins 9 (pg :: bins 9)) size (find_bin_idx size) none) :
    False := by
  have h9 := find_bin_idx_le_nine size
  have := hnone 9 h9 (by norm_num) pg (by rw [Function.update_same]; exact List.mem_cons_self _ _)
  omega

/-- How a run of `my_malloc` that returns went: either the search hit and the
hit path ran, or the search found no fitting block in the bins from
`find_bin_idx size` on, one page was requested, and the search of the retry
hit. -/
theorem my_malloc_run {env : Env} {s : State} {bins : Nat → List Nat} {live : List Nat}
    (hinv : Inv env s bins live) (henv : EnvOK env) (size : Nat) (hsize : 1 ≤ size)
    (hmax : size ≤ 4080) (fuel depth p : Nat) (s1 : State)
    (h : my_malloc env size fuel depth s = .ok (p, s1)) :
    (∃ i b prev, find_best s size fuel = .ok (some (i, b, prev)) ∧
      SearchSpec s bins size (find_bin_idx size) (some (i, b, prev)) ∧
      take_block size i b prev s = .ok (p, s1)) ∨
    (find_best s size fuel = .ok none ∧
      SearchSpec s bins size (find_bin_idx size) none ∧ 0 < depth ∧
      ∃ s0 i b prev, new_page env s = .ok s0 ∧
        find_best s0 size fuel = .ok (some (i, b, prev)) ∧
        SearchSpec s0 (Function.update bins 9 (env.page s.mmap_log.length :: bins 9)) size
          (find_bin_idx size) (some (i, b, prev)) ∧
        take_block size i b prev s0 = .ok (p, s1)) := by
  rcases hfb : find_best s size fuel with e | r
  · rw [my_malloc_error env size fuel depth s e hfb] at h
    simp at h
  · have hspec := (find_best_spec hinv size hsize fuel).2 r hfb
    cases r with
    | some t =>
      obtain ⟨i, b, prev⟩ := t
      rw [my_malloc_hit env size fuel depth s i b prev hfb] at h
      exact Or.inl ⟨i, b, prev, rfl, hspec, h⟩
    | none =>
      right
      cases depth with
      | zero =>
        rw [my_malloc_miss_zero env size fuel s hfb] at h
        simp at h
      | succ d =>
        obtain ⟨s0, hp, hinv0, hlog0, hsz0, _⟩ := new_page_spec hinv henv
        rw [my_malloc_miss env size fuel d s s0 hfb hp] at h
        refine ⟨rfl, hspec, Nat.succ_pos d, s0, ?_⟩
        rcases hfb0 : find_best s0 size fuel with e | r
        · rw [my_malloc_error env size fuel d s0 e hfb0] at h
          simp at h
        · have hspec0 := (find_best_spec hinv0 size hsize fuel).2 r hfb0
          cases r with
          | some t =>
            obtain ⟨i, b, prev⟩ := t
            rw [my_malloc_hit env size fuel d s0 i b prev hfb0] at h
            exact ⟨i, b, prev, hp, rfl, hspec0, h⟩
          | none =>
            exact (find_best_after_new_page size hmax _ hsz0 hspec0).elim

/-- Termination: with recursion depth 1 and fuel above the length of every
bin plus two, `my_malloc` returns. -/
theorem my_malloc_returns {env : Env} {s : State} {bins : Nat → List Nat} {live : List Nat}
    (hinv : Inv env s bins live) (henv : EnvOK env) (size : Nat) (hsize : 1 ≤ size)
    (hmax : size ≤ 4080) (fuel : Nat) (hfuel : ∀ j, j < 10 → (bins j).length + 2 < fuel) :
    ∃ p s1, my_malloc env size fuel 1 s = .ok (p, s1) := by
  obtain ⟨r, hfb⟩ := (find_best_spec hinv size hsize fuel).1
    (fun j hj => by have := hfuel j hj; omega)
  have hspec := (find_best_spec hinv size hsize fuel).2 r hfb
  cases r with
  | some t =>
    obtain ⟨i, b, prev⟩ := t
    obtain ⟨s1, _, htake, _⟩ := take_block_spec hinv henv size i b prev hspec.2.1 hspec.2.2.1
    exact ⟨b + HEADER_SIZE, s1, by rw [my_malloc_hit env size fuel 1 s i b prev hfb]; exact htake⟩
  | none =>
    obtain ⟨s0, hp, hinv0, hlog0, hsz0, _⟩ := new_page_spec hinv henv
    obtain ⟨r0, hfb0⟩ := (find_best_spec hinv0 size hsize fuel).1 (fun j hj => by
      have := hfuel j hj
      by_cases hj9 : j = 9
      · subst hj9
        rw [Function.update_same, List.length_cons]
        omega
      · rw [Function.update_noteq hj9]
        omega)
    have hspec0 := (find_best_spec hinv0 size hsize fuel).2 r0 hfb0
    cases r0 with
    | some t =>
      obtain ⟨i, b, prev⟩ := t
      obtain ⟨s1, _, htake, _⟩ :=
        take_block_spec hinv0 henv size i b prev hspec0.2.1 hspec0.2.2.1
      refine ⟨b + HEADER_SIZE, s1, ?_⟩
      rw [my_malloc_miss env size fuel 0 s s0 hfb hp,
        my_malloc_hit env size fuel 0 s0 i b prev hfb0]
      exact htake
    | none =>
      exact (find_best_after_new_page size hmax _ hsz0 hspec0).elim

/-- Alignment is kept by the hit path. -/
theorem take_block_aligned {env : Env} {s : State} {bins : Nat → List Nat} {live : List Nat}
    (hinv : Inv env s bins live) (hal : Aligned env s bins live) (size i b prev : Nat)
    (hi : i < 10) (hfound : FoundAt s bins size i b prev) (h8 : 8 ≤ size) (hm8 : size % 8 = 0)
    (s1 : State) (bins1 : Nat → List Nat)
    (hsize : (s1.mem b).size = size)
    (hfree : ∀ x, Free bins1 x ↔ (Free bins x ∧ x ≠ b) ∨
        (x = b + HEADER_SIZE + size ∧ size + HEADER_SIZE < (s.mem b).size))
    (hsame : ∀ x, x ≠ b →
      ¬ (x = b + HEADER_SIZE + size ∧ size + HEADER_SIZE < (s.mem b).size) →
        (s1.mem x).size = (s.mem x).size)
    (hrem : size + HEADER_SIZE < (s.mem b).size →
        (s1.mem (b + HEADER_SIZE + size)).size = (s.mem b).size - size - HEADER_SIZE)
    (hfresh : size + HEADER_SIZE < (s.mem b).size → ¬ Owned bins live (b + HEADER_SIZE + size)) :
    Aligned env s1 bins1 (b :: live) := by
  have hH : HEADER_SIZE = 16 := rfl
  obtain ⟨pre, post, hb, -, hle, -, -⟩ := hfound
  have hbi : b ∈ bins i := by rw [hb]; simp
  have hbo : Owned bins live b := Or.inr ⟨i, hi, hbi⟩
  obtain ⟨hb8, hbm, k, hk1, hk2⟩ := hal b hbo
  have hold : ∀ x, Owned bins live x → x ≠ b →
      8 ≤ (s1.mem x).size ∧ (s1.mem x).size % 8 = 0 ∧
        ∃ k, env.page k ≤ x ∧ (x - env.page k) % 8 = 0 := by
    intro x hx hxb
    rw [hsame x hxb (fun h => hfresh h.2 (h.1 ▸ hx))]
    exact hal x hx
  intro x hx
  rcases hx with hx | hx
  · rcases List.mem_cons.1 hx with rfl | hx1
    · rw [hsize]
      exact ⟨h8, hm8, k, hk1, hk2⟩
    · exact hold x (Or.inl hx1) (fun e => (hinv.bin_of i hi b hbi).2 (e ▸ hx1))
  · rcases (hfree x).1 hx with ⟨h1, h2⟩ | ⟨h1, h2⟩
    · exact hold x (Or.inr h1) h2
    · subst h1
      rw [hrem h2]
      refine ⟨by omega, by omega, k, by omega, by omega⟩

/-- A returning call of `my_malloc` establishes `MallocPost`. -/
theorem my_malloc_post {env : Env} {s : State} {bins : Nat → List Nat} {live : List Nat}
    (hinv : Inv env s bins live) (henv : EnvOK env) (size : Nat) (hsize : 1 ≤ size)
    (hmax : size ≤ 4080) (fuel depth p : Nat) (s1 : State)
    (h : my_malloc env size fuel depth s = .ok (p, s1)) :
    MallocPost env size s bins live p s1 := by
  have hH : HEADER_SIZE = 16 := rfl
  rcases my_malloc_run hinv henv size hsize hmax fuel depth p s1 h with
    ⟨i, b, prev, _, hspec, htake⟩ | ⟨_, _, _, s0, i, b, prev, hp, _, hspec, htake⟩
  · obtain ⟨hle, hi, hfound, _⟩ := hspec
    obtain ⟨s2, bins2, htake2, hinv2, hsz, hlog, hfree, hsame, hrem, hfresh⟩ :=
      take_block_spec hinv henv size i b prev hi hfound
    rw [htake2] at htake
    simp only [Except.ok.injEq, Prod.mk.injEq] at htake
    obtain ⟨hp1, hs1⟩ := htake
    subst hs1
    have hbi : b ∈ bins i := by
      obtain ⟨pre, post, hb, _⟩ := hfound
      rw [hb]; simp
    refine ⟨bins2, b, hp1.symm, hinv2, hsz, Or.inl hlog, fun x hx => ?_, fun hal h8 hm8 =>
      take_block_aligned hinv hal size i b prev hi hfound h8 hm8 s2 bins2 hsz hfree hsame hrem
        hfresh⟩
    exact hsame x (fun e => (hinv.bin_of i hi b hbi).2 (e ▸ hx))
      (fun hc => hfresh hc.2 (hc.1 ▸ Or.inl hx))
  · obtain ⟨s0', hp', hinv0, hlog0, hsz0, hsame0⟩ := new_page_spec hinv henv
    rw [hp] at hp'
    simp only [Except.ok.injEq] at hp'
    subst hp'
    obtain ⟨hle, hi, hfound, _⟩ := hspec
    obtain ⟨s2, bins2, htake2, hinv2, hsz, hlog, hfree, hsame, hrem, hfresh⟩ :=
      take_block_spec hinv0 henv size i b prev hi hfound
    rw [htake2] at htake
    simp only [Except.ok.injEq, Prod.mk.injEq] at htake
    obtain ⟨hp1, hs1⟩ := htake
    subst hs1
    have hbi : b ∈ Function.update bins 9 (env.page s.mmap_log.length :: bins 9) i := by
      obtain ⟨pre, post, hb, _⟩ := hfound
      rw [hb]; simp
    have hlive : ∀ x, x ∈ live →
        Owned (Function.update bins 9 (env.page s.mmap_log.length :: bins 9)) live x :=
      fun x hx => Or.inl hx
    refine ⟨bins2, b, hp1.symm, hinv2, hsz, Or.inr (by rw [hlog, hlog0]), fun x hx => ?_,
      fun hal h8 hm8 => ?_⟩
    · rw [hsame x (fun e => (hinv0.bin_of i hi b hbi).2 (e ▸ hx))
        (fun hc => hfresh hc.2 (hc.1 ▸ hlive x hx))]
      exact hsame0 x (Or.inl hx)
    · have hal0 : Aligned env s0 (Function.update bins 9
          (env.page s.mmap_log.length :: bins 9)) live := by
        intro x hx
        rcases (owned_add bins live 9 _ x (by norm_num)).1 hx with h1 | h1
        · rw [hsame0 x h1]
          exact hal x h1
        · subst h1
          rw [hsz0]
          exact ⟨by norm_num, by norm_num, s.mmap_log.length, le_rfl, by simp⟩
      exact take_block_aligned hinv0 hal0 size i b prev hi hfound h8 hm8 s2 bins2 hsz hfree
        hsame hrem hfresh

/-! ## `my_free` -/

/-- Forgetting a live block keeps the invariant. -/
theorem Inv.unlive {env : Env} {s : State} {bins : Nat → List Nat} {live : List Nat}
    (hinv : Inv env s bins live) (h : Nat) :
    Inv env s bins (live.filter (fun x => x ≠ h)) := by
  have hsub : ∀ x, x ∈ live.filter (fun x => x ≠ h) → x ∈ live :=
    fun x hx => (List.mem_filter.1 hx).1
  have hown : ∀ x, Owned bins (live.filter (fun x => x ≠ h)) x → Owned bins live x := by
    rintro x (hx | hx)
    · exact Or.inl (hsub x hx)
    · exact Or.inr hx
  exact
    { chain := hinv.chain
      nodup := hinv.nodup
      live_nodup := hinv.live_nodup.filter _
      dummy_size := hinv.dummy_size
      dummy_next := hinv.dummy_next
      bin_of := fun i hi b hb => ⟨(hinv.bin_of i hi b hb).1,
        fun hc => (hinv.bin_of i hi b hb).2 (hsub b hc)⟩
      live_next := fun b hb => hinv.live_next b (hsub b hb)
      in_page := fun b hb => hinv.in_page b (hown b hb)
      disj := fun b c hb hc hne => hinv.disj b c (hown b hb) (hown c hc) hne
      log := hinv.log }

/-- The function `my_free` on a live pointer: the assertion holds, the block
becomes the head of the bin of its size, and nothing else changes. -/
theorem my_free_spec {env : Env} {s : State} {bins : Nat → List Nat} {live : List Nat}
    (hinv : Inv env s bins live) (henv : EnvOK env) (h : Nat) (hl : h ∈ live) :
    my_free (h + HEADER_SIZE) s =
      .ok { free_bins := writeBin s.free_bins (find_bin_idx (s.mem h).size) h
            mem := writeNext s.mem h (s.free_bins (find_bin_idx (s.mem h).size))
            mmap_log := s.mmap_log } ∧
    Inv env
      { free_bins := writeBin s.free_bins (find_bin_idx (s.mem h).size) h
        mem := writeNext s.mem h (s.free_bins (find_bin_idx (s.mem h).size))
        mmap_log := s.mmap_log }
      (Function.update bins (find_bin_idx (s.mem h).size)
        (h :: bins (find_bin_idx (s.mem h).size)))
      (live.filter (fun x => x ≠ h)) := by
  have hown : Owned bins live h := Or.inl hl
  constructor
  · unfold my_free
    rw [Nat.add_sub_cancel]
    exact my_add_to_free_list_ok h s (hinv.live_next h hl)
  · refine (hinv.unlive h).add h ?_ (hinv.owned_ne_dummy henv h hown)
      (hinv.owned_ne_zero henv h hown) (hinv.in_page h hown) (fun c hc => ?_)
    · rintro (hc | ⟨j, hj, hc⟩)
      · simpa using (List.mem_filter.1 hc).2
      · exact (hinv.bin_of j hj h hc).2 hl
    · have hch : c ≠ h := by
        rintro rfl
        rcases hc with hc | ⟨j, hj, hc⟩
        · simpa using (List.mem_filter.1 hc).2
        · exact (hinv.bin_of j hj c hc).2 hl
      have hc1 : Owned bins live c := by
        rcases hc with hc | hc
        · exact Or.inl (List.mem_filter.1 hc).1
        · exact Or.inr hc
      exact hinv.disj h c hown hc1 (Ne.symm hch)

/-! ## The reachable states -/

theorem live_filter_map (live : List (Nat × Nat)) (liveH : List Nat) (h : Nat)
    (hmap : live.map Prod.fst = liveH.map (fun x => x + HEADER_SIZE)) :
    (live.filter (fun e => e.1 ≠ h + HEADER_SIZE)).map Prod.fst =
      (liveH.filter (fun x => x ≠ h)).map (fun x => x + HEADER_SIZE) := by
  have h1 : (live.filter (fun e => e.1 ≠ h + HEADER_SIZE)).map Prod.fst =
      (live.map Prod.fst).filter (fun x => x ≠ h + HEADER_SIZE) := by
    rw [List.filter_map]; rfl
  have h2 : (liveH.filter (fun x => x ≠ h)).map (fun x => x + HEADER_SIZE) =
      (liveH.map (fun x => x + HEADER_SIZE)).filter (fun x => x ≠ h + HEADER_SIZE) := by
    rw [List.filter_map]
    congr 1
    apply List.filter_congr
    intro x _
    simp
  rw [h1, h2, hmap]

theorem init_inv (env : Env) (henv : EnvOK env) (s0 : State) (hz : ZeroHeap s0) :
    Inv env ( my_initialize env s0) (fun _ => []) [] := by
  have hbins := my_initialize_bins env s0
  refine
    { chain := fun i hi => ?_
      nodup := fun _ _ => List.nodup_nil
      live_nodup := List.nodup_nil
      dummy_size := by simp [ my_initialize]
      dummy_next := by simp [ my_initialize]
      bin_of := fun i hi b hb => by simp at hb
      live_next := fun b hb => by simp at hb
      in_page := fun b hb => ?_
      disj := fun b c hb _ _ => ?_
      log := fun x hx => ?_ }
  · rw [hbins]
    unfold nodes sentinel
    simp only [MAX_BIN_SCALE, MIN_BIN_SCALE, List.nil_append]
    by_cases h9 : i < 9
    · rw [if_pos h9, if_pos (by omega)]
      exact ⟨rfl, henv.1, by simp [ my_initialize, Chain]⟩
    · rw [if_neg h9, if_neg (by omega)]
      exact hz.1 i
  · rcases hb with hb | ⟨j, _, hb⟩ <;> simp at hb
  · rcases hb with hb | ⟨j, _, hb⟩ <;> simp at hb
  · have : ( my_initialize env s0).mmap_log = [] := hz.2
    rw [this] at hx
    simp at hx

/-- Every reachable state satisfies `ReachInv`. -/
theorem reachable_inv (env : Env) (henv : EnvOK env) (s : State) (live : List (Nat × Nat))
    (hr : Reachable env s live) : ReachInv env s live := by
  induction hr with
  | init s0 hz =>
    refine ⟨fun _ => [], [], init_inv env henv s0 hz, fun b hb => ?_, rfl, fun e he => ?_⟩
    · rcases hb with hb | ⟨j, _, hb⟩ <;> simp at hb
    · simp at he
  | malloc s live size fuel depth p s1 _ hm8 h8 h4000 hmal ih =>
    obtain ⟨bins, liveH, hinv, hal, hmap, hsz⟩ := ih
    obtain ⟨bins1, h, hp, hinv1, hsz1, _, hkeep, hal1⟩ :=
      my_malloc_post hinv henv size (by omega) (by omega) fuel depth p s1 hmal
    refine ⟨bins1, h :: liveH, hinv1, hal1 hal h8 hm8, ?_, fun e he => ?_⟩
    · simp only [List.map_cons, hmap, hp]
    · rcases List.mem_cons.1 he with rfl | he1
      · simp only [hp, Nat.add_sub_cancel]
        exact hsz1
      · have : e.1 ∈ live.map Prod.fst := List.mem_map_of_mem _ he1
        rw [hmap] at this
        obtain ⟨h', hh', he'⟩ := List.mem_map.1 this
        rw [← hsz e he1, ← he']
        simp only [Nat.add_sub_cancel]
        exact hkeep h' hh'
  | free s live p s1 _ hp hfree ih =>
    obtain ⟨bins, liveH, hinv, hal, hmap, hsz⟩ := ih
    rw [hmap] at hp
    obtain ⟨h, hh, hph⟩ := List.mem_map.1 hp
    subst hph
    obtain ⟨hok, hinv1⟩ := my_free_spec hinv henv h hh
    rw [hok] at hfree
    simp only [Except.ok.injEq] at hfree
    subst hfree
    refine ⟨_, _, hinv1, fun b hb => ?_, live_filter_map live liveH h hmap, fun e he => ?_⟩
    · simp only [writeNext_size]
      have hidx : find_bin_idx (s.mem h).size < 10 := by
        have := find_bin_idx_le_nine (s.mem h).size
        omega
      refine hal b ?_
      rcases (owned_add _ _ _ _ b hidx).1 hb with h1 | h1
      · rcases h1 with h2 | h2
        · exact Or.inl (List.mem_filter.1 h2).1
        · exact Or.inr h2
      · exact h1 ▸ Or.inl hh
    · simp only [writeNext_size]
      exact hsz e (List.mem_filter.1 he).1

/-! ## The concrete environment -/

theorem exEnv_ok : EnvOK exEnv := by
  refine ⟨by decide, fun k => ?_, fun j k hjk => ?_, fun k => ?_⟩
  · simp [exEnv]
  · simp only [exEnv]; omega
  · simp only [exEnv, HEADER_SIZE]; omega

theorem exEnv_aligned : ∀ k, exEnv.page k % 8 = 0 := by
  intro k
  simp only [exEnv]
  omega

theorem exInit_reachable : Reachable exEnv exInit [] :=
  Reachable.init zeroState ⟨fun _ => rfl, rfl⟩

theorem exState1_run : my_malloc exEnv 16 5 1 exInit = .ok (4112, exState1) := by
  rfl

theorem exState1_reachable : Reachable exEnv exState1 [(4112, 16)] :=
  Reachable.malloc exInit [] 16 5 1 4112 exState1 exInit_reachable (by decide) (by decide)
    (by decide) exState1_run

/-! ## The blocks of a reachable state -/

/-- A block in the sense of `IsBlock` is a block of the ghost lists. -/
theorem isBlock_owned {env : Env} {s : State} {live : List (Nat × Nat)}
    {bins : Nat → List Nat} {liveH : List Nat} (hinv : Inv env s bins liveH)
    (hmap : live.map Prod.fst = liveH.map (fun h => h + HEADER_SIZE))
    (h : Nat) (hb : IsBlock env s live h) : Owned bins liveH h := by
  rcases hb with hb | ⟨hd, i, hi, hl⟩
  · rw [hmap] at hb
    obtain ⟨h', hh', he⟩ := List.mem_map.1 hb
    have : h' = h := by simpa using he
    exact Or.inl (this ▸ hh')
  · simp only [MAX_BIN_SCALE, MIN_BIN_SCALE] at hi
    have hi10 : i < 10 := by omega
    have := (Chain.linked_iff _ _ (hinv.chain i hi10) h).1 hl
    rcases mem_nodes this with h1 | h1
    · exact Or.inr ⟨i, hi10, h1⟩
    · exact absurd h1 hd

/-- C1: in every reachable state the extents `[h, h + 16 + h.size)` of the
blocks, live or linked in a bin, and of the sentinel are pairwise disjoint; the
live pointers are pairwise different and the payload ranges `[p, p + size)` of
two live allocations do not overlap. -/
theorem extents_disjoint (env : Env) (henv : EnvOK env) (s : State) (live : List (Nat × Nat))
    (hr : Reachable env s live) :
    (∀ h1 h2, (IsBlock env s live h1 ∨ h1 = env.dummy) →
      (IsBlock env s live h2 ∨ h2 = env.dummy) → h1 ≠ h2 →
      h1 + HEADER_SIZE + (s.mem h1).size ≤ h2 ∨ h2 + HEADER_SIZE + (s.mem h2).size ≤ h1) ∧
    (live.map Prod.fst).Nodup ∧
    (∀ e1 e2, e1 ∈ live → e2 ∈ live → e1.1 ≠ e2.1 →
      e1.1 + e1.2 ≤ e2.1 ∨ e2.1 + e2.2 ≤ e1.1) := by
  have hH : HEADER_SIZE = 16 := rfl
  obtain ⟨bins, liveH, hinv, _, hmap, hsz⟩ := reachable_inv env henv s live hr
  have hdum : ∀ b, Owned bins liveH b →
      b + HEADER_SIZE + (s.mem b).size ≤ env.dummy ∨
        env.dummy + HEADER_SIZE + (s.mem env.dummy).size ≤ b := by
    intro b hb
    obtain ⟨k, _, h1, h2⟩ := hinv.in_page b hb
    have := henv.2.2.2 k
    rw [hinv.dummy_size]
    omega
  refine ⟨fun h1 h2 hb1 hb2 hne => ?_, ?_, fun e1 e2 he1 he2 hne => ?_⟩
  · rcases hb1 with hb1 | rfl
    · have ho1 := isBlock_owned hinv hmap h1 hb1
      rcases hb2 with hb2 | rfl
      · exact hinv.disj h1 h2 ho1 (isBlock_owned hinv hmap h2 hb2) hne
      · exact hdum h1 ho1
    · rcases hb2 with hb2 | rfl
      · exact (hdum h2 (isBlock_owned hinv hmap h2 hb2)).symm
      · exact absurd rfl hne
  · rw [hmap]
    exact hinv.live_nodup.map (fun a b hab => by simpa using hab)
  · have hm : ∀ e, e ∈ live → ∃ h, h ∈ liveH ∧ e.1 = h + HEADER_SIZE ∧ (s.mem h).size = e.2 := by
      intro e he
      have : e.1 ∈ live.map Prod.fst := List.mem_map_of_mem _ he
      rw [hmap] at this
      obtain ⟨h, hh, heq⟩ := List.mem_map.1 this
      refine ⟨h, hh, heq.symm, ?_⟩
      rw [← hsz e he, ← heq]
      simp
    obtain ⟨a, ha, ha1, ha2⟩ := hm e1 he1
    obtain ⟨b, hb, hb1, hb2⟩ := hm e2 he2
    have := hinv.disj a b (Or.inl ha) (Or.inl hb) (fun e => hne (by rw [ha1, hb1, e]))
    omega

theorem extents_disjoint_witness :
    4096 + HEADER_SIZE + (exState1.mem 4096).size ≤ 4128 ∨
      4128 + HEADER_SIZE + (exState1.mem 4128).size ≤ 4096 :=
  (extents_disjoint exEnv exEnv_ok exState1 [(4112, 16)] exState1_reachable).1 4096 4128
    (Or.inl (Or.inl (by decide)))
    (Or.inl (Or.inr ⟨by decide, 9, by decide, Linked.here 4128 (by decide)⟩))
    (by decide)

theorem Inv.nodes_nodup {env : Env} {s : State} {bins : Nat → List Nat} {live : List Nat}
    (hinv : Inv env s bins live) (henv : EnvOK env) (i : Nat) (hi : i < 10) :
    (nodes env bins i).Nodup := by
  unfold nodes sentinel
  split
  · rw [List.nodup_append]
    refine ⟨hinv.nodup i hi, by simp, ?_⟩
    intro a ha hd
    simp only [List.mem_singleton] at hd
    exact hinv.owned_ne_dummy henv a (Or.inr ⟨i, hi, ha⟩) hd
  · rw [List.append_nil]; exact hinv.nodup i hi

/-! ## What `my_malloc` returns -/

theorem exists_fuel (bins : Nat → List Nat) :
    ∃ fuel, ∀ j, j < 10 → (bins j).length + 2 < fuel := by
  refine ⟨(bins 0).length + (bins 1).length + (bins 2).length + (bins 3).length +
    (bins 4).length + (bins 5).length + (bins 6).length + (bins 7).length +
    (bins 8).length + (bins 9).length + 3, fun j hj => ?_⟩
  interval_cases j <;> omega

/-- C2: from a reachable state `my_malloc(size)`, for every `size` in
`[8, 4000]` (a multiple of 8 or not), returns (with recursion depth 1 and enough fuel), and whatever
it returns is the address `p = h + 16` after a header `h` whose size is exactly
`size`, with `[h, p + size)` inside one of the 4096-byte regions requested
from the page provider. -/
theorem my_malloc_block (env : Env) (henv : EnvOK env) (s : State) (live : List (Nat × Nat))
    (hr : Reachable env s live) (size : Nat) (h8 : 8 ≤ size) (h4000 : size ≤ 4000) :
    (∃ fuel p s1, my_malloc env size fuel 1 s = .ok (p, s1)) ∧
    (∀ fuel depth p s1, my_malloc env size fuel depth s = .ok (p, s1) →
      HEADER_SIZE ≤ p ∧ (s1.mem (p - HEADER_SIZE)).size = size ∧
      (∀ x, x ∈ s1.mmap_log → x = 4096) ∧
      ∃ k, k < s1.mmap_log.length ∧ env.page k ≤ p - HEADER_SIZE ∧
        p + size ≤ env.page k + 4096) := by
  have hH : HEADER_SIZE = 16 := rfl
  obtain ⟨bins, liveH, hinv, _, _, _⟩ := reachable_inv env henv s live hr
  obtain ⟨fuel, hfuel⟩ := exists_fuel bins
  refine ⟨⟨fuel, my_malloc_returns hinv henv size (by omega) (by omega) fuel hfuel⟩, ?_⟩
  intro fuel depth p s1 hrun
  obtain ⟨bins1, h, hp, hinv1, hsz1, _, _, _⟩ :=
    my_malloc_post hinv henv size (by omega) (by omega) fuel depth p s1 hrun
  obtain ⟨k, hk1, hk2, hk3⟩ := hinv1.in_page h (Or.inl (List.mem_cons_self _ _))
  subst hp
  rw [Nat.add_sub_cancel]
  exact ⟨by omega, hsz1, hinv1.log, k, hk1, hk2, by omega⟩

theorem my_malloc_block_witness :
    HEADER_SIZE ≤ 4112 ∧ (exState1.mem (4112 - HEADER_SIZE)).size = 16 ∧
      (∀ x, x ∈ exState1.mmap_log → x = 4096) ∧
      ∃ k, k < exState1.mmap_log.length ∧ exEnv.page k ≤ 4112 - HEADER_SIZE ∧
        4112 + 16 ≤ exEnv.page k + 4096 :=
  (my_malloc_block exEnv exEnv_ok exInit [] exInit_reachable 16 (by decide)
    (by decide)).2 5 1 4112 exState1 exState1_run

/-- C3: when every page starts at a multiple of 8, in every reachable state
every live pointer and every block header, live or linked in a bin, is a
multiple of 8 (the static sentinel that ends the lists too, when it is itself
at a multiple of 8), and so is every pointer that `my_malloc` returns for a
size that is a multiple of 8 in `[8, 4000]`. -/
theorem pointers_aligned (env : Env) (henv : EnvOK env) (hpg : ∀ k, env.page k % 8 = 0)
    (s : State) (live : List (Nat × Nat)) (hr : Reachable env s live) :
    (∀ e, e ∈ live → e.1 % 8 = 0) ∧
    (∀ h, IsBlock env s live h → h % 8 = 0) ∧
    (env.dummy % 8 = 0 → ∀ i h, i ≤ MAX_BIN_SCALE - MIN_BIN_SCALE →
      Linked s.mem (s.free_bins i) h → h % 8 = 0) ∧
    (∀ size fuel depth p s1, size % 8 = 0 → 8 ≤ size → size ≤ 4000 →
      my_malloc env size fuel depth s = .ok (p, s1) → p % 8 = 0) := by
  have hH : HEADER_SIZE = 16 := rfl
  have key : ∀ (s : State) (live : List (Nat × Nat)), Reachable env s live →
      (∀ e, e ∈ live → e.1 % 8 = 0) ∧ (∀ h, IsBlock env s live h → h % 8 = 0) := by
    intro s live hr
    obtain ⟨bins, liveH, hinv, hal, hmap, _⟩ := reachable_inv env henv s live hr
    have hown : ∀ b, Owned bins liveH b → b % 8 = 0 := by
      intro b hb
      obtain ⟨_, _, k, hk1, hk2⟩ := hal b hb
      have := hpg k
      omega
    refine ⟨fun e he => ?_, fun h hb => hown h (isBlock_owned hinv hmap h hb)⟩
    have : e.1 ∈ live.map Prod.fst := List.mem_map_of_mem _ he
    rw [hmap] at this
    obtain ⟨h, hh, heq⟩ := List.mem_map.1 this
    have := hown h (Or.inl hh)
    omega
  refine ⟨(key s live hr).1, (key s live hr).2, fun hd i h hi hl => ?_, ?_⟩
  · by_cases hh : h = env.dummy
    · rw [hh]; exact hd
    · exact (key s live hr).2 h (Or.inr ⟨hh, i, hi, hl⟩)
  intro size fuel depth p s1 hm8 h8 h4000 hrun
  exact (key s1 ((p, size) :: live)
    (Reachable.malloc s live size fuel depth p s1 hr hm8 h8 h4000 hrun)).1 (p, size)
    (List.mem_cons_self _ _)

theorem pointers_aligned_witness :
    (∀ e, e ∈ [((4112 : Nat), (16 : Nat))] → e.1 % 8 = 0) ∧
    (∀ h, IsBlock exEnv exState1 [(4112, 16)] h → h % 8 = 0) ∧
    (exEnv.dummy % 8 = 0 → ∀ i h, i ≤ MAX_BIN_SCALE - MIN_BIN_SCALE →
      Linked exState1.mem (exState1.free_bins i) h → h % 8 = 0) ∧
    (∀ size fuel depth p s1, size % 8 = 0 → 8 ≤ size → size ≤ 4000 →
      my_malloc exEnv size fuel depth exState1 = .ok (p, s1) → p % 8 = 0) :=
  pointers_aligned exEnv exEnv_ok exEnv_aligned exState1 [(4112, 16)] exState1_reachable

/-- C4: from a reachable state `my_malloc(size)` with `8 ≤ size ≤ 4000`
terminates: every bin is a finite chain without repetition that ends in
`NULL`, with enough fuel
for the scans the call returns with recursion depth 1, every returning run is
a run of recursion depth at most 1, and it requests no page or exactly one
page of 4096 bytes. -/
theorem my_malloc_terminates (env : Env) (henv : EnvOK env) (s : State)
    (live : List (Nat × Nat)) (hr : Reachable env s live) (size : Nat) (h8 : 8 ≤ size)
    (h4000 : size ≤ 4000) :
    (∀ i, i ≤ MAX_BIN_SCALE - MIN_BIN_SCALE →
      ∃ l, Chain s.mem (s.free_bins i) l ∧ l.Nodup) ∧
    (∃ fuel p s1, my_malloc env size fuel 1 s = .ok (p, s1)) ∧
    (∀ fuel depth p s1, my_malloc env size fuel depth s = .ok (p, s1) →
      my_malloc env size fuel 1 s = .ok (p, s1) ∧
      (s1.mmap_log = s.mmap_log ∨ s1.mmap_log = s.mmap_log ++ [4096])) := by
  obtain ⟨bins, liveH, hinv, _, _, _⟩ := reachable_inv env henv s live hr
  obtain ⟨fuel, hfuel⟩ := exists_fuel bins
  refine ⟨fun i hi => ?_,
    ⟨fuel, my_malloc_returns hinv henv size (by omega) (by omega) fuel hfuel⟩, ?_⟩
  · simp only [MAX_BIN_SCALE, MIN_BIN_SCALE] at hi
    exact ⟨nodes env bins i, hinv.chain i (by omega), hinv.nodes_nodup henv i (by omega)⟩
  intro fuel depth p s1 hrun
  obtain ⟨_, _, _, _, _, hlog, _, _⟩ :=
    my_malloc_post hinv henv size (by omega) (by omega) fuel depth p s1 hrun
  refine ⟨?_, hlog⟩
  rcases my_malloc_run hinv henv size (by omega) (by omega) fuel depth p s1 hrun with
    ⟨i, b, prev, hfb, _, htake⟩ | ⟨hfb, _, _, s0, i, b, prev, hp, hfb0, _, htake⟩
  · rw [my_malloc_hit env size fuel 1 s i b prev hfb]
    exact htake
  · rw [my_malloc_miss env size fuel 0 s s0 hfb hp,
      my_malloc_hit env size fuel 0 s0 i b prev hfb0]
    exact htake

theorem my_malloc_terminates_witness :
    my_malloc exEnv 16 5 1 exInit = .ok (4112, exState1) ∧
      (exState1.mmap_log = exInit.mmap_log ∨ exState1.mmap_log = exInit.mmap_log ++ [4096]) :=
  (my_malloc_terminates exEnv exEnv_ok exInit [] exInit_reachable 16 (by decide)
    (by decide)).2.2 5 1 4112 exState1 exState1_run

/-! ## Allocate, release, allocate -/

/-- When the head of the bin of `size` has exactly `size` bytes, the search
returns it, with no predecessor. -/
theorem find_best_head {env : Env} {s : State} {bins : Nat → List Nat} {live : List Nat}
    (hinv : Inv env s bins live) (size : Nat) (hsize : 1 ≤ size) (h : Nat) (rest : List Nat)
    (hhead : bins (find_bin_idx size) = h :: rest) (hsz : (s.mem h).size = size)
    (fuel : Nat) (r : Option (Nat × Nat × Nat)) (hfb : find_best s size fuel = .ok r) :
    r = some (find_bin_idx size, h, 0) := by
  have h9 := find_bin_idx_le_nine size
  have hspec := (find_best_spec hinv size hsize fuel).2 r hfb
  have hmem : h ∈ bins (find_bin_idx size) := by rw [hhead]; exact List.mem_cons_self _ _
  cases r with
  | none =>
    have := hspec (find_bin_idx size) le_rfl (by omega) h hmem
    omega
  | some t =>
    obtain ⟨k, b, prev⟩ := t
    obtain ⟨hk1, hk2, ⟨pre, post, hb, hprev, hle, hpre, _⟩, hno⟩ := hspec
    have hk : k = find_bin_idx size := by
      by_contra hc
      have := hno (find_bin_idx size) le_rfl (by omega) h hmem
      omega
    subst hk
    rw [hhead] at hb
    cases pre with
    | nil =>
      simp only [List.nil_append, List.cons.injEq] at hb
      rw [hprev, ← hb.1]
      rfl
    | cons a pre1 =>
      simp only [List.cons_append, List.cons.injEq] at hb
      have := hpre a (List.mem_cons_self _ _) (by rw [← hb.1, hsz])
      rw [← hb.1, hsz] at this
      omega

/-- Taking back the block `h` that `my_free` has just put at the head of its
bin restores the state before the `my_free`. -/
theorem take_block_undo_free (s : State) (size h : Nat) (hsz : (s.mem h).size = size)
    (hnext : (s.mem h).next = 0) :
    take_block size (find_bin_idx size) h 0
      { free_bins := writeBin s.free_bins (find_bin_idx size) h
        mem := writeNext s.mem h (s.free_bins (find_bin_idx size))
        mmap_log := s.mmap_log } = .ok (h + HEADER_SIZE, s) := by
  have hbins : writeBin (writeBin s.free_bins (find_bin_idx size) h) (find_bin_idx size)
      (s.free_bins (find_bin_idx size)) = s.free_bins := by
    funext j
    simp only [writeBin_apply]
    by_cases hj : j = find_bin_idx size
    · rw [if_pos hj, hj]
    · rw [if_neg hj, if_neg hj]
  have hmem : writeNext (writeSize (writeNext s.mem h (s.free_bins (find_bin_idx size))) h size)
      h 0 = s.mem := by
    funext x
    by_cases hx : x = h
    · subst hx
      cases hm : s.mem x with
      | mk sz nx =>
        rw [hm] at hsz hnext
        simp only at hsz hnext
        simp [writeNext, writeSize, hsz, hnext]
    · simp [writeNext, writeSize, hx]
  unfold take_block my_remove_from_free_list
  simp only [writeNext_size, writeSize_next, writeNext_next_same, hsz, Nat.sub_self,
    ne_eq, not_true_eq_false, if_false, gt_iff_lt, HEADER_SIZE, Nat.not_lt_zero]
  simp only [hbins, hmem]

/-- C5: if `my_malloc(size)`, `1 ≤ size ≤ 4000`, returns `p` from a reachable
state and leaves the state `s1`, then `my_free(p)` succeeds and requests no
page, and `my_malloc(size)` right after it returns (with recursion depth 0,
so without a page request), and every returning run of it returns the same
`p`, chooses the block `p - 16` whose size is exactly `size` (nothing remains
to split off), and leaves exactly the state `s1`. -/
theorem malloc_free_malloc (env : Env) (henv : EnvOK env) (s : State)
    (live : List (Nat × Nat)) (hr : Reachable env s live) (size : Nat) (h1 : 1 ≤ size)
    (h4000 : size ≤ 4000) (fuel depth p : Nat) (s1 : State)
    (hrun : my_malloc env size fuel depth s = .ok (p, s1)) :
    ∃ s2, my_free p s1 = .ok s2 ∧ s2.mmap_log = s1.mmap_log ∧
      (s2.mem (p - HEADER_SIZE)).size - size = 0 ∧
      (∃ fuel2, my_malloc env size fuel2 0 s2 = .ok (p, s1)) ∧
      (∀ fuel2 depth2 p2 s3, my_malloc env size fuel2 depth2 s2 = .ok (p2, s3) →
        p2 = p ∧ s3 = s1 ∧
        find_best s2 size fuel2 = .ok (some (find_bin_idx size, p - HEADER_SIZE, 0))) := by
  obtain ⟨bins, liveH, hinv, _, _, _⟩ := reachable_inv env henv s live hr
  obtain ⟨bins1, h, hp, hinv1, hsz1, _, _, _⟩ :=
    my_malloc_post hinv henv size h1 (by omega) fuel depth p s1 hrun
  subst hp
  obtain ⟨hfree, hinv2⟩ := my_free_spec hinv1 henv h (List.mem_cons_self _ _)
  rw [hsz1] at hfree hinv2
  have hnext : (s1.mem h).next = 0 := hinv1.live_next h (List.mem_cons_self _ _)
  have htake := take_block_undo_free s1 size h hsz1 hnext
  have hhead := fun fuel2 r => find_best_head hinv2 size h1 h (bins1 (find_bin_idx size))
    (by rw [Function.update_same]) (by simp only [writeNext_size]; exact hsz1) fuel2 r
  refine ⟨_, hfree, rfl, ?_, ?_, ?_⟩
  · simp only [Nat.add_sub_cancel, writeNext_size, hsz1, Nat.sub_self]
  · obtain ⟨fuel2, hfuel2⟩ := exists_fuel
      (Function.update bins1 (find_bin_idx size) (h :: bins1 (find_bin_idx size)))
    obtain ⟨r, hfb⟩ := (find_best_spec hinv2 size h1 fuel2).1
      (fun j hj => by have := hfuel2 j hj; omega)
    have hr2 := hhead fuel2 r hfb
    subst hr2
    exact ⟨fuel2, by rw [my_malloc_hit _ _ _ _ _ _ _ _ hfb]; exact htake⟩
  · intro fuel2 depth2 p2 s3 hrun2
    rw [Nat.add_sub_cancel]
    rcases my_malloc_run hinv2 henv size h1 (by omega) fuel2 depth2 p2 s3 hrun2 with
      ⟨i, b, prev, hfb, _, htake2⟩ | ⟨hfb, _⟩
    · have hr2 := hhead fuel2 _ hfb
      simp only [Option.some.injEq, Prod.mk.injEq] at hr2
      obtain ⟨rfl, rfl, rfl⟩ := hr2
      rw [htake] at htake2
      simp only [Except.ok.injEq, Prod.mk.injEq] at htake2
      exact ⟨htake2.1.symm, htake2.2.symm, hfb⟩
    · have hr2 := hhead fuel2 _ hfb
      simp at hr2

theorem malloc_free_malloc_witness :
    ∃ s2, my_free 4112 exState1 = .ok s2 ∧ s2.mmap_log = exState1.mmap_log ∧
      (s2.mem (4112 - HEADER_SIZE)).size - 16 = 0 ∧
      (∃ fuel2, my_malloc exEnv 16 fuel2 0 s2 = .ok (4112, exState1)) ∧
      (∀ fuel2 depth2 p2 s3, my_malloc exEnv 16 fuel2 depth2 s2 = .ok (p2, s3) →
        p2 = 4112 ∧ s3 = exState1 ∧
        find_best s2 16 fuel2 = .ok (some (find_bin_idx 16, 4112 - HEADER_SIZE, 0))) :=
  malloc_free_malloc exEnv exEnv_ok exInit [] exInit_reachable 16 (by decide) (by decide)
    5 1 4112 exState1 exState1_run

/-! ## The first two allocations after `my_initialize` -/

theorem found_mem {s : State} {bins : Nat → List Nat} {size i b prev : Nat}
    (h : FoundAt s bins size i b prev) : b ∈ bins i := by
  obtain ⟨pre, post, hb, _⟩ := h
  rw [hb]; simp

/-- The first `my_malloc(a)` in a state with empty bins and no page: one page
is requested, the result is the address after the header at the start of the
page, and the only block of the bins afterwards is the remainder of the
split, of `4064 - a` bytes. -/
theorem first_malloc {env : Env} {s : State} (henv : EnvOK env)
    (hinv : Inv env s (fun _ => []) []) (hlog : s.mmap_log = [])
    (a : Nat) (ha : 1 ≤ a) (ha1 : a ≤ 4080) (fuel depth p1 : Nat) (s1 : State)
    (hrun : my_malloc env a fuel depth s = .ok (p1, s1)) :
    p1 = env.page 0 + HEADER_SIZE ∧ s1.mmap_log = [4096] ∧ (s1.mem (env.page 0)).size = a ∧
    ∃ bins1, Inv env s1 bins1 [env.page 0] ∧
      (∀ x, Free bins1 x ↔ (x = env.page 0 + HEADER_SIZE + a ∧ a + HEADER_SIZE < 4080)) ∧
      (a + HEADER_SIZE < 4080 →
        (s1.mem (env.page 0 + HEADER_SIZE + a)).size = 4080 - a - HEADER_SIZE) := by
  have hnofree : ∀ x, ¬ Free (fun _ => ([] : List Nat)) x := by
    rintro x ⟨j, _, hx⟩
    simp at hx
  rcases my_malloc_run hinv henv a ha ha1 fuel depth p1 s1 hrun with
    ⟨i, b, prev, _, hspec, _⟩ | ⟨_, _, _, s0, i, b, prev, hp, _, hspec, htake⟩
  · exact (hnofree b ⟨i, hspec.2.1, found_mem hspec.2.2.1⟩).elim
  · obtain ⟨s0', hp', hinv0, hlog0, hsz0, _⟩ := new_page_spec hinv henv
    rw [hp] at hp'
    simp only [Except.ok.injEq] at hp'
    subst hp'
    rw [hlog] at hinv0 hlog0 hsz0 hspec
    simp only [List.length_nil, List.nil_append] at hinv0 hlog0 hsz0 hspec
    obtain ⟨_, hi, hfound, _⟩ := hspec
    have hb : b = env.page 0 := by
      have := (free_add (fun _ => ([] : List Nat)) 9 (env.page 0) b (by norm_num)).1
        ⟨i, hi, found_mem hfound⟩
      rcases this with h | h
      · exact (hnofree b h).elim
      · exact h
    subst hb
    obtain ⟨s2, bins2, htake2, hinv2, hsz, hlog2, hfree, _, hrem, _⟩ :=
      take_block_spec hinv0 henv a i (env.page 0) prev hi hfound
    rw [htake2] at htake
    simp only [Except.ok.injEq, Prod.mk.injEq] at htake
    obtain ⟨hp1, hs1⟩ := htake
    subst hs1
    rw [hsz0] at hfree hrem
    refine ⟨hp1.symm, by rw [hlog2, hlog0], hsz, bins2, hinv2, fun x => ?_, hrem⟩
    rw [hfree x, free_add _ _ _ _ (by norm_num)]
    constructor
    · rintro (⟨h1 | h1, h2⟩ | h)
      · exact (hnofree x h1).elim
      · exact absurd h1 h2
      · exact h
    · intro h
      exact Or.inr h

/-- C9: starting from `my_initialize()` on a zero-initialised heap, for sizes
`a` and `b` in `[8, 4000]` with `a + b > 4064`, `my_malloc(a)` followed by
`my_malloc(b)` returns, and every such pair of runs requests one page in each
call, returns the addresses after the headers at the start of the first and of
the second page, which are different, and the two payload ranges do not
overlap. -/
theorem two_large_allocations (env : Env) (henv : EnvOK env) (s0 : State) (hz : ZeroHeap s0)
    (a b : Nat) (ha : 8 ≤ a) (ha1 : a ≤ 4000) (hb : 8 ≤ b) (hb1 : b ≤ 4000)
    (hsum : 4064 < a + b) :
    (∃ fuel1 p1 s1 fuel2 p2 s2,
      my_malloc env a fuel1 1 ( my_initialize env s0) = .ok (p1, s1) ∧
      my_malloc env b fuel2 1 s1 = .ok (p2, s2)) ∧
    (∀ fuel1 depth1 p1 s1 fuel2 depth2 p2 s2,
      my_malloc env a fuel1 depth1 ( my_initialize env s0) = .ok (p1, s1) →
      my_malloc env b fuel2 depth2 s1 = .ok (p2, s2) →
      ( my_initialize env s0).mmap_log = [] ∧ s1.mmap_log = [4096] ∧
      s2.mmap_log = [4096, 4096] ∧
      p1 = env.page 0 + HEADER_SIZE ∧ p2 = env.page 1 + HEADER_SIZE ∧
      p1 ≠ p2 ∧ (p1 + a ≤ p2 ∨ p2 + b ≤ p1)) := by
  have hH : HEADER_SIZE = 16 := rfl
  have hinv0 := init_inv env henv s0 hz
  have hlog0 : ( my_initialize env s0).mmap_log = [] := hz.2
  have hsecond : ∀ fuel1 depth1 p1 s1 fuel2 depth2 p2 s2,
      my_malloc env a fuel1 depth1 ( my_initialize env s0) = .ok (p1, s1) →
      my_malloc env b fuel2 depth2 s1 = .ok (p2, s2) →
      s1.mmap_log = [4096] ∧ s2.mmap_log = [4096, 4096] ∧
      p1 = env.page 0 + HEADER_SIZE ∧ p2 = env.page 1 + HEADER_SIZE := by
    intro fuel1 depth1 p1 s1 fuel2 depth2 p2 s2 hrun1 hrun2
    obtain ⟨hp1, hlog1, _, bins1, hinv1, hfree1, hrem1⟩ :=
      first_malloc henv hinv0 hlog0 a (by omega) (by omega) fuel1 depth1 p1 s1 hrun1
    have hsmall : ∀ x, Free bins1 x → (s1.mem x).size < b := by
      intro x hx
      obtain ⟨hx1, hx2⟩ := (hfree1 x).1 hx
      rw [hx1, hrem1 hx2]
      omega
    rcases my_malloc_run hinv1 henv b (by omega) (by omega) fuel2 depth2 p2 s2 hrun2 with
      ⟨i, c, prev, _, hspec, _⟩ | ⟨_, _, _, s1', i, c, prev, hp, _, hspec, htake⟩
    · obtain ⟨_, hi, hfound, _⟩ := hspec
      have := hsmall c ⟨i, hi, found_mem hfound⟩
      obtain ⟨_, _, _, _, hle, _⟩ := hfound
      omega
    · obtain ⟨s1'', hp', hinv1', hlog1', hsz1', hsame1'⟩ := new_page_spec hinv1 henv
      rw [hp] at hp'
      simp only [Except.ok.injEq] at hp'
      subst hp'
      rw [hlog1] at hinv1' hlog1' hsz1' hspec
      simp only [List.length_singleton] at hinv1' hlog1' hsz1' hspec
      obtain ⟨_, hi, hfound, _⟩ := hspec
      have hc : c = env.page 1 := by
        rcases (free_add bins1 9 (env.page 1) c (by norm_num)).1
          ⟨i, hi, found_mem hfound⟩ with h | h
        · have h1 := hsmall c h
          rw [← hsame1' c (Or.inr h)] at h1
          obtain ⟨_, _, _, _, hle, _⟩ := hfound
          omega
        · exact h
      subst hc
      obtain ⟨s3, bins3, htake3, _, _, hlog3, _⟩ :=
        take_block_spec hinv1' henv b i (env.page 1) prev hi hfound
      rw [htake3] at htake
      simp only [Except.ok.injEq, Prod.mk.injEq] at htake
      obtain ⟨hp2, hs2⟩ := htake
      subst hs2
      exact ⟨hlog1, by rw [hlog3, hlog1']; rfl, hp1, hp2.symm⟩
  constructor
  · obtain ⟨fuel1, hfuel1⟩ := exists_fuel (fun _ => ([] : List Nat))
    obtain ⟨p1, s1, hrun1⟩ := my_malloc_returns hinv0 henv a (by omega) (by omega) fuel1 hfuel1
    obtain ⟨_, _, _, bins1, hinv1, _, _⟩ :=
      first_malloc henv hinv0 hlog0 a (by omega) (by omega) fuel1 1 p1 s1 hrun1
    obtain ⟨fuel2, hfuel2⟩ := exists_fuel bins1
    obtain ⟨p2, s2, hrun2⟩ := my_malloc_returns hinv1 henv b (by omega) (by omega) fuel2 hfuel2
    exact ⟨fuel1, p1, s1, fuel2, p2, s2, hrun1, hrun2⟩
  · intro fuel1 depth1 p1 s1 fuel2 depth2 p2 s2 hrun1 hrun2
    obtain ⟨h1, h2, h3, h4⟩ := hsecond fuel1 depth1 p1 s1 fuel2 depth2 p2 s2 hrun1 hrun2
    have hpages := henv.2.2.1 0 1 (by norm_num)
    refine ⟨hlog0, h1, h2, h3, h4, by omega, by omega⟩

theorem exLarge1_run : my_malloc exEnv 3000 5 1 exInit = .ok (4112, exLarge1) := by
  rfl

theorem exLarge2_run : my_malloc exEnv 3000 5 1 exLarge1 = .ok (8208, exLarge2) := by
  rfl

theorem two_large_allocations_witness :
    exInit.mmap_log = [] ∧ exLarge1.mmap_log = [4096] ∧ exLarge2.mmap_log = [4096, 4096] ∧
      4112 = exEnv.page 0 + HEADER_SIZE ∧ 8208 = exEnv.page 1 + HEADER_SIZE ∧
      (4112 : Nat) ≠ 8208 ∧ (4112 + 3000 ≤ 8208 ∨ 8208 + 3000 ≤ 4112) :=
  (two_large_allocations exEnv exEnv_ok zeroState ⟨fun _ => rfl, rfl⟩ 3000 3000 (by decide)
    (by decide) (by decide) (by decide) (by decide)).2 5 1 4112 exLarge1 5 1 8208 exLarge2
    exLarge1_run exLarge2_run

/-- C10: starting from `my_initialize()` on a zero-initialised heap, for sizes
`a, b ≥ 1` with `a + b ≤ 4064`, `my_malloc(a)` followed by `my_malloc(b)`
returns, and every such pair of runs requests exactly one page, in the first
call; the second call is a run of recursion depth 0, so it takes no miss path,
and its result is carved from the remainder of the first split:
`p2 = p1 + a + 16`. -/
theorem split_remainder_reused (env : Env) (henv : EnvOK env) (s0 : State) (hz : ZeroHeap s0)
    (a b : Nat) (ha : 1 ≤ a) (hb : 1 ≤ b) (hsum : a + b ≤ 4064) :
    (∃ fuel1 p1 s1 fuel2 p2 s2,
      my_malloc env a fuel1 1 ( my_initialize env s0) = .ok (p1, s1) ∧
      my_malloc env b fuel2 1 s1 = .ok (p2, s2)) ∧
    (∀ fuel1 depth1 p1 s1 fuel2 depth2 p2 s2,
      my_malloc env a fuel1 depth1 ( my_initialize env s0) = .ok (p1, s1) →
      my_malloc env b fuel2 depth2 s1 = .ok (p2, s2) →
      ( my_initialize env s0).mmap_log = [] ∧ s1.mmap_log = [4096] ∧ s2.mmap_log = [4096] ∧
      my_malloc env b fuel2 0 s1 = .ok (p2, s2) ∧
      p1 = env.page 0 + HEADER_SIZE ∧ p2 = p1 + a + HEADER_SIZE) := by
  have hH : HEADER_SIZE = 16 := rfl
  have hinv0 := init_inv env henv s0 hz
  have hlog0 : ( my_initialize env s0).mmap_log = [] := hz.2
  constructor
  · obtain ⟨fuel1, hfuel1⟩ := exists_fuel (fun _ => ([] : List Nat))
    obtain ⟨p1, s1, hrun1⟩ := my_malloc_returns hinv0 henv a (by omega) (by omega) fuel1 hfuel1
    obtain ⟨_, _, _, bins1, hinv1, _, _⟩ :=
      first_malloc henv hinv0 hlog0 a (by omega) (by omega) fuel1 1 p1 s1 hrun1
    obtain ⟨fuel2, hfuel2⟩ := exists_fuel bins1
    obtain ⟨p2, s2, hrun2⟩ := my_malloc_returns hinv1 henv b (by omega) (by omega) fuel2 hfuel2
    exact ⟨fuel1, p1, s1, fuel2, p2, s2, hrun1, hrun2⟩
  · intro fuel1 depth1 p1 s1 fuel2 depth2 p2 s2 hrun1 hrun2
    obtain ⟨hp1, hlog1, _, bins1, hinv1, hfree1, hrem1⟩ :=
      first_malloc henv hinv0 hlog0 a (by omega) (by omega) fuel1 depth1 p1 s1 hrun1
    have hsplit : a + HEADER_SIZE < 4080 := by omega
    have hm : Free bins1 (env.page 0 + HEADER_SIZE + a) := (hfree1 _).2 ⟨rfl, hsplit⟩
    have hmsz := hrem1 hsplit
    rcases my_malloc_run hinv1 henv b hb (by omega) fuel2 depth2 p2 s2 hrun2 with
      ⟨i, c, prev, hfb, hspec, htake⟩ | ⟨_, hnone, _⟩
    · obtain ⟨_, hi, hfound, _⟩ := hspec
      have hc : c = env.page 0 + HEADER_SIZE + a :=
        ((hfree1 c).1 ⟨i, hi, found_mem hfound⟩).1
      obtain ⟨s3, bins3, htake3, _, _, hlog3, _⟩ :=
        take_block_spec hinv1 henv b i c prev hi hfound
      have hrun0 : my_malloc env b fuel2 0 s1 = .ok (p2, s2) := by
        rw [my_malloc_hit env b fuel2 0 s1 i c prev hfb]
        exact htake
      rw [htake3] at htake
      simp only [Except.ok.injEq, Prod.mk.injEq] at htake
      obtain ⟨hp2, hs2⟩ := htake
      subst hs2
      exact ⟨hlog0, hlog1, by rw [hlog3, hlog1], hrun0, hp1, by omega⟩
    · obtain ⟨j, hj, hmj⟩ := hm
      have hbin := (hinv1.bin_of j hj _ hmj).1
      have hmono := find_bin_idx_mono_aux b (s1.mem (env.page 0 + HEADER_SIZE + a)).size
        (by rw [hmsz]; omega)
      rw [hbin] at hmono
      have := hnone j hmono hj _ hmj
      omega

theorem exSmall1_run : my_malloc exEnv 100 5 1 exInit = .ok (4112, exSmall1) := by
  rfl

theorem exSmall2_run : my_malloc exEnv 50 5 0 exSmall1 = .ok (4228, exSmall2) := by
  rfl

theorem split_remainder_reused_witness :
    exInit.mmap_log = [] ∧ exSmall1.mmap_log = [4096] ∧ exSmall2.mmap_log = [4096] ∧
      my_malloc exEnv 50 5 0 exSmall1 = .ok (4228, exSmall2) ∧
      4112 = exEnv.page 0 + HEADER_SIZE ∧ 4228 = 4112 + 100 + HEADER_SIZE :=
  (split_remainder_reused exEnv exEnv_ok zeroState ⟨fun _ => rfl, rfl⟩ 100 50 (by decide)
    (by decide) (by decide)).2 5 1 4112 exSmall1 5 0 4228 exSmall2 exSmall1_run exSmall2_run

/-! ## Release -/

/-- The list of the nodes of a chain is determined by the memory. -/
theorem Chain.unique {mem : Nat → my_metadata_t} : ∀ (l l1 : List Nat) (h : Nat),
    Chain mem h l → Chain mem h l1 → l = l1 := by
  intro l
  induction l with
  | nil =>
    intro l1 h hc hc1
    have h0 : h = 0 := hc
    cases l1 with
    | nil => rfl
    | cons a r => exact absurd (hc1.1 ▸ h0) hc1.2.1
  | cons a l ih =>
    intro l1 h hc hc1
    obtain ⟨h1, h2, h3⟩ := hc
    cases l1 with
    | nil =>
      have h0 : h = 0 := hc1
      exact absurd (h1 ▸ h0) h2
    | cons b r =>
      obtain ⟨h4, _, h6⟩ := hc1
      have hab : a = b := h1.symm.trans h4
      subst hab
      rw [ih r _ h3 h6]

/-- In a state that satisfies the invariant the nodes of bin `i` are the
ghost list of the bin. -/
theorem Inv.chain_eq {env : Env} {s : State} {bins : Nat → List Nat} {live : List Nat}
    (hinv : Inv env s bins live) (i : Nat) (hi : i < 10) (l : List Nat)
    (hc : Chain s.mem (s.free_bins i) l) : l = nodes env bins i :=
  Chain.unique _ _ _ hc (hinv.chain i hi)

theorem live_header {live : List (Nat × Nat)} {liveH : List Nat}
    (hmap : live.map Prod.fst = liveH.map (fun h => h + HEADER_SIZE)) (p : Nat)
    (hp : p ∈ live.map Prod.fst) : p - HEADER_SIZE ∈ liveH ∧ p = p - HEADER_SIZE + HEADER_SIZE := by
  rw [hmap] at hp
  obtain ⟨h, hh, he⟩ := List.mem_map.1 hp
  subst he
  rw [Nat.add_sub_cancel]
  exact ⟨hh, rfl⟩

/-- C11: in a reachable state `my_free(p)` on a live pointer `p` with header
`h = p - 16` succeeds and makes `h` the head of the bin of its size, with
`h.next` the head that the bin had; the size of `h`, the other bin heads, every
other header and the log of page requests are unchanged; nothing is merged:
the list of every other bin is the same and the list of the bin of `h` is the
old one with `h` put in front, so there is exactly one more free block. -/
theorem my_free_effect (env : Env) (henv : EnvOK env) (s : State) (live : List (Nat × Nat))
    (hr : Reachable env s live) (p : Nat) (hp : p ∈ live.map Prod.fst) :
    ∃ s1, my_free p s = .ok s1 ∧
      s1.free_bins (find_bin_idx (s.mem (p - HEADER_SIZE)).size) = p - HEADER_SIZE ∧
      (s1.mem (p - HEADER_SIZE)).next =
        s.free_bins (find_bin_idx (s.mem (p - HEADER_SIZE)).size) ∧
      (s1.mem (p - HEADER_SIZE)).size = (s.mem (p - HEADER_SIZE)).size ∧
      (∀ j, j ≠ find_bin_idx (s.mem (p - HEADER_SIZE)).size → s1.free_bins j = s.free_bins j) ∧
      (∀ x, x ≠ p - HEADER_SIZE → s1.mem x = s.mem x) ∧
      s1.mmap_log = s.mmap_log ∧
      (∀ i l, i ≤ MAX_BIN_SCALE - MIN_BIN_SCALE → Chain s.mem (s.free_bins i) l →
        Chain s1.mem (s1.free_bins i)
          (if i = find_bin_idx (s.mem (p - HEADER_SIZE)).size then (p - HEADER_SIZE) :: l
           else l)) := by
  obtain ⟨bins, liveH, hinv, _, hmap, _⟩ := reachable_inv env henv s live hr
  obtain ⟨hh, hpe⟩ := live_header hmap p hp
  generalize p - HEADER_SIZE = h at hh hpe ⊢
  subst hpe
  obtain ⟨hok, hinv1⟩ := my_free_spec hinv henv h hh
  refine ⟨_, hok, ?_, ?_, ?_, fun j hj => ?_, fun x hx => ?_, rfl, fun i l hi hc => ?_⟩
  · simp [writeBin_apply]
  · simp
  · simp
  · simp [writeBin_apply, hj]
  · simp [writeNext, hx]
  · simp only [MAX_BIN_SCALE, MIN_BIN_SCALE] at hi
    have hi10 : i < 10 := by omega
    have hl := hinv.chain_eq i hi10 l hc
    have hidx : find_bin_idx (s.mem h).size < 10 := by
      have := find_bin_idx_le_nine (s.mem h).size
      omega
    have hc1 := hinv1.chain i hi10
    by_cases hidx2 : i = find_bin_idx (s.mem h).size
    · rw [if_pos hidx2, hl]
      subst hidx2
      rw [nodes_update_same] at hc1
      exact hc1
    · rw [if_neg hidx2, hl]
      rw [nodes_update_ne _ _ _ _ _ hidx2] at hc1
      exact hc1

theorem exFreed1_run : my_free 4112 exState1 = .ok exFreed1 := by
  rfl

theorem my_free_effect_witness :
    ∃ s1, my_free 4112 exState1 = .ok s1 ∧
      s1.free_bins (find_bin_idx (exState1.mem (4112 - HEADER_SIZE)).size) =
        4112 - HEADER_SIZE ∧
      (s1.mem (4112 - HEADER_SIZE)).next =
        exState1.free_bins (find_bin_idx (exState1.mem (4112 - HEADER_SIZE)).size) ∧
      (s1.mem (4112 - HEADER_SIZE)).size = (exState1.mem (4112 - HEADER_SIZE)).size ∧
      (∀ j, j ≠ find_bin_idx (exState1.mem (4112 - HEADER_SIZE)).size →
        s1.free_bins j = exState1.free_bins j) ∧
      (∀ x, x ≠ 4112 - HEADER_SIZE → s1.mem x = exState1.mem x) ∧
      s1.mmap_log = exState1.mmap_log ∧
      (∀ i l, i ≤ MAX_BIN_SCALE - MIN_BIN_SCALE → Chain exState1.mem (exState1.free_bins i) l →
        Chain s1.mem (s1.free_bins i)
          (if i = find_bin_idx (exState1.mem (4112 - HEADER_SIZE)).size then
            (4112 - HEADER_SIZE) :: l
           else l)) :=
  my_free_effect exEnv exEnv_ok exState1 [(4112, 16)] exState1_reachable 4112 (by decide)

/-! ## Ownership -/

/-- A node linked in bin `i` of a state that satisfies the invariant is a
block of the ghost list of the bin or the sentinel. -/
theorem Inv.linked_mem {env : Env} {s : State} {bins : Nat → List Nat} {live : List Nat}
    (hinv : Inv env s bins live) (i : Nat) (hi : i < 10) (h : Nat)
    (hl : Linked s.mem (s.free_bins i) h) : h ∈ bins i ∨ h = env.dummy :=
  mem_nodes ((Chain.linked_iff _ _ (hinv.chain i hi) h).1 hl)

theorem Inv.mem_linked {env : Env} {s : State} {bins : Nat → List Nat} {live : List Nat}
    (hinv : Inv env s bins live) (i : Nat) (hi : i < 10) (h : Nat)
    (hb : h ∈ bins i) : Linked s.mem (s.free_bins i) h :=
  (Chain.linked_iff _ _ (hinv.chain i hi) h).2 (List.mem_append_left _ hb)

/-- C12: in every reachable state no node occurs twice in the list of a bin,
no block other than the sentinel is linked in two bins, and the header of a
live pointer is linked in no bin. -/
theorem exclusive_ownership (env : Env) (henv : EnvOK env) (s : State)
    (live : List (Nat × Nat)) (hr : Reachable env s live) :
    (∀ i l, i ≤ MAX_BIN_SCALE - MIN_BIN_SCALE → Chain s.mem (s.free_bins i) l → l.Nodup) ∧
    (∀ i j h, i ≤ MAX_BIN_SCALE - MIN_BIN_SCALE → j ≤ MAX_BIN_SCALE - MIN_BIN_SCALE →
      h ≠ env.dummy → Linked s.mem (s.free_bins i) h → Linked s.mem (s.free_bins j) h →
      i = j) ∧
    (∀ p i, p ∈ live.map Prod.fst → i ≤ MAX_BIN_SCALE - MIN_BIN_SCALE →
      ¬ Linked s.mem (s.free_bins i) (p - HEADER_SIZE)) := by
  obtain ⟨bins, liveH, hinv, _, hmap, _⟩ := reachable_inv env henv s live hr
  have h10 : ∀ i, i ≤ MAX_BIN_SCALE - MIN_BIN_SCALE → i < 10 := by
    intro i hi
    simp only [MAX_BIN_SCALE, MIN_BIN_SCALE] at hi
    omega
  refine ⟨fun i l hi hc => ?_, fun i j h hi hj hd hli hlj => ?_, fun p i hp hi hl => ?_⟩
  · rw [hinv.chain_eq i (h10 i hi) l hc]
    exact hinv.nodes_nodup henv i (h10 i hi)
  · rcases hinv.linked_mem i (h10 i hi) h hli with h1 | h1
    · rcases hinv.linked_mem j (h10 j hj) h hlj with h2 | h2
      · exact hinv.bin_unique i j h (h10 i hi) (h10 j hj) h1 h2
      · exact absurd h2 hd
    · exact absurd h1 hd
  · obtain ⟨hh, _⟩ := live_header hmap p hp
    rcases hinv.linked_mem i (h10 i hi) _ hl with h1 | h1
    · exact (hinv.bin_of i (h10 i hi) _ h1).2 hh
    · exact hinv.owned_ne_dummy henv _ (Or.inl hh) h1

theorem exclusive_ownership_witness :
    (∀ i l, i ≤ MAX_BIN_SCALE - MIN_BIN_SCALE → Chain exState1.mem (exState1.free_bins i) l →
      l.Nodup) ∧
    (∀ i j h, i ≤ MAX_BIN_SCALE - MIN_BIN_SCALE → j ≤ MAX_BIN_SCALE - MIN_BIN_SCALE →
      h ≠ exEnv.dummy → Linked exState1.mem (exState1.free_bins i) h →
      Linked exState1.mem (exState1.free_bins j) h → i = j) ∧
    (∀ p i, p ∈ [((4112 : Nat), (16 : Nat))].map Prod.fst → i ≤ MAX_BIN_SCALE - MIN_BIN_SCALE →
      ¬ Linked exState1.mem (exState1.free_bins i) (p - HEADER_SIZE)) :=
  exclusive_ownership exEnv exEnv_ok exState1 [(4112, 16)] exState1_reachable

/-! ## The search on chains -/

theorem Chain.suffix_of_mem {mem : Nat → my_metadata_t} (a : Nat) : ∀ (l : List Nat) (h : Nat),
    Chain mem h l → a ∈ l → ∃ l1 l2, l = l1 ++ a :: l2 ∧ Chain mem (mem a).next l2 := by
  intro l
  induction l with
  | nil => intro h _ ha; simp at ha
  | cons b l ih =>
    intro h hc ha
    obtain ⟨_, _, h3⟩ := hc
    rcases List.mem_cons.1 ha with rfl | hm
    · exact ⟨[], l, rfl, h3⟩
    · obtain ⟨l1, l2, hl, hc2⟩ := ih _ h3 hm
      exact ⟨b :: l1, l2, by rw [hl]; rfl, hc2⟩

/-- A chain that ends in `NULL` has no repetition. -/
theorem Chain.nodup {mem : Nat → my_metadata_t} : ∀ (l : List Nat) (h : Nat),
    Chain mem h l → l.Nodup := by
  intro l
  induction l with
  | nil => intro _ _; exact List.nodup_nil
  | cons a l ih =>
    intro h hc
    obtain ⟨_, _, h3⟩ := hc
    refine List.nodup_cons.2 ⟨fun ha => ?_, ih _ h3⟩
    obtain ⟨l1, l2, hl, hc2⟩ := Chain.suffix_of_mem a l _ h3 ha
    have := Chain.unique _ _ _ h3 hc2
    have hlen := congrArg List.length hl
    rw [this] at hlen
    simp at hlen
    omega

/-- In a chain the node before `b` points to `b`. -/
theorem Chain.next_of_split {mem : Nat → my_metadata_t} (p b : Nat) (post : List Nat) :
    ∀ (pre : List Nat) (h : Nat), Chain mem h (pre ++ p :: b :: post) → (mem p).next = b := by
  intro pre
  induction pre with
  | nil =>
    intro h hc
    obtain ⟨_, _, h3, _⟩ := hc
    exact h3
  | cons a r ih =>
    intro h hc
    obtain ⟨_, _, h3⟩ := hc
    exact ih _ h3

/-- The loop over the bins of `my_malloc` in a state whose bins are chains with
the node lists `L`: with enough fuel it returns, and what it returns satisfies
`SearchSpec` for the node lists. -/
theorem bin_loop_raw (s : State) (L : Nat → List Nat)
    (hchain : ∀ j, j < 10 → Chain s.mem (s.free_bins j) (L j))
    (size : Nat) (hsize : 1 ≤ size) (fuel : Nat) :
    ∀ (n i : Nat), i + n = 10 →
      ((∀ j, i ≤ j → j < 10 → (L j).length < fuel) →
        ∃ r, bin_loop s size fuel n i = .ok r) ∧
      (∀ r, bin_loop s size fuel n i = .ok r → SearchSpec s L size i r) := by
  intro n
  induction n with
  | zero =>
    intro i hi
    refine ⟨fun _ => ⟨none, rfl⟩, fun r hr => ?_⟩
    simp only [bin_loop, Except.ok.injEq] at hr
    subst hr
    intro j h1 h2
    omega
  | succ n ih =>
    intro i hin
    have hi : i < 10 := by omega
    obtain ⟨ih1, ih2⟩ := ih (i + 1) (by omega)
    have hscan := scan_loop_chain s.mem size (L i) fuel (s.free_bins i) 0 (s.free_bins i) 0 0
      (hchain i hi)
    constructor
    · intro hfuel
      rw [if_pos (hfuel i le_rfl hi)] at hscan
      rw [bin_loop, hscan]
      rcases hres : scanAbs s.mem size (L i) 0 (s.free_bins i) 0 0 with ⟨mb, pb, sb⟩
      simp only
      by_cases hsb : sb > 0
      · rw [if_pos hsb]; exact ⟨_, rfl⟩
      · rw [if_neg hsb]
        exact ih1 (fun j h1 h2 => hfuel j (by omega) h2)
    · intro r hr
      rw [bin_loop, hscan] at hr
      by_cases hlen : (L i).length < fuel
      · rw [if_pos hlen] at hr
        rcases scanAbs_bin s L size hsize i (s.free_bins i) with
          ⟨heq, hno⟩ | ⟨b, prev, heq, hpos, hfound⟩
        · rw [heq] at hr
          simp only [gt_iff_lt, lt_self_iff_false, if_false] at hr
          have hspec := ih2 r hr
          cases r with
          | none =>
            intro j h1 h2
            rcases Nat.eq_or_lt_of_le h1 with rfl | hlt
            · exact hno
            · exact hspec j hlt h2
          | some t =>
            obtain ⟨k, b, prev⟩ := t
            obtain ⟨h1, h2, h3, h4⟩ := hspec
            refine ⟨by omega, h2, h3, fun j hj1 hj2 => ?_⟩
            rcases Nat.eq_or_lt_of_le hj1 with rfl | hlt
            · exact hno
            · exact h4 j hlt hj2
        · rw [heq] at hr
          simp only [gt_iff_lt, hpos, if_true, Except.ok.injEq] at hr
          subst hr
          exact ⟨le_rfl, hi, hfound, fun j h1 h2 => by omega⟩
      · rw [if_neg hlen] at hr
        simp at hr

theorem find_best_raw (s : State) (L : Nat → List Nat)
    (hchain : ∀ j, j < 10 → Chain s.mem (s.free_bins j) (L j))
    (size : Nat) (hsize : 1 ≤ size) (fuel : Nat) :
    ((∀ j, j < 10 → (L j).length < fuel) → ∃ r, find_best s size fuel = .ok r) ∧
    (∀ r, find_best s size fuel = .ok r → SearchSpec s L size (find_bin_idx size) r) := by
  have h9 := find_bin_idx_le_nine size
  have := bin_loop_raw s L hchain size hsize fuel
    (MAX_BIN_SCALE - MIN_BIN_SCALE + 1 - find_bin_idx size) (find_bin_idx size)
    (by simp only [MAX_BIN_SCALE, MIN_BIN_SCALE]; omega)
  exact ⟨fun hf => this.1 (fun j _ hj => hf j hj), this.2⟩

/-- The loop over the bins from bin `i` on reads no bin head below `i`. -/
theorem bin_loop_frame (s s1 : State) (size fuel : Nat) (hmem : s1.mem = s.mem) :
    ∀ (n i : Nat), (∀ j, i ≤ j → s1.free_bins j = s.free_bins j) →
      bin_loop s1 size fuel n i = bin_loop s size fuel n i := by
  intro n
  induction n with
  | zero => intro i _; rfl
  | succ n ih =>
    intro i hb
    rw [bin_loop, bin_loop, hmem, hb i le_rfl, ih (i + 1) (fun j hj => hb j (by omega))]

/-- The hit path returns the address after the header of the chosen block. -/
theorem take_block_ptr (size i b prev : Nat) (s : State) (p : Nat) (s1 : State)
    (h : take_block size i b prev s = .ok (p, s1)) : p = b + HEADER_SIZE := by
  unfold take_block at h
  simp only [] at h
  split at h
  · split at h
    · simp at h
    · simp only [Except.ok.injEq, Prod.mk.injEq] at h
      exact h.1.symm
  · simp only [Except.ok.injEq, Prod.mk.injEq] at h
    exact h.1.symm

/-- C13: in a state whose ten bins are chains with the node lists `L`, for
`size ≥ 1` such that some bin from `find_bin_idx size` on holds a node of at
least `size` bytes: the search finds a block (with enough fuel), and every
returning `my_malloc(size)` took the hit path with a block `b` that lies in the
lowest such bin `i`, has the least size among the nodes of bin `i` that fit and
is the first of that size in the list; the `prev` passed to
`my_remove_from_free_list` is the node before `b` in the list, `NULL` exactly
when `b` is the head; and the search reads no bin head below
`find_bin_idx size`. -/
theorem two_level_best_fit (env : Env) (s : State) (L : Nat → List Nat)
    (hwf : ∀ j, j ≤ MAX_BIN_SCALE - MIN_BIN_SCALE → Chain s.mem (s.free_bins j) (L j))
    (size : Nat) (hsize : 1 ≤ size)
    (hfit : ∃ j x, find_bin_idx size ≤ j ∧ j ≤ MAX_BIN_SCALE - MIN_BIN_SCALE ∧ x ∈ L j ∧
      size ≤ (s.mem x).size) :
    (∃ fuel i b prev, find_best s size fuel = .ok (some (i, b, prev))) ∧
    (∀ fuel depth p s1, my_malloc env size fuel depth s = .ok (p, s1) →
      ∃ i b prev pre post, p = b + HEADER_SIZE ∧
        find_best s size fuel = .ok (some (i, b, prev)) ∧
        take_block size i b prev s = .ok (p, s1) ∧
        find_bin_idx size ≤ i ∧ i ≤ MAX_BIN_SCALE - MIN_BIN_SCALE ∧
        L i = pre ++ b :: post ∧ size ≤ (s.mem b).size ∧
        (∀ j x, find_bin_idx size ≤ j → j < i → x ∈ L j → (s.mem x).size < size) ∧
        (∀ x, x ∈ L i → size ≤ (s.mem x).size → (s.mem b).size ≤ (s.mem x).size) ∧
        (∀ x, x ∈ pre → size ≤ (s.mem x).size → (s.mem b).size < (s.mem x).size) ∧
        prev = pre.getLastD 0 ∧ (prev = 0 ↔ s.free_bins i = b) ∧
        (prev ≠ 0 → prev ∈ L i ∧ (s.mem prev).next = b)) ∧
    (∀ s1 fuel, s1.mem = s.mem →
      (∀ j, find_bin_idx size ≤ j → s1.free_bins j = s.free_bins j) →
      find_best s1 size fuel = find_best s size fuel) := by
  have hchain : ∀ j, j < 10 → Chain s.mem (s.free_bins j) (L j) := fun j hj =>
    hwf j (by simp only [MAX_BIN_SCALE, MIN_BIN_SCALE]; omega)
  obtain ⟨j0, x0, hj1, hj2, hx1, hx2⟩ := hfit
  simp only [MAX_BIN_SCALE, MIN_BIN_SCALE] at hj2
  have hsome : ∀ fuel r, find_best s size fuel = .ok r →
      ∃ i b prev, r = some (i, b, prev) := by
    intro fuel r hr
    have hspec := (find_best_raw s L hchain size hsize fuel).2 r hr
    cases r with
    | none =>
      have := hspec j0 hj1 (by omega) x0 hx1
      omega
    | some t => exact ⟨t.1, t.2.1, t.2.2, rfl⟩
  refine ⟨?_, ?_, ?_⟩
  · obtain ⟨fuel, hfuel⟩ := exists_fuel L
    obtain ⟨r, hr⟩ := (find_best_raw s L hchain size hsize fuel).1
      (fun j hj => by have := hfuel j hj; omega)
    obtain ⟨i, b, prev, rfl⟩ := hsome fuel r hr
    exact ⟨fuel, i, b, prev, hr⟩
  · intro fuel depth p s1 hrun
    rcases hfb : find_best s size fuel with e | r
    · rw [my_malloc_error env size fuel depth s e hfb] at hrun
      simp at hrun
    · obtain ⟨i, b, prev, rfl⟩ := hsome fuel r hfb
      rw [my_malloc_hit env size fuel depth s i b prev hfb] at hrun
      obtain ⟨hi1, hi2, ⟨pre, post, hb, hprev, hle, hpre, hpost⟩, hno⟩ :=
        (find_best_raw s L hchain size hsize fuel).2 _ hfb
      have hc := hchain i hi2
      rw [hb] at hc
      have hnd := Chain.nodup _ _ hc
      refine ⟨i, b, prev, pre, post, take_block_ptr size i b prev s p s1 hrun, rfl, hrun,
        hi1, by simp only [MAX_BIN_SCALE, MIN_BIN_SCALE]; omega, hb, hle,
        fun j x h1 h2 hx => hno j h1 h2 x hx, fun x hx hfx => ?_, hpre, hprev, ?_, ?_⟩
      · rw [hb] at hx
        rcases List.mem_append.1 hx with h | h
        · exact Nat.le_of_lt (hpre x h hfx)
        · rcases List.mem_cons.1 h with rfl | h1
          · exact le_rfl
          · exact hpost x h1 hfx
      · rcases List.eq_nil_or_concat pre with hnil | ⟨pre1, q, hcat⟩
        · subst hnil
          rw [hprev]
          simp only [List.getLastD_nil, List.nil_append, true_iff] at hc ⊢
          exact hc.1
        · rw [List.concat_eq_append] at hcat
          subst hcat
          rw [hprev, List.getLastD_concat]
          have hq : q ≠ 0 := Chain.ne_zero _ _ hc q (by simp)
          constructor
          · intro h; exact absurd h hq
          · intro h
            exfalso
            have hbpre : b ∈ pre1 ++ [q] := by
              cases pre1 with
              | nil =>
                simp only [List.nil_append, List.singleton_append] at hc ⊢
                rw [← h, hc.1]; simp
              | cons a r =>
                simp only [List.cons_append] at hc ⊢
                rw [← h, hc.1]; simp
            have := List.nodup_middle.1 hnd
            rw [List.nodup_cons] at this
            exact this.1 (List.mem_append_left _ hbpre)
      · intro hp0
        rcases List.eq_nil_or_concat pre with hnil | ⟨pre1, q, hcat⟩
        · subst hnil
          rw [hprev] at hp0
          simp at hp0
        · rw [List.concat_eq_append] at hcat
          subst hcat
          rw [hprev, List.getLastD_concat]
          refine ⟨by rw [hb]; simp, ?_⟩
          rw [List.append_assoc, List.singleton_append] at hc
          exact Chain.next_of_split q b post pre1 _ hc
  · intro s1 fuel hmem hbins
    unfold find_best
    exact bin_loop_frame s s1 size fuel hmem _ _ hbins

theorem exLists1_chain : ∀ j, j ≤ MAX_BIN_SCALE - MIN_BIN_SCALE →
    Chain exState1.mem (exState1.free_bins j) (exLists1 j) := by
  intro j hj
  simp only [MAX_BIN_SCALE, MIN_BIN_SCALE] at hj
  interval_cases j <;> exact ⟨rfl, by decide, rfl⟩

theorem exState2_run : my_malloc exEnv 16 5 0 exState1 = .ok (4144, exState2) := by
  rfl

theorem two_level_best_fit_witness :
    ∃ i b prev pre post, 4144 = b + HEADER_SIZE ∧
      find_best exState1 16 5 = .ok (some (i, b, prev)) ∧
      take_block 16 i b prev exState1 = .ok (4144, exState2) ∧
      find_bin_idx 16 ≤ i ∧ i ≤ MAX_BIN_SCALE - MIN_BIN_SCALE ∧
      exLists1 i = pre ++ b :: post ∧ 16 ≤ (exState1.mem b).size ∧
      (∀ j x, find_bin_idx 16 ≤ j → j < i → x ∈ exLists1 j → (exState1.mem x).size < 16) ∧
      (∀ x, x ∈ exLists1 i → 16 ≤ (exState1.mem x).size →
        (exState1.mem b).size ≤ (exState1.mem x).size) ∧
      (∀ x, x ∈ pre → 16 ≤ (exState1.mem x).size →
        (exState1.mem b).size < (exState1.mem x).size) ∧
      prev = pre.getLastD 0 ∧ (prev = 0 ↔ exState1.free_bins i = b) ∧
      (prev ≠ 0 → prev ∈ exLists1 i ∧ (exState1.mem prev).next = b) :=
  (two_level_best_fit exEnv exState1 exLists1 exLists1_chain 16 (by decide)
    ⟨9, 4128, by decide, by decide, by decide, by decide⟩).2.1 5 0 4144 exState2 exState2_run

/-! ## The chosen block, the split and the waste -/

/-- The block that a returning `my_malloc` takes: it is found by the search in
the state `s0`, which is the state of the call when the search hits at once,
and the state after the miss path when the first search misses. -/
theorem my_malloc_choice {env : Env} {s : State} {bins : Nat → List Nat} {live : List Nat}
    (hinv : Inv env s bins live) (henv : EnvOK env) (size : Nat) (hsize : 1 ≤ size)
    (hmax : size ≤ 4080) (fuel depth p : Nat) (s1 : State)
    (h : my_malloc env size fuel depth s = .ok (p, s1)) :
    ∃ s0 bins0 i b prev,
      ((s0 = s ∧ bins0 = bins) ∨
        (new_page env s = .ok s0 ∧ find_best s size fuel = .ok none ∧
          bins0 = Function.update bins 9 (env.page s.mmap_log.length :: bins 9))) ∧
      Inv env s0 bins0 live ∧
      find_best s0 size fuel = .ok (some (i, b, prev)) ∧
      SearchSpec s0 bins0 size (find_bin_idx size) (some (i, b, prev)) ∧
      take_block size i b prev s0 = .ok (p, s1) ∧ p = b + HEADER_SIZE := by
  rcases my_malloc_run hinv henv size hsize hmax fuel depth p s1 h with
    ⟨i, b, prev, hfb, hspec, htake⟩ | ⟨hfb, _, _, s0, i, b, prev, hp, hfb0, hspec, htake⟩
  · exact ⟨s, bins, i, b, prev, Or.inl ⟨rfl, rfl⟩, hinv, hfb, hspec, htake,
      take_block_ptr size i b prev s p s1 htake⟩
  · obtain ⟨s0', hp', hinv0, _⟩ := new_page_spec hinv henv
    rw [hp] at hp'
    simp only [Except.ok.injEq] at hp'
    subst hp'
    exact ⟨s0, _, i, b, prev, Or.inr ⟨hp, hfb, rfl⟩, hinv0, hfb0, hspec, htake,
      take_block_ptr size i b prev s0 p s1 htake⟩

/-- The hit path when the rest is larger than a header: the chosen block keeps
`size` bytes, and the rest is a new block right after them, the head of the
bin of its size. -/
theorem take_block_split (size i b prev : Nat) (s : State)
    (hsplit : (s.mem b).size - size > HEADER_SIZE) :
    ∃ s1, take_block size i b prev s = .ok (b + HEADER_SIZE, s1) ∧
      (s1.mem b).size = size ∧
      (s1.mem (b + HEADER_SIZE + size)).size = (s.mem b).size - size - HEADER_SIZE ∧
      s1.free_bins (find_bin_idx ((s.mem b).size - size - HEADER_SIZE)) =
        b + HEADER_SIZE + size ∧
      s1.mmap_log = s.mmap_log := by
  have hH : HEADER_SIZE = 16 := rfl
  have hne : b ≠ b + HEADER_SIZE + size := by omega
  unfold take_block
  simp only []
  rw [if_pos hsplit, my_add_to_free_list_ok _ _ (by simp)]
  simp only [writeNext_size, writeSize_size_same]
  refine ⟨_, rfl, ?_, ?_, ?_, ?_⟩
  · simp only [writeNext_size]
    rw [writeSize_size_ne _ _ _ _ hne, my_remove_from_free_list_size]
    simp
  · simp
  · simp [writeBin_apply]
  · simp only []
    rw [my_remove_from_free_list_log]

/-- The hit path when the rest is not larger than a header: the chosen block
is unlinked with its size set to `size` and nothing else is done. -/
theorem take_block_nosplit (size i b prev : Nat) (s : State)
    (hno : ¬ (s.mem b).size - size > HEADER_SIZE) :
    take_block size i b prev s =
      .ok (b + HEADER_SIZE, my_remove_from_free_list b prev i
        { free_bins := s.free_bins, mem := writeSize s.mem b size, mmap_log := s.mmap_log }) := by
  unfold take_block
  simp only []
  rw [if_neg hno]

/-- C14: when a returning `my_malloc(size)` from a reachable state chooses a
block `h` (in the state `s0` in which the search hits) whose size `c` has
`c - size > 16`, then on return `h.size = size`, the header at `p + size`
(`p = h + 16`) has size `c - size - 16` and is the head of the bin of that
size, and the two blocks tile the old block: `h + 16 + size = p + size` and
`(p + size) + 16 + (c - size - 16) = h + 16 + c`. -/
theorem split_effect (env : Env) (henv : EnvOK env) (s : State) (live : List (Nat × Nat))
    (hr : Reachable env s live) (size : Nat) (h1 : 1 ≤ size) (hmax : size ≤ 4080)
    (fuel depth p : Nat) (s1 : State)
    (hrun : my_malloc env size fuel depth s = .ok (p, s1)) :
    ∃ s0 i h prev, (s0 = s ∨ new_page env s = .ok s0) ∧
      find_best s0 size fuel = .ok (some (i, h, prev)) ∧
      take_block size i h prev s0 = .ok (p, s1) ∧ p = h + HEADER_SIZE ∧
      size ≤ (s0.mem h).size ∧
      ((s0.mem h).size - size > HEADER_SIZE →
        (s1.mem h).size = size ∧
        (s1.mem (p + size)).size = (s0.mem h).size - size - HEADER_SIZE ∧
        s1.free_bins (find_bin_idx ((s0.mem h).size - size - HEADER_SIZE)) = p + size ∧
        Linked s1.mem (s1.free_bins (find_bin_idx ((s0.mem h).size - size - HEADER_SIZE)))
          (p + size) ∧
        size + HEADER_SIZE + ((s0.mem h).size - size - HEADER_SIZE) = (s0.mem h).size ∧
        h + HEADER_SIZE + size = p + size ∧
        (p + size) + HEADER_SIZE + ((s0.mem h).size - size - HEADER_SIZE) =
          h + HEADER_SIZE + (s0.mem h).size) := by
  have hH : HEADER_SIZE = 16 := rfl
  obtain ⟨bins, liveH, hinv, _, _, _⟩ := reachable_inv env henv s live hr
  obtain ⟨s0, bins0, i, b, prev, hs0, hinv0, hfb, hspec, htake, hp⟩ :=
    my_malloc_choice hinv henv size h1 hmax fuel depth p s1 hrun
  obtain ⟨_, hi, hfound, _⟩ := hspec
  have hle : size ≤ (s0.mem b).size := by
    obtain ⟨_, _, _, _, hle, _⟩ := hfound
    exact hle
  refine ⟨s0, i, b, prev, ?_, hfb, htake, hp, hle, fun hsplit => ?_⟩
  · rcases hs0 with h | h
    · exact Or.inl h.1
    · exact Or.inr h.1
  · obtain ⟨s2, htake2, hsz, hrem, hhead, _⟩ := take_block_split size i b prev s0 hsplit
    rw [htake2] at htake
    simp only [Except.ok.injEq, Prod.mk.injEq] at htake
    obtain ⟨_, hs2⟩ := htake
    subst hs2
    subst hp
    refine ⟨hsz, hrem, hhead, ?_, by omega, rfl, by omega⟩
    rw [hhead]
    exact Linked.here _ (by omega)

theorem split_effect_witness :
    ∃ s0 i h prev, (s0 = exInit ∨ new_page exEnv exInit = .ok s0) ∧
      find_best s0 16 5 = .ok (some (i, h, prev)) ∧
      take_block 16 i h prev s0 = .ok (4112, exState1) ∧ 4112 = h + HEADER_SIZE ∧
      16 ≤ (s0.mem h).size ∧
      ((s0.mem h).size - 16 > HEADER_SIZE →
        (exState1.mem h).size = 16 ∧
        (exState1.mem (4112 + 16)).size = (s0.mem h).size - 16 - HEADER_SIZE ∧
        exState1.free_bins (find_bin_idx ((s0.mem h).size - 16 - HEADER_SIZE)) = 4112 + 16 ∧
        Linked exState1.mem
          (exState1.free_bins (find_bin_idx ((s0.mem h).size - 16 - HEADER_SIZE))) (4112 + 16) ∧
        16 + HEADER_SIZE + ((s0.mem h).size - 16 - HEADER_SIZE) = (s0.mem h).size ∧
        h + HEADER_SIZE + 16 = 4112 + 16 ∧
        (4112 + 16) + HEADER_SIZE + ((s0.mem h).size - 16 - HEADER_SIZE) =
          h + HEADER_SIZE + (s0.mem h).size) :=
  split_effect exEnv exEnv_ok exInit [] exInit_reachable 16 (by decide) (by decide) 5 1 4112
    exState1 exState1_run

/-! ## The assertion of `my_add_to_free_list` -/

theorem scan_loop_error (mem : Nat → my_metadata_t) (size : Nat) :
    ∀ (fuel m prev mb pb sb : Nat) (e : Err),
      scan_loop mem size fuel m prev mb pb sb = .error e → e = .out_of_fuel := by
  intro fuel
  induction fuel with
  | zero =>
    intro m prev mb pb sb e h
    simp only [scan_loop, Except.error.injEq] at h
    exact h.symm
  | succ f ih =>
    intro m prev mb pb sb e h
    rw [scan_loop] at h
    split at h
    · simp at h
    · split at h
      · exact ih _ _ _ _ _ e h
      · exact ih _ _ _ _ _ e h

theorem bin_loop_error (s : State) (size fuel : Nat) :
    ∀ (n i : Nat) (e : Err), bin_loop s size fuel n i = .error e → e = .out_of_fuel := by
  intro n
  induction n with
  | zero =>
    intro i e h
    simp [bin_loop] at h
  | succ n ih =>
    intro i e h
    rw [bin_loop] at h
    split at h
    · rename_i e1 hscan
      simp only [Except.error.injEq] at h
      rw [← h]
      exact scan_loop_error _ _ _ _ _ _ _ _ _ hscan
    · split at h
      · simp at h
      · exact ih _ e h

/-- From a state that satisfies the invariant `my_malloc` never fails by the
assertion of `my_add_to_free_list`: a failing run ran out of fuel. -/
theorem my_malloc_no_assert {env : Env} (henv : EnvOK env) (size : Nat) (hsize : 1 ≤ size)
    (fuel : Nat) :
    ∀ (depth : Nat) (s : State) (bins : Nat → List Nat) (live : List Nat),
      Inv env s bins live → ∀ e, my_malloc env size fuel depth s = .error e →
        e = .out_of_fuel := by
  intro depth
  induction depth with
  | zero =>
    intro s bins live hinv e h
    rcases hfb : find_best s size fuel with e1 | r
    · rw [my_malloc_error env size fuel 0 s e1 hfb] at h
      simp only [Except.error.injEq] at h
      rw [← h]
      exact bin_loop_error _ _ _ _ _ _ hfb
    · cases r with
      | none =>
        rw [my_malloc_miss_zero env size fuel s hfb] at h
        simp only [Except.error.injEq] at h
        exact h.symm
      | some t =>
        obtain ⟨i, b, prev⟩ := t
        have hspec := (find_best_spec hinv size hsize fuel).2 _ hfb
        obtain ⟨s1, _, htake, _⟩ := take_block_spec hinv henv size i b prev hspec.2.1 hspec.2.2.1
        rw [my_malloc_hit env size fuel 0 s i b prev hfb, htake] at h
        simp at h
  | succ d ih =>
    intro s bins live hinv e h
    rcases hfb : find_best s size fuel with e1 | r
    · rw [my_malloc_error env size fuel (d + 1) s e1 hfb] at h
      simp only [Except.error.injEq] at h
      rw [← h]
      exact bin_loop_error _ _ _ _ _ _ hfb
    · cases r with
      | none =>
        obtain ⟨s0, hp, hinv0, _⟩ := new_page_spec hinv henv
        rw [my_malloc_miss env size fuel d s s0 hfb hp] at h
        exact ih s0 _ live hinv0 e h
      | some t =>
        obtain ⟨i, b, prev⟩ := t
        have hspec := (find_best_spec hinv size hsize fuel).2 _ hfb
        obtain ⟨s1, _, htake, _⟩ := take_block_spec hinv henv size i b prev hspec.2.1 hspec.2.2.1
        rw [my_malloc_hit env size fuel (d + 1) s i b prev hfb, htake] at h
        simp at h

/-- C16: in every reachable state the header of every live pointer and the
sentinel have `next = NULL`; so the assertion of `my_add_to_free_list` holds
in `my_free` on a live pointer (the call succeeds), on the miss path (the call
of `new_page` succeeds) and on the split path (the hit path succeeds for every
block the search can return); no run of `my_malloc` fails by the assertion. -/
theorem null_links (env : Env) (henv : EnvOK env) (s : State) (live : List (Nat × Nat))
    (hr : Reachable env s live) :
    (∀ p, p ∈ live.map Prod.fst → (s.mem (p - HEADER_SIZE)).next = 0) ∧
    (s.mem env.dummy).next = 0 ∧
    (∀ p, p ∈ live.map Prod.fst → ∃ s1, my_free p s = .ok s1) ∧
    (∃ s0, new_page env s = .ok s0) ∧
    (∀ size fuel i b prev, 1 ≤ size → find_best s size fuel = .ok (some (i, b, prev)) →
      ∃ s1, take_block size i b prev s = .ok (b + HEADER_SIZE, s1)) ∧
    (∀ size fuel depth e, 1 ≤ size → my_malloc env size fuel depth s = .error e →
      e = .out_of_fuel) := by
  obtain ⟨bins, liveH, hinv, _, hmap, _⟩ := reachable_inv env henv s live hr
  refine ⟨fun p hp => ?_, hinv.dummy_next, fun p hp => ?_, ?_, ?_, ?_⟩
  · exact hinv.live_next _ (live_header hmap p hp).1
  · obtain ⟨hh, hpe⟩ := live_header hmap p hp
    rw [hpe]
    exact ⟨_, (my_free_spec hinv henv _ hh).1⟩
  · obtain ⟨s0, hp, _⟩ := new_page_spec hinv henv
    exact ⟨s0, hp⟩
  · intro size fuel i b prev hsize hfb
    have hspec := (find_best_spec hinv size hsize fuel).2 _ hfb
    obtain ⟨s1, _, htake, _⟩ := take_block_spec hinv henv size i b prev hspec.2.1 hspec.2.2.1
    exact ⟨s1, htake⟩
  · intro size fuel depth e hsize h
    exact my_malloc_no_assert henv size hsize fuel depth s bins liveH hinv e h

theorem null_links_witness :
    (∀ p, p ∈ [((4112 : Nat), (16 : Nat))].map Prod.fst →
      (exState1.mem (p - HEADER_SIZE)).next = 0) ∧
    (exState1.mem exEnv.dummy).next = 0 ∧
    (∀ p, p ∈ [((4112 : Nat), (16 : Nat))].map Prod.fst → ∃ s1, my_free p exState1 = .ok s1) ∧
    (∃ s0, new_page exEnv exState1 = .ok s0) ∧
    (∀ size fuel i b prev, 1 ≤ size → find_best exState1 size fuel = .ok (some (i, b, prev)) →
      ∃ s1, take_block size i b prev exState1 = .ok (b + HEADER_SIZE, s1)) ∧
    (∀ size fuel depth e, 1 ≤ size → my_malloc exEnv size fuel depth exState1 = .error e →
      e = .out_of_fuel) :=
  null_links exEnv exEnv_ok exState1 [(4112, 16)] exState1_reachable

/-! ## The size classes -/

/-- C17: in every reachable state every node linked in bin `i`, `0 ≤ i ≤ 9`,
has size at most `2 ^ (i + MIN_BIN_SCALE)`, which is 4096 for the last bin. -/
theorem bin_size_bound (env : Env) (henv : EnvOK env) (s : State) (live : List (Nat × Nat))
    (hr : Reachable env s live) (i h : Nat) (hi : i ≤ MAX_BIN_SCALE - MIN_BIN_SCALE)
    (hl : Linked s.mem (s.free_bins i) h) :
    (s.mem h).size ≤ 2 ^ (i + MIN_BIN_SCALE) ∧
      2 ^ (MAX_BIN_SCALE - MIN_BIN_SCALE + MIN_BIN_SCALE) = 4096 := by
  have hH : HEADER_SIZE = 16 := rfl
  obtain ⟨bins, liveH, hinv, _, _, _⟩ := reachable_inv env henv s live hr
  simp only [MAX_BIN_SCALE, MIN_BIN_SCALE] at hi ⊢
  refine ⟨?_, by norm_num⟩
  rcases hinv.linked_mem i (by omega) h hl with h1 | h1
  · have hbin := (hinv.bin_of i (by omega) h h1).1
    by_cases h8 : i ≤ 8
    · exact (find_bin_idx_le_iff _ i h8).1 (le_of_eq hbin)
    · have hi9 : i = 9 := by omega
      subst hi9
      obtain ⟨k, _, hk1, hk2⟩ := hinv.in_page h (Or.inr ⟨9, by norm_num, h1⟩)
      norm_num
      omega
  · rw [h1, hinv.dummy_size]
    exact Nat.zero_le _

theorem bin_size_bound_witness :
    (exState1.mem 4128).size ≤ 2 ^ (9 + MIN_BIN_SCALE) ∧
      2 ^ (MAX_BIN_SCALE - MIN_BIN_SCALE + MIN_BIN_SCALE) = 4096 :=
  bin_size_bound exEnv exEnv_ok exState1 [(4112, 16)] exState1_reachable 9 4128 (by decide)
    (Linked.here 4128 (by decide))

/-! ## Global best fit -/

theorem bin_list_chain (mem : Nat → my_metadata_t) : ∀ (l : List Nat) (fuel h : Nat),
    Chain mem h l → l.length < fuel → bin_list mem fuel h = l := by
  intro l
  induction l with
  | nil =>
    intro fuel h hc hlen
    have h0 : h = 0 := hc
    cases fuel with
    | zero => rfl
    | succ f => simp [bin_list, h0]
  | cons a l ih =>
    intro fuel h hc hlen
    obtain ⟨h1, h2, h3⟩ := hc
    subst h1
    cases fuel with
    | zero => simp at hlen
    | succ f =>
      rw [bin_list, if_neg h2, ih f _ h3 (by simpa using hlen)]

/-- What the naive scan returns: nothing when no node fits, and otherwise a
node that fits, with strictly larger fitting nodes before it and no smaller
fitting node after it. -/
theorem naive_best_fit_spec (mem : Nat → my_metadata_t) (size : Nat) : ∀ (l : List Nat),
    (naive_best_fit mem size l = none ∧ ∀ x, x ∈ l → (mem x).size < size) ∨
    (∃ b pre post, naive_best_fit mem size l = some b ∧ l = pre ++ b :: post ∧
      size ≤ (mem b).size ∧
      (∀ x, x ∈ pre → size ≤ (mem x).size → (mem b).size < (mem x).size) ∧
      (∀ x, x ∈ post → size ≤ (mem x).size → (mem b).size ≤ (mem x).size)) := by
  intro l
  induction l with
  | nil => left; exact ⟨rfl, fun x hx => by simp at hx⟩
  | cons a l ih =>
    rcases ih with ⟨hn, hno⟩ | ⟨b, pre, post, hn, hl, hb, hpre, hpost⟩
    · by_cases ha : size ≤ (mem a).size
      · right
        refine ⟨a, [], l, by simp [naive_best_fit, hn, ha], rfl, ha,
          fun x hx => by simp at hx, fun x hx hfx => ?_⟩
        have := hno x hx
        omega
      · left
        refine ⟨by simp [naive_best_fit, hn, ha], fun x hx => ?_⟩
        rcases List.mem_cons.1 hx with rfl | hm
        · omega
        · exact hno x hm
    · right
      have hall : ∀ x, x ∈ l → size ≤ (mem x).size → (mem b).size ≤ (mem x).size := by
        intro x hx hfx
        rw [hl] at hx
        rcases List.mem_append.1 hx with h | h
        · exact Nat.le_of_lt (hpre x h hfx)
        · rcases List.mem_cons.1 h with rfl | h1
          · exact le_rfl
          · exact hpost x h1 hfx
      by_cases ha : size ≤ (mem a).size ∧ (mem a).size ≤ (mem b).size
      · refine ⟨a, [], l, by simp [naive_best_fit, hn, ha], rfl, ha.1,
          fun x hx => by simp at hx, fun x hx hfx => ?_⟩
        exact le_trans ha.2 (hall x hx hfx)
      · refine ⟨b, a :: pre, post, by simp [naive_best_fit, hn, ha], by rw [hl]; rfl, hb,
          fun x hx hfx => ?_, hpost⟩
        rcases List.mem_cons.1 hx with rfl | hm
        · by_contra hc
          exact ha ⟨hfx, by omega⟩
        · exact hpre x hm hfx

/-- The block that the two-level search returns is a smallest fitting block of
all bins, because every block lies in the bin of its size. -/
theorem global_min {env : Env} {s : State} {bins : Nat → List Nat} {live : List Nat}
    (hinv : Inv env s bins live) (size i b prev : Nat)
    (hspec : SearchSpec s bins size (find_bin_idx size) (some (i, b, prev))) :
    ∀ j x, j < 10 → x ∈ bins j → size ≤ (s.mem x).size → (s.mem b).size ≤ (s.mem x).size := by
  obtain ⟨hi1, hi2, hfound, hno⟩ := hspec
  have hbi := (hinv.bin_of i hi2 b (found_mem hfound)).1
  obtain ⟨pre, post, hb, _, hle, hpre, hpost⟩ := hfound
  intro j x hj hx hfx
  have hbx := (hinv.bin_of j hj x hx).1
  have hidx : find_bin_idx size ≤ j := by
    rw [← hbx]
    exact find_bin_idx_mono_aux _ _ hfx
  rcases Nat.lt_trichotomy j i with hlt | heq | hgt
  · have := hno j hidx hlt x hx
    omega
  · subst heq
    rw [hb] at hx
    rcases List.mem_append.1 hx with h | h
    · exact Nat.le_of_lt (hpre x h hfx)
    · rcases List.mem_cons.1 h with rfl | h1
      · exact le_rfl
      · exact hpost x h1 hfx
  · by_contra hc
    have := find_bin_idx_mono_aux (s.mem x).size (s.mem b).size (by omega)
    omega

theorem mem_all_bins {env : Env} {s : State} {bins : Nat → List Nat} {live : List Nat}
    (hinv : Inv env s bins live) (fuel : Nat)
    (hfuel : ∀ j, j < 10 → (bins j).length + 2 < fuel) (x : Nat) :
    x ∈ all_bins s fuel ↔ ∃ j, j < 10 ∧ x ∈ nodes env bins j := by
  have hlist : ∀ j, j < 10 → bin_list s.mem fuel (s.free_bins j) = nodes env bins j := by
    intro j hj
    refine bin_list_chain _ _ _ _ (hinv.chain j hj) ?_
    have := nodes_length_le env bins j
    have := hfuel j hj
    omega
  unfold all_bins
  simp only [MAX_BIN_SCALE, MIN_BIN_SCALE, List.mem_flatMap, List.mem_range]
  constructor
  · rintro ⟨j, hj, hx⟩
    exact ⟨j, hj, by rw [← hlist j hj]; exact hx⟩
  · rintro ⟨j, hj, hx⟩
    exact ⟨j, hj, by rw [hlist j hj]; exact hx⟩

/-- The naive scan over all bins finds a block of the size of the block that
the two-level search returns. -/
theorem naive_same_size {env : Env} {s : State} {bins : Nat → List Nat} {live : List Nat}
    (hinv : Inv env s bins live) (size : Nat) (hsize : 1 ≤ size) (i b prev : Nat)
    (hspec : SearchSpec s bins size (find_bin_idx size) (some (i, b, prev)))
    (fuel : Nat) (hfuel : ∀ j, j < 10 → (bins j).length + 2 < fuel) :
    ∃ n, naive_best_fit s.mem size (all_bins s fuel) = some n ∧
      (s.mem n).size = (s.mem b).size := by
  have hmin := global_min hinv size i b prev hspec
  obtain ⟨_, hi2, hfound, _⟩ := hspec
  have hbmem : b ∈ all_bins s fuel :=
    (mem_all_bins hinv fuel hfuel b).2 ⟨i, hi2, List.mem_append_left _ (found_mem hfound)⟩
  have hble : size ≤ (s.mem b).size := by
    obtain ⟨_, _, _, _, hle, _⟩ := hfound
    exact hle
  rcases naive_best_fit_spec s.mem size (all_bins s fuel) with
    ⟨_, hno⟩ | ⟨n, pre, post, hn, hl, hfn, hpre, hpost⟩
  · have := hno b hbmem
    omega
  · refine ⟨n, hn, le_antisymm ?_ ?_⟩
    · rw [hl] at hbmem
      rcases List.mem_append.1 hbmem with h | h
      · exact Nat.le_of_lt (hpre b h hble)
      · rcases List.mem_cons.1 h with h1 | h1
        · rw [h1]
        · exact hpost b h1 hble
    · have hnmem : n ∈ all_bins s fuel := by rw [hl]; simp
      obtain ⟨j, hj, hnj⟩ := (mem_all_bins hinv fuel hfuel n).1 hnmem
      rcases mem_nodes hnj with h1 | h1
      · exact hmin j n hj h1 hfn
      · rw [h1, hinv.dummy_size] at hfn
        omega

/-- When the two-level search finds nothing, no node of any bin fits: a block
that fits would lie in the bin of its size, which is not below the bin of the
request. -/
theorem global_none {env : Env} {s : State} {bins : Nat → List Nat} {live : List Nat}
    (hinv : Inv env s bins live) (size : Nat) (hsize : 1 ≤ size)
    (hspec : SearchSpec s bins size (find_bin_idx size) none) :
    ∀ j x, j < 10 → x ∈ nodes env bins j → (s.mem x).size < size := by
  intro j x hj hx
  rcases mem_nodes hx with h | h
  · by_contra hc
    have hfx : size ≤ (s.mem x).size := by omega
    have hbx := (hinv.bin_of j hj x h).1
    have hidx : find_bin_idx size ≤ j := by
      rw [← hbx]
      exact find_bin_idx_mono_aux _ _ hfx
    have := hspec j hidx hj x h
    omega
  · rw [h, hinv.dummy_size]
    omega

/-- When the two-level search finds nothing, the naive scan over all bins
finds nothing. -/
theorem naive_none {env : Env} {s : State} {bins : Nat → List Nat} {live : List Nat}
    (hinv : Inv env s bins live) (size : Nat) (hsize : 1 ≤ size)
    (hspec : SearchSpec s bins size (find_bin_idx size) none)
    (fuel : Nat) (hfuel : ∀ j, j < 10 → (bins j).length + 2 < fuel) :
    naive_best_fit s.mem size (all_bins s fuel) = none := by
  rcases naive_best_fit_spec s.mem size (all_bins s fuel) with
    ⟨hn, _⟩ | ⟨n, pre, post, hn, hl, hfn, _, _⟩
  · exact hn
  · have hnmem : n ∈ all_bins s fuel := by rw [hl]; simp
    obtain ⟨j, hj, hnj⟩ := (mem_all_bins hinv fuel hfuel n).1 hnmem
    have := global_none hinv size hsize hspec j n hj hnj
    omega

/-- C18: in every reachable state every block other than the sentinel linked
in bin `i` has `find_bin_idx` of its size equal to `i`. Therefore, for every
`size` in `[1, 4080]`: (a) with enough fuel the two-level search of the state
returns, it returns no block exactly when the naive best-fit scan over the
concatenation of all ten bin lists returns none, which is exactly when no node
of any bin has at least `size` bytes, and a block it returns has the size of
the node that the naive scan returns; (b) with enough fuel `my_malloc(size)`
returns; (c) the block `b` that a returning `my_malloc(size)` takes (found in
the state `s0` in which the search hits) has the least size among all nodes of
all bins of at least `size` bytes, the size of the node that the naive scan
over `s0` returns. -/
theorem global_best_fit (env : Env) (henv : EnvOK env) (s : State) (live : List (Nat × Nat))
    (hr : Reachable env s live) (size : Nat) (h1 : 1 ≤ size) (hmax : size ≤ 4080) :
    (∀ i h, i ≤ MAX_BIN_SCALE - MIN_BIN_SCALE → h ≠ env.dummy →
      Linked s.mem (s.free_bins i) h → find_bin_idx (s.mem h).size = i) ∧
    (∃ fuel0, ∀ fuel, fuel0 ≤ fuel → ∃ r, find_best s size fuel = .ok r ∧
      (r = none ↔ naive_best_fit s.mem size (all_bins s fuel) = none) ∧
      (r = none ↔ ∀ j x, j ≤ MAX_BIN_SCALE - MIN_BIN_SCALE →
        Linked s.mem (s.free_bins j) x → (s.mem x).size < size) ∧
      (∀ i b prev, r = some (i, b, prev) →
        size ≤ (s.mem b).size ∧ Linked s.mem (s.free_bins i) b ∧
        ∃ n, naive_best_fit s.mem size (all_bins s fuel) = some n ∧
          (s.mem n).size = (s.mem b).size)) ∧
    (∃ fuel0, ∀ fuel, fuel0 ≤ fuel → ∃ p s1, my_malloc env size fuel 1 s = .ok (p, s1)) ∧
    (∀ fuel depth p s1, my_malloc env size fuel depth s = .ok (p, s1) →
      ∃ s0 i b prev, (s0 = s ∨ new_page env s = .ok s0) ∧
        find_best s0 size fuel = .ok (some (i, b, prev)) ∧
        take_block size i b prev s0 = .ok (p, s1) ∧ p = b + HEADER_SIZE ∧
        size ≤ (s0.mem b).size ∧ Linked s0.mem (s0.free_bins i) b ∧
        (∀ j x, j ≤ MAX_BIN_SCALE - MIN_BIN_SCALE → Linked s0.mem (s0.free_bins j) x →
          size ≤ (s0.mem x).size → (s0.mem b).size ≤ (s0.mem x).size) ∧
        ∃ fuel0, ∀ fuel2, fuel0 ≤ fuel2 →
          ∃ n, naive_best_fit s0.mem size (all_bins s0 fuel2) = some n ∧
            (s0.mem n).size = (s0.mem b).size) := by
  obtain ⟨bins, liveH, hinv, _, _, _⟩ := reachable_inv env henv s live hr
  have h10 : ∀ i, i ≤ MAX_BIN_SCALE - MIN_BIN_SCALE → i < 10 := by
    intro i hi
    simp only [MAX_BIN_SCALE, MIN_BIN_SCALE] at hi
    omega
  obtain ⟨fuelB, hfuelB⟩ := exists_fuel bins
  have hfuelM : ∀ fuel, fuelB ≤ fuel → ∀ j, j < 10 → (bins j).length + 2 < fuel :=
    fun fuel hf j hj => lt_of_lt_of_le (hfuelB j hj) hf
  refine ⟨fun i h hi hd hl => ?_, ⟨fuelB, fun fuel hf => ?_⟩,
    ⟨fuelB, fun fuel hf => my_malloc_returns hinv henv size h1 hmax fuel (hfuelM fuel hf)⟩,
    fun fuel depth p s1 hrun => ?_⟩
  · rcases hinv.linked_mem i (h10 i hi) h hl with h2 | h2
    · exact (hinv.bin_of i (h10 i hi) h h2).1
    · exact absurd h2 hd
  · have hfuel := hfuelM fuel hf
    obtain ⟨r, hfb⟩ := (find_best_spec hinv size h1 fuel).1
      (fun j hj => by have := hfuel j hj; omega)
    have hspec := (find_best_spec hinv size h1 fuel).2 r hfb
    refine ⟨r, hfb, ?_⟩
    cases r with
    | none =>
      refine ⟨⟨fun _ => naive_none hinv size h1 hspec fuel hfuel, fun _ => rfl⟩,
        ⟨fun _ j x hj hl => ?_, fun _ => rfl⟩, fun i b prev hc => by simp at hc⟩
      exact global_none hinv size h1 hspec j x (h10 j hj)
        ((Chain.linked_iff _ _ (hinv.chain j (h10 j hj)) x).1 hl)
    | some t =>
      obtain ⟨i, b, prev⟩ := t
      have hfound := hspec.2.2.1
      have hi := hspec.2.1
      have hble : size ≤ (s.mem b).size := by
        obtain ⟨_, _, _, _, hle, _⟩ := hfound
        exact hle
      have hlb := hinv.mem_linked i hi b (found_mem hfound)
      obtain ⟨n, hn, hnsz⟩ := naive_same_size hinv size h1 i b prev hspec fuel hfuel
      refine ⟨⟨fun hc => by simp at hc, fun hc => by rw [hn] at hc; simp at hc⟩,
        ⟨fun hc => by simp at hc, fun hc => ?_⟩, fun i2 b2 prev2 he => ?_⟩
      · have := hc i b (by simp only [MAX_BIN_SCALE, MIN_BIN_SCALE]; omega) hlb
        omega
      · simp only [Option.some.injEq, Prod.mk.injEq] at he
        obtain ⟨rfl, rfl, rfl⟩ := he
        exact ⟨hble, hlb, n, hn, hnsz⟩
  · obtain ⟨s0, bins0, i, b, prev, hs0, hinv0, hfb, hspec, htake, hp⟩ :=
      my_malloc_choice hinv henv size h1 hmax fuel depth p s1 hrun
    have hmin := global_min hinv0 size i b prev hspec
    have hfound := hspec.2.2.1
    have hi := hspec.2.1
    have hble : size ≤ (s0.mem b).size := by
      obtain ⟨_, _, _, _, hle, _⟩ := hfound
      exact hle
    obtain ⟨fuel0, hfuel0⟩ := exists_fuel bins0
    refine ⟨s0, i, b, prev, ?_, hfb, htake, hp, hble,
      hinv0.mem_linked i hi b (found_mem hfound), fun j x hj hl hfx => ?_,
      fuel0, fun fuel2 hf2 => naive_same_size hinv0 size h1 i b prev hspec fuel2
        (fun j hj => lt_of_lt_of_le (hfuel0 j hj) hf2)⟩
    · rcases hs0 with h | h
      · exact Or.inl h.1
      · exact Or.inr h.1
    · rcases hinv0.linked_mem j (h10 j hj) x hl with h2 | h2
      · exact hmin j x (h10 j hj) h2 hfx
      · rw [h2, hinv0.dummy_size] at hfx
        omega

/-! ## Well-formed free lists -/

/-- The flag `size_best` after the scan of bin `i`: it is 0 exactly when no
node of the bin fits. -/
theorem scan_flag {env : Env} {s : State} {bins : Nat → List Nat} {live : List Nat}
    (hinv : Inv env s bins live) (size : Nat) (hsize : 1 ≤ size) (i : Nat) (hi : i < 10)
    (fuel mb pb sb : Nat)
    (hscan : scan_loop s.mem size fuel (s.free_bins i) 0 (s.free_bins i) 0 0 =
      .ok (mb, pb, sb)) :
    sb = 0 ↔ ∀ x, Linked s.mem (s.free_bins i) x → (s.mem x).size < size := by
  rw [scan_bin hinv size hsize i hi fuel] at hscan
  split at hscan
  · simp only [Except.ok.injEq] at hscan
    rcases scanAbs_bin s bins size hsize i (s.free_bins i) with
      ⟨heq, hno⟩ | ⟨b, prev, heq, hpos, hfound⟩
    · rw [heq] at hscan
      simp only [Prod.mk.injEq] at hscan
      refine ⟨fun _ x hx => ?_, fun _ => hscan.2.2.symm⟩
      rcases hinv.linked_mem i hi x hx with h | h
      · exact hno x h
      · rw [h, hinv.dummy_size]; omega
    · rw [heq] at hscan
      simp only [Prod.mk.injEq] at hscan
      constructor
      · intro h0
        omega
      · intro hall
        have := hall b (hinv.mem_linked i hi b (found_mem hfound))
        obtain ⟨_, _, _, _, hle, _⟩ := hfound
        omega
  · simp at hscan

/-- C19: in every reachable state each of the ten bins is a finite chain
without repetition that ends in `NULL`; every block other than the sentinel
linked in a bin has at least 8 bytes; the flag `size_best` of a bin scan is 0
exactly when no node of the bin fits; the sentinel has size 0 and next
`NULL`; and the sentinel is not what `my_free` files, not the page that the
miss path files, not the block or the predecessor that `my_malloc` passes to
`my_remove_from_free_list`, not the remainder of a split, and the address 16
after it is not returned by `my_malloc`. -/
theorem free_list_wellformed (env : Env) (henv : EnvOK env) (s : State)
    (live : List (Nat × Nat)) (hr : Reachable env s live) :
    (∀ i, i ≤ MAX_BIN_SCALE - MIN_BIN_SCALE →
      ∃ l, Chain s.mem (s.free_bins i) l ∧ l.Nodup) ∧
    (∀ i h, i ≤ MAX_BIN_SCALE - MIN_BIN_SCALE → h ≠ env.dummy →
      Linked s.mem (s.free_bins i) h → 8 ≤ (s.mem h).size) ∧
    (∀ size i fuel mb pb sb, 1 ≤ size → i ≤ MAX_BIN_SCALE - MIN_BIN_SCALE →
      scan_loop s.mem size fuel (s.free_bins i) 0 (s.free_bins i) 0 0 = .ok (mb, pb, sb) →
      (sb = 0 ↔ ∀ x, Linked s.mem (s.free_bins i) x → (s.mem x).size < size)) ∧
    (s.mem env.dummy).size = 0 ∧ (s.mem env.dummy).next = 0 ∧
    (∀ p, p ∈ live.map Prod.fst → p - HEADER_SIZE ≠ env.dummy) ∧
    env.page s.mmap_log.length ≠ env.dummy ∧
    (∀ size fuel depth p s1, 1 ≤ size → size ≤ 4080 →
      my_malloc env size fuel depth s = .ok (p, s1) →
      p ≠ env.dummy + HEADER_SIZE ∧
      ∃ s0 i b prev, (s0 = s ∨ new_page env s = .ok s0) ∧
        find_best s0 size fuel = .ok (some (i, b, prev)) ∧
        take_block size i b prev s0 = .ok (p, s1) ∧
        b ≠ env.dummy ∧ prev ≠ env.dummy ∧
        ((s0.mem b).size - size > HEADER_SIZE → b + HEADER_SIZE + size ≠ env.dummy)) := by
  have hH : HEADER_SIZE = 16 := rfl
  obtain ⟨bins, liveH, hinv, hal, hmap, _⟩ := reachable_inv env henv s live hr
  have h10 : ∀ i, i ≤ MAX_BIN_SCALE - MIN_BIN_SCALE → i < 10 := by
    intro i hi
    simp only [MAX_BIN_SCALE, MIN_BIN_SCALE] at hi
    omega
  refine ⟨fun i hi => ⟨nodes env bins i, hinv.chain i (h10 i hi),
      hinv.nodes_nodup henv i (h10 i hi)⟩, fun i h hi hd hl => ?_,
    fun size i fuel mb pb sb hsize hi hscan =>
      scan_flag hinv size hsize i (h10 i hi) fuel mb pb sb hscan,
    hinv.dummy_size, hinv.dummy_next, fun p hp => ?_, ?_, ?_⟩
  · rcases hinv.linked_mem i (h10 i hi) h hl with h2 | h2
    · exact (hal h (Or.inr ⟨i, h10 i hi, h2⟩)).1
    · exact absurd h2 hd
  · exact hinv.owned_ne_dummy henv _ (Or.inl (live_header hmap p hp).1)
  · have := henv.2.2.2 s.mmap_log.length
    omega
  · intro size fuel depth p s1 hsize hmax hrun
    obtain ⟨s0, bins0, i, b, prev, hs0, hinv0, hfb, hspec, htake, hp⟩ :=
      my_malloc_choice hinv henv size hsize hmax fuel depth p s1 hrun
    obtain ⟨_, hi, hfound, _⟩ := hspec
    have hbo : Owned bins0 liveH b := Or.inr ⟨i, hi, found_mem hfound⟩
    have hbd := hinv0.owned_ne_dummy henv b hbo
    refine ⟨by omega, s0, i, b, prev, ?_, hfb, htake, hbd, ?_, fun hsplit => ?_⟩
    · rcases hs0 with h | h
      · exact Or.inl h.1
      · exact Or.inr h.1
    · obtain ⟨pre, post, hb, hprev, _⟩ := hfound
      rcases List.eq_nil_or_concat pre with hnil | ⟨pre1, q, hcat⟩
      · rw [hprev, hnil]
        exact Ne.symm henv.1
      · rw [List.concat_eq_append] at hcat
        rw [hprev, hcat, List.getLastD_concat]
        refine hinv0.owned_ne_dummy henv q (Or.inr ⟨i, hi, ?_⟩)
        rw [hb, hcat]
        simp
    · obtain ⟨k, _, hk1, hk2⟩ := hinv0.in_page b hbo
      have := henv.2.2.2 k
      omega

theorem free_list_wellformed_witness :
    (∀ i, i ≤ MAX_BIN_SCALE - MIN_BIN_SCALE →
      ∃ l, Chain exState1.mem (exState1.free_bins i) l ∧ l.Nodup) ∧
    (∀ i h, i ≤ MAX_BIN_SCALE - MIN_BIN_SCALE → h ≠ exEnv.dummy →
      Linked exState1.mem (exState1.free_bins i) h → 8 ≤ (exState1.mem h).size) ∧
    (∀ size i fuel mb pb sb, 1 ≤ size → i ≤ MAX_BIN_SCALE - MIN_BIN_SCALE →
      scan_loop exState1.mem size fuel (exState1.free_bins i) 0 (exState1.free_bins i) 0 0 =
        .ok (mb, pb, sb) →
      (sb = 0 ↔ ∀ x, Linked exState1.mem (exState1.free_bins i) x →
        (exState1.mem x).size < size)) ∧
    (exState1.mem exEnv.dummy).size = 0 ∧ (exState1.mem exEnv.dummy).next = 0 ∧
    (∀ p, p ∈ [((4112 : Nat), (16 : Nat))].map Prod.fst → p - HEADER_SIZE ≠ exEnv.dummy) ∧
    exEnv.page exState1.mmap_log.length ≠ exEnv.dummy ∧
    (∀ size fuel depth p s1, 1 ≤ size → size ≤ 4080 →
      my_malloc exEnv size fuel depth exState1 = .ok (p, s1) →
      p ≠ exEnv.dummy + HEADER_SIZE ∧
      ∃ s0 i b prev, (s0 = exState1 ∨ new_page exEnv exState1 = .ok s0) ∧
        find_best s0 size fuel = .ok (some (i, b, prev)) ∧
        take_block size i b prev s0 = .ok (p, s1) ∧
        b ≠ exEnv.dummy ∧ prev ≠ exEnv.dummy ∧
        ((s0.mem b).size - size > HEADER_SIZE → b + HEADER_SIZE + size ≠ exEnv.dummy)) :=
  free_list_wellformed exEnv exEnv_ok exState1 [(4112, 16)] exState1_reachable

/-! ## The bytes that the blocks cover -/

theorem reachable_later (env : Env) (s : State) (live : List (Nat × Nat))
    (hr : Reachable env s live) (s1 : State) (live1 : List (Nat × Nat))
    (hl : Later env s live s1 live1) : Reachable env s1 live1 := by
  induction hl with
  | refl => exact hr
  | malloc s1 live1 size fuel depth p s2 _ hm8 h8 h4000 hrun ih =>
    exact Reachable.malloc s1 live1 size fuel depth p s2 ih hm8 h8 h4000 hrun
  | free s1 live1 p s2 _ hp hfree ih =>
    exact Reachable.free s1 live1 p s2 ih hp hfree

/-- A block of the ghost lists is a block in the sense of `IsBlock`. -/
theorem owned_isBlock {env : Env} {s : State} {live : List (Nat × Nat)}
    {bins : Nat → List Nat} {liveH : List Nat} (hinv : Inv env s bins liveH) (henv : EnvOK env)
    (hmap : live.map Prod.fst = liveH.map (fun h => h + HEADER_SIZE))
    (h : Nat) (hb : Owned bins liveH h) : IsBlock env s live h := by
  rcases hb with hb | ⟨i, hi, hb⟩
  · left
    rw [hmap]
    exact List.mem_map.2 ⟨h, hb, rfl⟩
  · right
    refine ⟨hinv.owned_ne_dummy henv h (Or.inr ⟨i, hi, hb⟩), i, ?_, hinv.mem_linked i hi h hb⟩
    simp only [MAX_BIN_SCALE, MIN_BIN_SCALE]
    omega

/-- The blocks after the hit path: the chosen block with the requested size,
the blocks of before with their sizes, and the remainder of the split. -/
theorem take_block_owned {env : Env} {s : State} {bins : Nat → List Nat} {live : List Nat}
    (hinv : Inv env s bins live) (henv : EnvOK env) (size i b prev : Nat)
    (hi : i < 10) (hfound : FoundAt s bins size i b prev) :
    ∃ s1 bins1, take_block size i b prev s = .ok (b + HEADER_SIZE, s1) ∧
      Inv env s1 bins1 (b :: live) ∧ s1.mmap_log = s.mmap_log ∧
      (s1.mem b).size = size ∧ size ≤ (s.mem b).size ∧ Owned bins live b ∧
      (∀ x, Owned bins1 (b :: live) x →
        x = b ∨ (x ≠ b ∧ Owned bins live x ∧ (s1.mem x).size = (s.mem x).size) ∨
        (x = b + HEADER_SIZE + size ∧ size + HEADER_SIZE < (s.mem b).size ∧
          (s1.mem x).size = (s.mem b).size - size - HEADER_SIZE)) ∧
      (∀ j x, j < 10 → x ∈ bins1 j →
        (x ∈ bins j ∧ x ≠ b) ∨
        (x = b + HEADER_SIZE + size ∧ size + HEADER_SIZE < (s.mem b).size)) := by
  obtain ⟨s1, bins1, htake, hinv1, hsz, hlog, hfree, hsame, hrem, hfresh⟩ :=
    take_block_spec hinv henv size i b prev hi hfound
  have hbi := found_mem hfound
  have hble : size ≤ (s.mem b).size := by
    obtain ⟨_, _, _, _, hle, _⟩ := hfound
    exact hle
  have hold : ∀ x, Owned bins live x → x ≠ b → (s1.mem x).size = (s.mem x).size :=
    fun x hx hxb => hsame x hxb (fun hc => hfresh hc.2 (hc.1 ▸ hx))
  refine ⟨s1, bins1, htake, hinv1, hlog, hsz, hble, Or.inr ⟨i, hi, hbi⟩, fun x hx => ?_,
    fun j x hj hx => ?_⟩
  · rcases hx with hx | hx
    · rcases List.mem_cons.1 hx with h | h
      · exact Or.inl h
      · have hxb : x ≠ b := fun e => (hinv.bin_of i hi b hbi).2 (e ▸ h)
        exact Or.inr (Or.inl ⟨hxb, Or.inl h, hold x (Or.inl h) hxb⟩)
    · rcases (hfree x).1 hx with ⟨h2, h3⟩ | ⟨h2, h3⟩
      · exact Or.inr (Or.inl ⟨h3, Or.inr h2, hold x (Or.inr h2) h3⟩)
      · exact Or.inr (Or.inr ⟨h2, h3, h2 ▸ hrem h3⟩)
  · rcases (hfree x).1 ⟨j, hj, hx⟩ with ⟨⟨j0, hj0, hx0⟩, h3⟩ | h2
    · left
      refine ⟨?_, h3⟩
      have e1 := (hinv1.bin_of j hj x hx).1
      have e0 := (hinv.bin_of j0 hj0 x hx0).1
      rw [hold x (Or.inr ⟨j0, hj0, hx0⟩) h3, e0] at e1
      rw [← e1]
      exact hx0
    · exact Or.inr h2

/-- What the blocks cover after a returning `my_malloc`: every block lies
inside a block of before, or inside the page that the call requested. -/
theorem my_malloc_cover {env : Env} {s : State} {bins : Nat → List Nat} {live : List Nat}
    (hinv : Inv env s bins live) (henv : EnvOK env) (size : Nat) (hsize : 1 ≤ size)
    (hmax : size ≤ 4080) (fuel depth p : Nat) (s1 : State)
    (hrun : my_malloc env size fuel depth s = .ok (p, s1)) :
    ∃ bins1 h, p = h + HEADER_SIZE ∧ Inv env s1 bins1 (h :: live) ∧
      s.mmap_log.length ≤ s1.mmap_log.length ∧
      ∀ x, Owned bins1 (h :: live) x →
        (∃ c, Owned bins live c ∧ c ≤ x ∧
          x + HEADER_SIZE + (s1.mem x).size ≤ c + HEADER_SIZE + (s.mem c).size) ∨
        (env.page s.mmap_log.length ≤ x ∧
          x + HEADER_SIZE + (s1.mem x).size ≤ env.page s.mmap_log.length + 4096) := by
  have hH : HEADER_SIZE = 16 := rfl
  obtain ⟨s0, bins0, i, b, prev, hs0, hinv0, _, hspec, htake, hp⟩ :=
    my_malloc_choice hinv henv size hsize hmax fuel depth p s1 hrun
  obtain ⟨_, hi, hfound, _⟩ := hspec
  obtain ⟨s2, bins2, htake2, hinv2, hlog2, hsz, hble, hbo, hown, _⟩ :=
    take_block_owned hinv0 henv size i b prev hi hfound
  rw [htake2] at htake
  simp only [Except.ok.injEq, Prod.mk.injEq] at htake
  obtain ⟨_, hs2⟩ := htake
  subst hs2
  have hin0 : ∀ x, Owned bins2 (b :: live) x →
      ∃ c, Owned bins0 live c ∧ c ≤ x ∧
        x + HEADER_SIZE + (s2.mem x).size ≤ c + HEADER_SIZE + (s0.mem c).size := by
    intro x hx
    rcases hown x hx with h | ⟨_, h2, h3⟩ | ⟨h1, h2, h3⟩
    · subst h
      exact ⟨x, hbo, le_rfl, by omega⟩
    · exact ⟨x, h2, le_rfl, by omega⟩
    · exact ⟨b, hbo, by omega, by omega⟩
  rcases hs0 with ⟨rfl, rfl⟩ | ⟨hnp, _, hb0⟩
  · exact ⟨bins2, b, hp, hinv2, by rw [hlog2], fun x hx => Or.inl (hin0 x hx)⟩
  · obtain ⟨s0', hnp', _, hlog0, hsz0, hsame0⟩ := new_page_spec hinv henv
    rw [hnp] at hnp'
    simp only [Except.ok.injEq] at hnp'
    subst hnp'
    subst hb0
    refine ⟨bins2, b, hp, hinv2, by rw [hlog2, hlog0]; simp, fun x hx => ?_⟩
    obtain ⟨c, hc, hcx, hle⟩ := hin0 x hx
    rcases (owned_add bins live 9 _ c (by norm_num)).1 hc with h | h
    · left
      refine ⟨c, h, hcx, ?_⟩
      rw [← hsame0 c h]
      exact hle
    · right
      rw [h, hsz0] at hle
      rw [h] at hcx
      exact ⟨hcx, by omega⟩

/-- After a returning `my_malloc` from a reachable state every covered byte
was covered before or lies in the page that the call requested. -/
theorem cover_malloc (env : Env) (henv : EnvOK env) (s : State) (live : List (Nat × Nat))
    (hr : Reachable env s live) (size : Nat) (hsize : 1 ≤ size) (hmax : size ≤ 4080)
    (fuel depth p : Nat) (s1 : State)
    (hrun : my_malloc env size fuel depth s = .ok (p, s1)) :
    s.mmap_log.length ≤ s1.mmap_log.length ∧
    ∀ x, Covered env s1 ((p, size) :: live) x →
      Covered env s live x ∨
      (env.page s.mmap_log.length ≤ x ∧ x < env.page s.mmap_log.length + 4096) := by
  obtain ⟨bins, liveH, hinv, _, hmap, _⟩ := reachable_inv env henv s live hr
  obtain ⟨bins1, h, hp, hinv1, hlen, hcov⟩ :=
    my_malloc_cover hinv henv size hsize hmax fuel depth p s1 hrun
  have hmap1 : ((p, size) :: live).map Prod.fst =
      (h :: liveH).map (fun h => h + HEADER_SIZE) := by
    simp only [List.map_cons, hmap, hp]
  refine ⟨hlen, fun x hx => ?_⟩
  obtain ⟨b, hb, hbx, hxb⟩ := hx
  rcases hcov b (isBlock_owned hinv1 hmap1 b hb) with ⟨c, hc, hcb, hle⟩ | ⟨h1, h2⟩
  · exact Or.inl ⟨c, owned_isBlock hinv henv hmap c hc, by omega, by omega⟩
  · exact Or.inr ⟨by omega, by omega⟩

/-- After `my_free` on a live pointer of a reachable state every covered byte
was covered before. -/
theorem cover_free (env : Env) (henv : EnvOK env) (s : State) (live : List (Nat × Nat))
    (hr : Reachable env s live) (p : Nat) (hp : p ∈ live.map Prod.fst) (s1 : State)
    (hfree : my_free p s = .ok s1) :
    s1.mmap_log = s.mmap_log ∧
    ∀ x, Covered env s1 (live.filter (fun e => e.1 ≠ p)) x → Covered env s live x := by
  obtain ⟨bins, liveH, hinv, _, hmap, _⟩ := reachable_inv env henv s live hr
  obtain ⟨hh, hpe⟩ := live_header hmap p hp
  generalize p - HEADER_SIZE = h at hh hpe
  subst hpe
  obtain ⟨hok, hinv1⟩ := my_free_spec hinv henv h hh
  rw [hok] at hfree
  simp only [Except.ok.injEq] at hfree
  subst hfree
  refine ⟨rfl, fun x hx => ?_⟩
  obtain ⟨b, hb, hbx, hxb⟩ := hx
  have hidx : find_bin_idx (s.mem h).size < 10 := by
    have := find_bin_idx_le_nine (s.mem h).size
    omega
  have hbo := isBlock_owned hinv1 (live_filter_map live liveH h hmap) b hb
  simp only [writeNext_size] at hxb
  have hbo1 : Owned bins liveH b := by
    rcases (owned_add _ _ _ _ b hidx).1 hbo with h1 | h1
    · rcases h1 with h2 | h2
      · exact Or.inl (List.mem_filter.1 h2).1
      · exact Or.inr h2
    · exact h1 ▸ Or.inl hh
  exact ⟨b, owned_isBlock hinv henv hmap b hbo1, hbx, hxb⟩

/-- In every later state every covered byte was covered before or lies in a
page requested since. -/
theorem cover_later (env : Env) (henv : EnvOK env) (s : State) (live : List (Nat × Nat))
    (hr : Reachable env s live) (s1 : State) (live1 : List (Nat × Nat))
    (hl : Later env s live s1 live1) :
    s.mmap_log.length ≤ s1.mmap_log.length ∧
    ∀ x, Covered env s1 live1 x →
      Covered env s live x ∨
      ∃ k, s.mmap_log.length ≤ k ∧ env.page k ≤ x ∧ x < env.page k + 4096 := by
  induction hl with
  | refl => exact ⟨le_rfl, fun x hx => Or.inl hx⟩
  | malloc s1 live1 size fuel depth p s2 hl1 hm8 h8 h4000 hrun ih =>
    have hr1 := reachable_later env s live hr s1 live1 hl1
    obtain ⟨hlen, hcov⟩ :=
      cover_malloc env henv s1 live1 hr1 size (by omega) (by omega) fuel depth p s2 hrun
    refine ⟨le_trans ih.1 hlen, fun x hx => ?_⟩
    rcases hcov x hx with h | h
    · exact ih.2 x h
    · exact Or.inr ⟨s1.mmap_log.length, ih.1, h.1, h.2⟩
  | free s1 live1 p s2 hl1 hp hfree ih =>
    have hr1 := reachable_later env s live hr s1 live1 hl1
    obtain ⟨hlog, hcov⟩ := cover_free env henv s1 live1 hr1 p hp s2 hfree
    refine ⟨by rw [hlog]; exact ih.1, fun x hx => ih.2 x (hcov x hx)⟩

theorem mem_sentinel {env : Env} {j x : Nat} (h : x ∈ sentinel env j) : x = env.dummy := by
  unfold sentinel at h
  split at h
  · simpa using h
  · simp at h

/-- C15: when a returning `my_malloc(size)` from a reachable state chooses a
block `h` (in the state `s0` in which the search hits) whose size `c` has
`c - size ≤ 16`, then `h.size` becomes `size`, no other header changes its
size, every bin holds only nodes that it held before, without `h`; in every
later state in which `(p, size)` is live `my_free(p)` files `h` as head of
bin `find_bin_idx size` with size `size`; and in no later state is a byte of
the leftover `[h + 16 + size, h + 16 + c)` inside the extent of a block. -/
theorem no_split_waste (env : Env) (henv : EnvOK env) (s : State) (live : List (Nat × Nat))
    (hr : Reachable env s live) (size : Nat) (hm8 : size % 8 = 0) (h8 : 8 ≤ size)
    (h4000 : size ≤ 4000) (fuel depth p : Nat) (s1 : State)
    (hrun : my_malloc env size fuel depth s = .ok (p, s1)) :
    ∃ s0 i h prev, (s0 = s ∨ new_page env s = .ok s0) ∧
      find_best s0 size fuel = .ok (some (i, h, prev)) ∧
      take_block size i h prev s0 = .ok (p, s1) ∧ p = h + HEADER_SIZE ∧
      size ≤ (s0.mem h).size ∧
      ((s0.mem h).size - size ≤ HEADER_SIZE →
        (s1.mem h).size = size ∧
        (∀ x, x ≠ h → (s1.mem x).size = (s0.mem x).size) ∧
        (∀ j x, j ≤ MAX_BIN_SCALE - MIN_BIN_SCALE → Linked s1.mem (s1.free_bins j) x →
          Linked s0.mem (s0.free_bins j) x ∧ x ≠ h) ∧
        (∀ s2 live2, Later env s1 ((p, size) :: live) s2 live2 → (p, size) ∈ live2 →
          ∃ s3, my_free p s2 = .ok s3 ∧ s3.free_bins (find_bin_idx size) = h ∧
            (s3.mem h).size = size) ∧
        (∀ s2 live2 x, Later env s1 ((p, size) :: live) s2 live2 →
          h + HEADER_SIZE + size ≤ x → x < h + HEADER_SIZE + (s0.mem h).size →
          ¬ Covered env s2 live2 x)) := by
  have hH : HEADER_SIZE = 16 := rfl
  have hr1 : Reachable env s1 ((p, size) :: live) :=
    Reachable.malloc s live size fuel depth p s1 hr hm8 h8 h4000 hrun
  obtain ⟨bins, liveH, hinv, _, hmap, _⟩ := reachable_inv env henv s live hr
  obtain ⟨s0, bins0, i, b, prev, hs0, hinv0, hfb, hspec, htake, hp⟩ :=
    my_malloc_choice hinv henv size (by omega) (by omega) fuel depth p s1 hrun
  obtain ⟨_, hi, hfound, _⟩ := hspec
  obtain ⟨s2, bins2, htake2, hinv2, hlog2, hsz, hble, hbo, hown, hbins⟩ :=
    take_block_owned hinv0 henv size i b prev hi hfound
  have htake3 := htake
  rw [htake2] at htake3
  simp only [Except.ok.injEq, Prod.mk.injEq] at htake3
  obtain ⟨_, hs2⟩ := htake3
  subst hs2
  have hmap1 : ((p, size) :: live).map Prod.fst =
      (b :: liveH).map (fun h => h + HEADER_SIZE) := by
    simp only [List.map_cons, hmap, hp]
  refine ⟨s0, i, b, prev, ?_, hfb, htake, hp, hble, fun hno => ?_⟩
  · rcases hs0 with h | h
    · exact Or.inl h.1
    · exact Or.inr h.1
  have hns : ¬ (s0.mem b).size - size > HEADER_SIZE := by omega
  have hstate := take_block_nosplit size i b prev s0 hns
  rw [htake2] at hstate
  simp only [Except.ok.injEq, Prod.mk.injEq, true_and] at hstate
  have h10 : ∀ j, j ≤ MAX_BIN_SCALE - MIN_BIN_SCALE → j < 10 := by
    intro j hj
    simp only [MAX_BIN_SCALE, MIN_BIN_SCALE] at hj
    omega
  have hbd := hinv0.owned_ne_dummy henv b hbo
  have hnotcov : ∀ x, b + HEADER_SIZE + size ≤ x → x < b + HEADER_SIZE + (s0.mem b).size →
      ¬ Covered env s2 ((p, size) :: live) x := by
    rintro x hx1 hx2 ⟨c, hc, hcx, hxc⟩
    rcases hown c (isBlock_owned hinv2 hmap1 c hc) with h | ⟨h1, h2, h3⟩ | ⟨_, h2, _⟩
    · subst h
      omega
    · have := hinv0.disj b c hbo h2 (Ne.symm h1)
      omega
    · omega
  refine ⟨hsz, fun x hx => ?_, fun j x hj hl => ?_, fun s3 live3 hl hlive => ?_,
    fun s3 live3 x hl hx1 hx2 hcov => ?_⟩
  · rw [hstate, my_remove_from_free_list_size]
    exact writeSize_size_ne _ _ _ _ hx
  · have hx := (Chain.linked_iff _ _ (hinv2.chain j (h10 j hj)) x).1 hl
    rcases List.mem_append.1 hx with h | h
    · rcases hbins j x (h10 j hj) h with ⟨h2, h3⟩ | ⟨_, h3⟩
      · exact ⟨hinv0.mem_linked j (h10 j hj) x h2, h3⟩
      · omega
    · refine ⟨(Chain.linked_iff _ _ (hinv0.chain j (h10 j hj)) x).2
        (List.mem_append_right _ h), ?_⟩
      rw [mem_sentinel h]
      exact Ne.symm hbd
  · have hr3 := reachable_later env s2 _ hr1 s3 live3 hl
    obtain ⟨bins3, liveH3, hinv3, _, hmap3, hsz3⟩ := reachable_inv env henv s3 live3 hr3
    have hpl : p ∈ live3.map Prod.fst := List.mem_map_of_mem _ hlive
    obtain ⟨hh, _⟩ := live_header hmap3 p hpl
    have hsize3 := hsz3 (p, size) hlive
    rw [hp, Nat.add_sub_cancel] at hh hsize3
    simp only at hsize3
    obtain ⟨hok, _⟩ := my_free_spec hinv3 henv b hh
    rw [hsize3, ← hp] at hok
    exact ⟨_, hok, by simp [writeBin_apply], by simpa using hsize3⟩
  · obtain ⟨hlen, hc⟩ := cover_later env henv s2 _ hr1 s3 live3 hl
    rcases hc x hcov with h | ⟨k1, hk1, hk2, hk3⟩
    · exact hnotcov x hx1 hx2 h
    · obtain ⟨k, hk, hkb, hkc⟩ := hinv0.in_page b hbo
      rw [← hlog2] at hk
      have := henv.2.2.1 k k1 (by omega)
      omega

theorem exFreed1_reachable : Reachable exEnv exFreed1 [] :=
  Reachable.free exState1 [(4112, 16)] 4112 exFreed1 exState1_reachable (by decide)
    exFreed1_run

theorem exWaste_run : my_malloc exEnv 8 5 0 exFreed1 = .ok (4112, exWaste) := by
  rfl

theorem no_split_waste_witness :
    ∃ s0 i h prev, (s0 = exFreed1 ∨ new_page exEnv exFreed1 = .ok s0) ∧
      find_best s0 8 5 = .ok (some (i, h, prev)) ∧
      take_block 8 i h prev s0 = .ok (4112, exWaste) ∧ 4112 = h + HEADER_SIZE ∧
      8 ≤ (s0.mem h).size ∧
      ((s0.mem h).size - 8 ≤ HEADER_SIZE →
        (exWaste.mem h).size = 8 ∧
        (∀ x, x ≠ h → (exWaste.mem x).size = (s0.mem x).size) ∧
        (∀ j x, j ≤ MAX_BIN_SCALE - MIN_BIN_SCALE →
          Linked exWaste.mem (exWaste.free_bins j) x →
          Linked s0.mem (s0.free_bins j) x ∧ x ≠ h) ∧
        (∀ s2 live2, Later exEnv exWaste [(4112, 8)] s2 live2 → (4112, 8) ∈ live2 →
          ∃ s3, my_free 4112 s2 = .ok s3 ∧ s3.free_bins (find_bin_idx 8) = h ∧
            (s3.mem h).size = 8) ∧
        (∀ s2 live2 x, Later exEnv exWaste [(4112, 8)] s2 live2 →
          h + HEADER_SIZE + 8 ≤ x → x < h + HEADER_SIZE + (s0.mem h).size →
          ¬ Covered exEnv s2 live2 x)) :=
  no_split_waste exEnv exEnv_ok exFreed1 [] exFreed1_reachable 8 (by decide) (by decide)
    (by decide) 5 0 4112 exWaste exWaste_run

/-! ## A global best fit in a state with three free blocks -/

theorem exMix2_run : my_malloc exEnv 64 5 0 exState1 = .ok (4144, exMix2) := by
  rfl

theorem exMix3_run : my_free 4112 exMix2 = .ok exMix3 := by
  rfl

theorem exMix4_run : my_free 4144 exMix3 = .ok exMix4 := by
  rfl

theorem exBest_run : my_malloc exEnv 24 5 0 exMix4 = .ok (4144, exBest) := by
  rfl

theorem exMix4_reachable : Reachable exEnv exMix4 [] :=
  Reachable.free exMix3 [(4144, 64)] 4144 exMix4
    (Reachable.free exMix2 [(4144, 64), (4112, 16)] 4112 exMix3
      (Reachable.malloc exState1 [(4112, 16)] 64 5 0 4144 exMix2 exState1_reachable
        (by decide) (by decide) (by decide) exMix2_run)
      (by decide) exMix3_run)
    (by decide) exMix4_run

theorem global_best_fit_witness :
    (∃ s0 i b prev, (s0 = exMix4 ∨ new_page exEnv exMix4 = .ok s0) ∧
      find_best s0 24 5 = .ok (some (i, b, prev)) ∧
      take_block 24 i b prev s0 = .ok (4144, exBest) ∧ 4144 = b + HEADER_SIZE ∧
      24 ≤ (s0.mem b).size ∧ Linked s0.mem (s0.free_bins i) b ∧
      (∀ j x, j ≤ MAX_BIN_SCALE - MIN_BIN_SCALE → Linked s0.mem (s0.free_bins j) x →
        24 ≤ (s0.mem x).size → (s0.mem b).size ≤ (s0.mem x).size) ∧
      ∃ fuel0, ∀ fuel2, fuel0 ≤ fuel2 →
        ∃ n, naive_best_fit s0.mem 24 (all_bins s0 fuel2) = some n ∧
          (s0.mem n).size = (s0.mem b).size) ∧
    find_best exMix4 24 5 = .ok (some (3, 4128, 0)) ∧
    all_bins exMix4 5 = [96, 4096, 96, 96, 4128, 96, 96, 96, 96, 96, 96, 4208] ∧
    naive_best_fit exMix4.mem 24 (all_bins exMix4 5) = some 4128 ∧
    (exMix4.mem 4096).size = 16 ∧ (exMix4.mem 4128).size = 64 ∧
    (exMix4.mem 4208).size = 3968 :=
  ⟨(global_best_fit exEnv exEnv_ok exMix4 [] exMix4_reachable 24 (by decide)
    (by decide)).2.2.2 5 0 4144 exBest exBest_run, rfl, rfl, rfl, rfl, rfl, rfl⟩

end Malloc
